import Mathlib

/-!
# Table writer of goleveldb (`leveldb/table/writer.go`)

A shallow embedding of the table writer state machine (`NewWriter`, `Add`,
`Flush`, `Finish`, `write`, `Len`, `Size`, `CountBlock`) together with the
collaborators it drives: the output sink (`storage.Writer`), the block
builder (`block.Writer`), the filter builder (`block.FilterWriter`), the
comparer and the options.

Conventions of the embedding
* byte slices are lists of naturals, a `nil` slice is the empty list;
* Go `int` counters (`n`, `off`) are naturals: they only grow by lengths of
  buffers that have been handed to the sink;
* a call returns `Result.ret t err` (the writer after the call and the Go
  `error`, `none` for `nil`) or `Result.panic` (the writer is left as it was);
* the fields `o`, `cmp` and `filter` of the Go struct never change after
  `NewWriter`; they live in the environment `Env` that every operation takes;
* the field `lkey` is a slice that shares its memory with the key the caller
  passed to the last `Add`; a call cannot be interleaved with the caller, so
  inside a call it is a list of bytes, and a store of the caller into that
  memory between two calls is the action `Call.store` of the runs `runCalls`;
* the field `log` of `Writer` is a ghost history: it records each block that a
  pipeline call has written completely, and the footer. No operation reads it;
* `block.Writer`, `block.FilterWriter`, `bInfo.encode` and `writeFooter` belong to
  the repository but not to the sources at hand; they are modelled from the spec,
  their byte encodings being functions of the environment.

The definitions come first, the theorems after them; the theorems that settle
the claims of the specification are in the last section.
-/

namespace Table

/-- A byte slice. -/
abbrev Bytes := List Nat

/-- A Go `error` value, identified by a tag. -/
abbrev Err := Nat

/-- A key/value pair held by a block builder. -/
abbrev Entry := Bytes × Bytes

/-! ## Constants of `writer.go` -/

def kNoCompression : Nat := 0

def kSnappyCompression : Nat := 1

/-! ## The sink (`storage.Writer`, an `io.Writer`) -/

/-- What one `Write` call on the sink does: it takes the whole buffer, or it
fails with an error after having taken the first `written` bytes. -/
inductive WriteOutcome where
  | ok
  | fail (written : Nat) (e : Err)
deriving DecidableEq, Repr

/-- The sink: the bytes emitted so far and the behaviour of the `Write` calls
to come (one outcome per call, every call succeeds once the list is used up). -/
structure Sink where
  data : Bytes
  plan : List WriteOutcome
deriving DecidableEq, Repr

/-- One call of `io.Writer.Write`: the sink afterwards, the byte count and the
error returned. -/
def Sink.Write (s : Sink) (buf : Bytes) : Sink × Nat × Option Err :=
  match s.plan with
  | [] => ({ data := s.data ++ buf, plan := [] }, buf.length, none)
  | WriteOutcome.ok :: rest => ({ data := s.data ++ buf, plan := rest }, buf.length, none)
  | WriteOutcome.fail k e :: rest =>
      ({ data := s.data ++ buf.take k, plan := rest }, (buf.take k).length, some e)

/-- A sink none of whose future `Write` calls fails. -/
def Sink.Reliable (s : Sink) : Prop :=
  ∀ o ∈ s.plan, o = WriteOutcome.ok

/-! ## Block handle (`bInfo`) -/

/-- The block handle `bInfo` of package `table`: offset and size of a block. -/
structure bInfo where
  offset : Nat
  size : Nat
deriving DecidableEq, Repr

/-! ## Collaborators -/

/-- The comparer (`comparer.Comparer`): `Compare` is negative, zero or positive. -/
structure Comparer where
  Compare : Bytes → Bytes → Int
  Separator : Bytes → Bytes → Bytes
  Successor : Bytes → Bytes

/-- Strict order of the comparer. -/
def Comparer.lt (c : Comparer) (a b : Bytes) : Prop := c.Compare a b < 0

/-- Weak order of the comparer. -/
def Comparer.le (c : Comparer) (a b : Bytes) : Prop := c.Compare a b ≤ 0

instance (c : Comparer) (a b : Bytes) : Decidable (c.lt a b) :=
  inferInstanceAs (Decidable (c.Compare a b < 0))

instance (c : Comparer) (a b : Bytes) : Decidable (c.le a b) :=
  inferInstanceAs (Decidable (c.Compare a b ≤ 0))

/-- The comparer is a total preorder on keys: `le` is transitive and `lt` is
the negation of the converse of `le`. -/
def Comparer.IsOrder (c : Comparer) : Prop :=
  (∀ x y z, c.le x y → c.le y z → c.le x z) ∧ (∀ x y, c.lt x y ↔ ¬ c.le y x)

/-- Contract of `Separator` as the spec words it: for `a < b` the result `k`
has `a < k ≤ b`. -/
def Comparer.SeparatorContract (c : Comparer) : Prop :=
  ∀ a b, c.lt a b → c.lt a (c.Separator a b) ∧ c.le (c.Separator a b) b

/-- Contract of `Successor` as the spec words it: the result `k` has `k ≥ a`. -/
def Comparer.SuccessorContract (c : Comparer) : Prop :=
  ∀ a, c.le a (c.Successor a)

/-- A configured filter (`filter.Filter`); only `Name()` is used by the writer. -/
structure Filter where
  Name : Bytes
deriving DecidableEq, Repr

/-- The values of `opt.Compression` that `write` distinguishes. -/
inductive Compression where
  | DefaultCompression
  | NoCompression
  | SnappyCompression
deriving DecidableEq, Repr

/-- What the writer reads through `opt.OptionsGetter`. -/
structure Options where
  comparer : Comparer
  blockRestartInterval : Int
  blockSize : Int
  filter : Option Filter
  compressionType : Compression

/-- The environment of a writer: its options and the library functions of the
repository that are not part of `writer.go` (block encoding and size, filter
block encoding, snappy, CRC32C and its mask, handle and footer encoding). -/
structure Env where
  o : Options
  blockBytes : Int → List Entry → Bytes
  blockSizeOf : Int → List Entry → Nat
  filterBytes : List (Bytes ⊕ Nat) → Bytes
  snappyEncode : Bytes → Except Err Bytes
  crc32c : Bytes → Nat
  maskCRC32 : Nat → Nat
  encodeHandle : bInfo → Bytes
  footerBytes : bInfo → bInfo → Bytes

/-- Modelled from the spec: `block.Writer` is not part of the sources at hand.
A block builder accumulates key/value pairs in the order given, answers a size
query, emits a finished buffer and can be reset. The builder is its restart
interval and the pairs it holds. -/
structure BlockWriter where
  restartInterval : Int
  entries : List Entry
deriving DecidableEq, Repr

/-- Modelled from the spec: `block.NewWriter(restartInterval)`. -/
def BlockWriter.NewWriter (restartInterval : Int) : BlockWriter :=
  { restartInterval := restartInterval, entries := [] }

/-- Modelled from the spec: `block.Writer.Add` appends one pair. -/
def BlockWriter.Add (b : BlockWriter) (key value : Bytes) : BlockWriter :=
  { b with entries := b.entries ++ [(key, value)] }

/-- Modelled from the spec: `block.Writer.Size`, the accumulated size. -/
def BlockWriter.Size (env : Env) (b : BlockWriter) : Nat :=
  env.blockSizeOf b.restartInterval b.entries

/-- Modelled from the spec: `block.Writer.Finish`, the finished block buffer. -/
def BlockWriter.Finish (env : Env) (b : BlockWriter) : Bytes :=
  env.blockBytes b.restartInterval b.entries

/-- Modelled from the spec: `block.Writer.Reset` empties the builder for reuse. -/
def BlockWriter.Reset (b : BlockWriter) : BlockWriter :=
  { b with entries := [] }

/-- Modelled from the spec: `block.Writer.Len`, the number of pairs added. -/
def BlockWriter.Len (b : BlockWriter) : Nat :=
  b.entries.length

/-- Modelled from the spec: `block.FilterWriter` is not part of the sources at
hand. The filter builder is the sequence of calls it has received: `Sum.inl k`
for `Add(k)` and `Sum.inr o` for `Generate(o)`. -/
structure FilterWriter where
  calls : List (Bytes ⊕ Nat)
deriving DecidableEq, Repr

/-- Modelled from the spec: `block.NewFilterWriter(filter)`. -/
def FilterWriter.NewFilterWriter : FilterWriter :=
  { calls := [] }

/-- Modelled from the spec: `FilterWriter.Add(key)`. -/
def FilterWriter.Add (f : FilterWriter) (key : Bytes) : FilterWriter :=
  { calls := f.calls ++ [Sum.inl key] }

/-- Modelled from the spec: `FilterWriter.Generate(offset)`. -/
def FilterWriter.Generate (f : FilterWriter) (offset : Nat) : FilterWriter :=
  { calls := f.calls ++ [Sum.inr offset] }

/-- Modelled from the spec: `FilterWriter.Finish()` serialises all segments. -/
def FilterWriter.Finish (env : Env) (f : FilterWriter) : Bytes :=
  env.filterBytes f.calls

/-- Modelled from the spec: `bInfo.encode` is not part of the sources at hand;
the serialised handle is what the environment's handle encoding gives. -/
def bInfo.encode (env : Env) (bi : bInfo) : Bytes :=
  env.encodeHandle bi

/-- The four bytes `binary.Write(w, binary.LittleEndian, x)` emits for a
`uint32`. -/
def le32 (x : Nat) : Bytes :=
  [x % 256, x / 256 % 256, x / 65536 % 256, x / 16777216 % 256]

/-! ## Ghost history -/

/-- Which block a pipeline call wrote. -/
inductive BlockKind where
  | data
  | filter
  | metaindex
  | index
deriving DecidableEq, Repr

/-- Ghost record of one block written completely: the pairs of the builder it
came from (none for the filter block), the length of the sink when the
pipeline call began and when it returned, and the handle the call filled in. -/
structure BlockRecord where
  kind : BlockKind
  entries : List Entry
  start : Nat
  stop : Nat
  h : bInfo
deriving DecidableEq, Repr

/-- Ghost events: a block written, or the footer written with the two handles
given to `writeFooter` and the length of the sink before and after. -/
inductive Event where
  | block (r : BlockRecord)
  | footer (mb ib : bInfo) (start stop : Nat)
deriving DecidableEq, Repr

/-! ## The writer -/

/-- The mutable part of the Go struct `Writer`, and the ghost `log`. -/
structure Writer where
  w : Sink
  dataBlock : BlockWriter
  indexBlock : BlockWriter
  filterBlock : Option FilterWriter
  n : Nat
  off : Nat
  lkey : Bytes
  lblock : bInfo
  pindex : Bool
  closed : Bool
  log : List Event
deriving DecidableEq, Repr

/-- Outcome of `Add`, `Flush` or `Finish`. -/
inductive Result where
  | panic
  | ret (t : Writer) (err : Option Err)
deriving DecidableEq, Repr

/-- The function `NewWriter`. -/
def NewWriter (env : Env) (w : Sink) : Writer :=
  { w := w
    dataBlock := BlockWriter.NewWriter env.o.blockRestartInterval
    indexBlock := BlockWriter.NewWriter 1
    filterBlock :=
      match env.o.filter with
      | some _ => some (FilterWriter.NewFilterWriter.Generate 0)
      | none => none
    n := 0
    off := 0
    lkey := []
    lblock := { offset := 0, size := 0 }
    pindex := false
    closed := false
    log := [] }

/-- First step of `write`: the compression tag and the payload, or the error of
`snappy.Encode`. -/
def compress (env : Env) (buf : Bytes) (raw : Bool) : Except Err (Nat × Bytes) :=
  if raw then Except.ok (kNoCompression, buf)
  else
    match env.o.compressionType with
    | Compression.DefaultCompression | Compression.SnappyCompression =>
      match env.snappyEncode buf with
      | Except.ok b => Except.ok (kSnappyCompression, b)
      | Except.error e => Except.error e
    | Compression.NoCompression => Except.ok (kNoCompression, buf)

/-- The method `Writer.write`. The handle `bi` is passed by value and the
handle after the call is returned next to the writer and the error. -/
def Writer.write (env : Env) (t : Writer) (buf : Bytes) (bi : bInfo) (raw : Bool) :
    Writer × bInfo × Option Err :=
  match compress env buf raw with
  | Except.error e => (t, bi, some e)
  | Except.ok (compression, buf) =>
    let bi : bInfo := { offset := t.off, size := buf.length }
    match t.w.Write buf with
    | (w1, _, some e) => ({ t with w := w1 }, bi, some e)
    | (w1, _, none) =>
      let compbit : Bytes := [compression]
      match w1.Write compbit with
      | (w2, _, some e) => ({ t with w := w2 }, bi, some e)
      | (w2, _, none) =>
        match w2.Write (le32 (env.maskCRC32 (env.crc32c (buf ++ compbit)))) with
        | (w3, _, some e) => ({ t with w := w3 }, bi, some e)
        | (w3, _, none) => ({ t with w := w3, off := t.off + (buf.length + 5) }, bi, none)

/-- The method `Writer.Flush`. -/
def Writer.Flush (env : Env) (t : Writer) : Result :=
  if t.closed then Result.panic
  else if t.pindex then Result.ret t none
  else
    match t.write env (t.dataBlock.Finish env) t.lblock false with
    | (t1, bi, some e) => Result.ret { t1 with lblock := bi } (some e)
    | (t1, bi, none) =>
      let rec1 : BlockRecord :=
        { kind := BlockKind.data, entries := t.dataBlock.entries,
          start := t.w.data.length, stop := t1.w.data.length, h := bi }
      let t2 : Writer :=
        { t1 with lblock := bi, dataBlock := t1.dataBlock.Reset, pindex := true,
                  log := t1.log ++ [Event.block rec1] }
      match t2.filterBlock with
      | some f => Result.ret { t2 with filterBlock := some (f.Generate t2.off) } none
      | none => Result.ret t2 none

/-- The method `Writer.Add`. The assignment `t.lkey = key` keeps the slice the
caller passed, it makes no copy: during the call the last key holds the bytes of
`key`, and what the caller stores into that memory between calls is
`Writer.store`. -/
def Writer.Add (env : Env) (t : Writer) (key value : Bytes) : Result :=
  if t.closed then Result.panic
  else
    let t1 : Writer :=
      if t.pindex then
        { t with
          indexBlock :=
            t.indexBlock.Add (env.o.comparer.Separator t.lkey key) (t.lblock.encode env)
          pindex := false }
      else t
    let t2 : Writer :=
      match t1.filterBlock with
      | some f => { t1 with filterBlock := some (f.Add key) }
      | none => t1
    let t3 : Writer := { t2 with lkey := key, n := t2.n + 1 }
    let t4 : Writer := { t3 with dataBlock := t3.dataBlock.Add key value }
    if (t4.dataBlock.Size env : Int) ≥ env.o.blockSize then t4.Flush env
    else Result.ret t4 none

/-- The bytes of the key prefix `"filter."`. -/
def filterKeyPrefix : Bytes := [102, 105, 108, 116, 101, 114, 46]

/-- Modelled from the spec: `writeFooter` is not part of the sources at hand.
It writes the fixed-size footer built from the meta-block and index-block
handles with one `Write` call and returns what that call returns. -/
def writeFooter (env : Env) (w : Sink) (mb ib : bInfo) : Sink × Nat × Option Err :=
  w.Write (env.footerBytes mb ib)

/-- The method `Writer.Finish`. -/
def Writer.Finish (env : Env) (t : Writer) : Result :=
  if t.closed then Result.panic
  else
    match t.Flush env with
    | Result.panic => Result.panic
    | Result.ret t0 (some e) => Result.ret t0 (some e)
    | Result.ret t0 none =>
      let t1 : Writer := { t0 with closed := true }
      -- filter block
      let fi0 : bInfo := { offset := 0, size := 0 }
      let afterFilter : Writer × bInfo × Option Err :=
        match t1.filterBlock with
        | some f =>
          match t1.write env (f.Finish env) fi0 true with
          | (t2, fi, some e) => (t2, fi, some e)
          | (t2, fi, none) =>
            ({ t2 with
               log := t2.log ++ [Event.block
                 { kind := BlockKind.filter, entries := [],
                   start := t1.w.data.length, stop := t2.w.data.length, h := fi }] },
             fi, none)
        | none => (t1, fi0, none)
      match afterFilter with
      | (t2, _, some e) => Result.ret t2 (some e)
      | (t2, fi, none) =>
        -- meta block
        let meta0 : BlockWriter := BlockWriter.NewWriter env.o.blockRestartInterval
        let meta1 : BlockWriter :=
          match env.o.filter with
          | some flt => meta0.Add (filterKeyPrefix ++ flt.Name) (fi.encode env)
          | none => meta0
        match t2.write env (meta1.Finish env) { offset := 0, size := 0 } false with
        | (t3, _, some e) => Result.ret t3 (some e)
        | (t3, mb, none) =>
          let t3 : Writer :=
            { t3 with
              log := t3.log ++ [Event.block
                { kind := BlockKind.metaindex, entries := meta1.entries,
                  start := t2.w.data.length, stop := t3.w.data.length, h := mb }] }
          -- index block
          let t4 : Writer :=
            if t3.pindex then
              { t3 with
                indexBlock :=
                  t3.indexBlock.Add (env.o.comparer.Successor t3.lkey) (t3.lblock.encode env)
                pindex := false }
            else t3
          match t4.write env (t4.indexBlock.Finish env) { offset := 0, size := 0 } false with
          | (t5, _, some e) => Result.ret t5 (some e)
          | (t5, ib, none) =>
            let t5 : Writer :=
              { t5 with
                log := t5.log ++ [Event.block
                  { kind := BlockKind.index, entries := t4.indexBlock.entries,
                    start := t4.w.data.length, stop := t5.w.data.length, h := ib }] }
            -- footer
            match writeFooter env t5.w mb ib with
            | (w6, _, some e) => Result.ret { t5 with w := w6 } (some e)
            | (w6, n, none) =>
              Result.ret
                { t5 with
                  w := w6, off := t5.off + n,
                  log := t5.log ++ [Event.footer mb ib t5.w.data.length w6.data.length] }
                none

/-- The method `Writer.Len`. -/
def Writer.Len (t : Writer) : Nat := t.n

/-- The method `Writer.Size`. -/
def Writer.Size (t : Writer) : Nat := t.off

/-- The method `Writer.CountBlock`. -/
def Writer.CountBlock (t : Writer) : Nat :=
  let n := t.indexBlock.Len
  if !t.closed then n + 1 else n

/-! ## Runs -/

/-- One call on the writer. -/
inductive Op where
  | add (key value : Bytes)
  | flush
  | finish
deriving DecidableEq, Repr

/-- Perform one call. -/
def Writer.step (env : Env) (t : Writer) : Op → Result
  | Op.add key value => t.Add env key value
  | Op.flush => t.Flush env
  | Op.finish => t.Finish env

/-- Perform the calls in order as long as each returns a `nil` error; the final
writer, or `none` when some call panicked or returned an error. -/
def runOk (env : Env) (t : Writer) : List Op → Option Writer
  | [] => some t
  | op :: ops =>
    match t.step env op with
    | Result.ret t1 none => runOk env t1 ops
    | _ => none

/-- The writer after one call, whatever it returned (left as it was by a
panic). -/
def Writer.after (env : Env) (t : Writer) (op : Op) : Writer :=
  match t.step env op with
  | Result.panic => t
  | Result.ret t1 _ => t1

/-- The writer after a sequence of calls, whatever each returned. -/
def exec (env : Env) (t : Writer) (ops : List Op) : Writer :=
  ops.foldl (Writer.after env) t

/-- The pairs passed to `Add` by a sequence of calls, in call order. -/
def addsOf : List Op → List Entry
  | [] => []
  | Op.add key value :: ops => (key, value) :: addsOf ops
  | _ :: ops => addsOf ops

/-- The data blocks of a ghost history, in write order. -/
def dataBlocks : List Event → List BlockRecord
  | [] => []
  | Event.block r :: es =>
    if r.kind = BlockKind.data then r :: dataBlocks es else dataBlocks es
  | Event.footer _ _ _ _ :: es => dataBlocks es

/-! ## A concrete environment -/

/-- Bytewise lexicographic comparison (`bytes.Compare`). -/
def bytesCompare : Bytes → Bytes → Int
  | [], [] => 0
  | [], _ :: _ => -1
  | _ :: _, [] => 1
  | x :: xs, y :: ys => if x < y then -1 else if y < x then 1 else bytesCompare xs ys

/-- A comparer on the bytewise order whose separator is the upper key and whose
successor is the key itself; both meet the contracts of the spec. -/
def demoComparer : Comparer :=
  { Compare := bytesCompare, Separator := fun _ b => b, Successor := fun a => a }

/-- A length-prefixed serialisation of the pairs of a block. -/
def demoBlockBytes (entries : List Entry) : Bytes :=
  match entries with
  | [] => []
  | (k, v) :: es => k.length :: k ++ (v.length :: v) ++ demoBlockBytes es

/-- A small environment: threshold of 8 bytes, no filter, no compression. -/
def demoEnv : Env :=
  { o := { comparer := demoComparer, blockRestartInterval := 16, blockSize := 8,
           filter := none, compressionType := Compression.NoCompression }
    blockBytes := fun _ es => demoBlockBytes es
    blockSizeOf := fun _ es => (demoBlockBytes es).length
    filterBytes := fun cs => [cs.length]
    snappyEncode := fun b => Except.ok (b.length :: b)
    crc32c := fun b => b.sum % 4294967296
    maskCRC32 := fun c => ((c / 32768 + c * 131072) + 2726488792) % 4294967296
    encodeHandle := fun bi => [bi.offset, bi.size]
    footerBytes := fun mb ib => [mb.offset, mb.size, ib.offset, ib.size, 87, 251, 128, 139] }

/-- The environment `demoEnv` with a filter named `"f"` and snappy compression. -/
def demoEnvF : Env :=
  { demoEnv with
    o := { demoEnv.o with filter := some { Name := [102] },
                          compressionType := Compression.SnappyCompression } }

/-- A sink that holds nothing yet and never fails. -/
def emptySink : Sink := { data := [], plan := [] }

/-- A comparer on the bytewise order whose separator is the upper key when the
lower key is below it, and the key `[5]` otherwise (where the contract of the
spec says nothing). -/
def pickyComparer : Comparer :=
  { Compare := bytesCompare
    Separator := fun a b => if bytesCompare a b < 0 then b else [5]
    Successor := fun a => a }

/-- The environment `demoEnv` with the comparer `pickyComparer`. -/
def demoEnvP : Env :=
  { demoEnv with o := { demoEnv.o with comparer := pickyComparer } }

/-- A `Flush` before the first `Add`, then the empty key and the key `[1]`. -/
def demoOpsP : List Op :=
  [Op.flush, Op.add [] [0], Op.add [1] [0]]

/-- The writer after `demoOpsP` and `Finish` in `demoEnvP` on the empty sink. -/
def demoFinalP : Writer :=
  exec demoEnvP (NewWriter demoEnvP { data := [], plan := [] }) (demoOpsP ++ [Op.finish])

/-- A sink that holds nothing yet and whose first `Write` fails, with error 7,
before taking any byte. -/
def failingSink : Sink := { data := [], plan := [WriteOutcome.fail 0 7] }

/-- The number of `Add` calls, in a sequence of calls made on `t`, that did not
panic. -/
def returnedAdds (env : Env) (t : Writer) : List Op → Nat
  | [] => 0
  | op :: ops =>
    (match op, t.step env op with
     | Op.add _ _, Result.ret _ _ => 1
     | _, _ => 0) + returnedAdds env (t.after env op) ops

/-- Three `Add` calls with an explicit `Flush` after the first. -/
def demoOps : List Op :=
  [Op.add [1] [2, 3], Op.flush, Op.add [2] [5, 5, 5, 5, 5, 5], Op.add [3] []]

/-- The writer after `demoOps` and `Finish` in `demoEnv` on the empty sink. -/
def demoFinal : Writer :=
  exec demoEnv (NewWriter demoEnv emptySink) (demoOps ++ [Op.finish])

/-- The writer after `demoOps` and `Finish` in `demoEnvF` on the empty sink. -/
def demoFinalF : Writer :=
  exec demoEnvF (NewWriter demoEnvF emptySink) (demoOps ++ [Op.finish])

/-! ## Definitions used in the statements and proofs -/

/-- The bytes one successful pipeline call appends for payload `P` and tag `c`. -/
def framed (env : Env) (c : Nat) (P : Bytes) : Bytes :=
  P ++ [c] ++ le32 (env.maskCRC32 (env.crc32c (P ++ [c])))

/-! ### Post-states of `Flush`, `Add` and `Finish` -/

/-- The writer after a `Flush` that wrote payload `P` and left the sink `w1`. -/
def Writer.flushed (t : Writer) (w1 : Sink) (P : Bytes) : Writer :=
  { t with
    w := w1
    off := t.off + (P.length + 5)
    lblock := { offset := t.off, size := P.length }
    dataBlock := t.dataBlock.Reset
    pindex := true
    log := t.log ++ [Event.block
      { kind := BlockKind.data, entries := t.dataBlock.entries,
        start := t.w.data.length, stop := w1.data.length,
        h := { offset := t.off, size := P.length } }]
    filterBlock := t.filterBlock.map (fun f => f.Generate (t.off + (P.length + 5))) }

/-- The writer after the part of `Add` that precedes the size test. -/
def Writer.buffered (env : Env) (t : Writer) (key value : Bytes) : Writer :=
  { t with
    indexBlock :=
      if t.pindex then
        t.indexBlock.Add (env.o.comparer.Separator t.lkey key) (t.lblock.encode env)
      else t.indexBlock
    pindex := false
    filterBlock := t.filterBlock.map (fun f => f.Add key)
    lkey := key
    n := t.n + 1
    dataBlock := t.dataBlock.Add key value }

/-- The pairs `Finish` puts into the meta block for filter handle `fi`. -/
def metaEntries (env : Env) (fi : bInfo) : List Entry :=
  match env.o.filter with
  | some flt => [(filterKeyPrefix ++ flt.Name, fi.encode env)]
  | none => []

/-- The index block builder after `Finish` has inserted the pending entry. -/
def Writer.lastIndex (env : Env) (t : Writer) : BlockWriter :=
  t.indexBlock.Add (env.o.comparer.Successor t.lkey) (t.lblock.encode env)

/-- The filter-block step of a `Finish` that returns `nil`, started on the
writer `t0` left by the flush: the sink `wf`, the filter handle `fi`, the ghost
events `ev` and the byte counter `off1` after the step. -/
def FilterStage (env : Env) (t0 : Writer) (wf : Sink) (fi : bInfo) (ev : List Event)
    (off1 : Nat) : Prop :=
  (t0.filterBlock = none ∧ wf = t0.w ∧ fi = { offset := 0, size := 0 } ∧ ev = [] ∧
    off1 = t0.off) ∨
  (∃ f c P, t0.filterBlock = some f ∧
    compress env (f.Finish env) true = Except.ok (c, P) ∧
    wf.data = t0.w.data ++ framed env c P ∧
    fi = { offset := t0.off, size := P.length } ∧
    ev = [Event.block { kind := BlockKind.filter, entries := [],
                        start := t0.w.data.length, stop := wf.data.length, h := fi }] ∧
    off1 = t0.off + (P.length + 5))

/-! ### The invariant of runs without error -/

/-- The events of a history lie end to end in the sink, from position `a` to
position `b`; a block record spans its payload and the five trailer bytes, and
its handle gives the offset counted from `base`, where the writer started. -/
def Chained (base : Nat) : Nat → List Event → Nat → Prop
  | a, [], b => a = b
  | a, Event.block r :: es, b =>
    r.start = a ∧ r.start = base + r.h.offset ∧ r.stop = r.start + (r.h.size + 5) ∧
      Chained base r.stop es b
  | a, Event.footer _ _ start stop :: es, b =>
    start = a ∧ start ≤ stop ∧ Chained base stop es b

/-- The handle of a data block record describes its payload: the payload is
what the compression step makes of the encoded pairs, the handle size is the
payload length, and the sink holds the payload at the record's start. -/
def DataOk (env : Env) (data : Bytes) (r : BlockRecord) : Prop :=
  ∃ c P, compress env (env.blockBytes env.o.blockRestartInterval r.entries) false
      = Except.ok (c, P) ∧
    r.h.size = P.length ∧ (data.drop r.start).take r.h.size = P

/-- Invariant of the states reached from `NewWriter` by `Add` and `Flush` calls
that all returned `nil`; `base` is the length of the sink when the writer was
created and `adds` the pairs passed to `Add` so far. -/
structure Inv (env : Env) (base : Nat) (t : Writer) (adds : List Entry) : Prop where
  notClosed : t.closed = false
  restart : t.dataBlock.restartInterval = env.o.blockRestartInterval
  onlyData : ∀ e ∈ t.log, ∃ r, e = Event.block r ∧ r.kind = BlockKind.data
  pairs : ((dataBlocks t.log).map (fun r => r.entries)).flatten ++ t.dataBlock.entries = adds
  count : t.n = adds.length
  bytes : t.w.data.length = base + t.off
  chain : Chained base base t.log t.w.data.length
  payload : ∀ r ∈ dataBlocks t.log, DataOk env t.w.data r
  handles :
    t.indexBlock.entries.map Prod.snd ++ (if t.pindex then [t.lblock.encode env] else [])
      = (dataBlocks t.log).map (fun r => r.h.encode env)
  pending : t.pindex = true → t.dataBlock.entries = []

/-! ### Byte accounting and the state after `Finish` -/

/-- The bytes a history accounts for: payload length plus five for each block
written, and the footer length for the footer. -/
def logBytes (env : Env) : List Event → Nat
  | [] => 0
  | Event.block r :: es => (r.h.size + 5) + logBytes env es
  | Event.footer mb ib _ _ :: es => (env.footerBytes mb ib).length + logBytes env es

/-- What holds after a `Finish` that returned `nil`, in a run where every call
returned `nil`. -/
structure Done (env : Env) (base : Nat) (t : Writer) (adds : List Entry) : Prop where
  isClosed : t.closed = true
  noPending : t.pindex = false
  pairs : ((dataBlocks t.log).map (fun r => r.entries)).flatten = adds
  count : t.n = adds.length
  bytes : t.w.data.length = base + t.off
  chain : Chained base base t.log t.w.data.length
  total : t.off = logBytes env t.log
  payload : ∀ r ∈ dataBlocks t.log, DataOk env t.w.data r
  handles :
    t.indexBlock.entries.map Prod.snd = (dataBlocks t.log).map (fun r => r.h.encode env)

/-! ### Index keys against block keys -/

/-- The key of the last pair added, the `nil` key when nothing was added. -/
def lastKey (adds : List Entry) : Bytes :=
  ((adds.map Prod.fst).getLast?).getD []

/-- The index entry `e` covers the block `blk`: its key is at or above every
key of the block. -/
def Covers (c : Comparer) (e : Entry) (blk : List Entry) : Prop :=
  ∀ kv ∈ blk, c.le kv.1 e.1

/-- The index entry `e` precedes the block `blk`: its key is at or below every
key of the block. -/
def Precedes (c : Comparer) (e : Entry) (blk : List Entry) : Prop :=
  ∀ kv ∈ blk, c.le e.1 kv.1

/-- The entry lists of the data blocks written, in write order. -/
def blockEntries (t : Writer) : List (List Entry) :=
  (dataBlocks t.log).map (fun r => r.entries)

/-- Invariant behind the lower bound: the last key is the key of the last pair
added, it bounds every key added, and every index entry covers its block (the
block written last has no index entry yet while one is pending). -/
structure CoverInv (env : Env) (t : Writer) (adds : List Entry) : Prop where
  lkeyEq : t.lkey = lastKey adds
  below : ∀ kv ∈ adds, env.o.comparer.le kv.1 t.lkey
  covered :
    if t.pindex = true then
      ∃ init last, blockEntries t = init ++ [last] ∧
        List.Forall₂ (Covers env.o.comparer) t.indexBlock.entries init
    else List.Forall₂ (Covers env.o.comparer) t.indexBlock.entries (blockEntries t)

/-- Invariant behind the upper bound: every index key is at or below the last
key and every key of the block being built, and every index entry but the one
of the block written last precedes the block written after its own. -/
structure PrecInv (env : Env) (t : Writer) : Prop where
  idxBelow : ∀ e ∈ t.indexBlock.entries, env.o.comparer.le e.1 t.lkey
  current : ∀ e ∈ t.indexBlock.entries, Precedes env.o.comparer e t.dataBlock.entries
  prec :
    if t.pindex = true then
      List.Forall₂ (Precedes env.o.comparer) t.indexBlock.entries (blockEntries t).tail
    else
      (t.indexBlock.entries = [] ∧ blockEntries t = []) ∨
      ∃ idx0 e, t.indexBlock.entries = idx0 ++ [e] ∧
        List.Forall₂ (Precedes env.o.comparer) idx0 (blockEntries t).tail

/-! ### Sink writes of a call, read off the plan -/

/-- Every outcome of the list is a success. -/
def AllOk (l : List WriteOutcome) : Prop :=
  ∀ o ∈ l, o = WriteOutcome.ok

/-- Going from plan `p` to plan `p1`, some number of `Write` calls were made
and every one of them succeeded. -/
def Clean (p p1 : List WriteOutcome) : Prop :=
  ∃ k, p1 = p.drop k ∧ AllOk (p.take k)

/-- The call that failed with error `e`: a pipeline call on the writer `a`, or
the footer write on its sink; `w1` is the sink it left. -/
def FailingCall (env : Env) (a : Writer) (w1 : Sink) (e : Err) : Prop :=
  (∃ buf bi raw b bi1, a.write env buf bi raw = (b, bi1, some e) ∧ w1 = b.w) ∨
  (∃ mb ib n, writeFooter env a.w mb ib = (w1, n, some e))

/-- How the sink writes of a call relate to the error it returns: with `nil`
every `Write` made succeeded; with an error `e` the writes made up to some
point succeeded, then a pipeline call or the footer write returned `e`, and the
sink was not touched after that. -/
def Propagates (env : Env) (w : Sink) (w1 : Sink) (err : Option Err) : Prop :=
  (err = none → Clean w.plan w1.plan) ∧
  (∀ e, err = some e → ∃ a : Writer, Clean w.plan a.w.plan ∧ FailingCall env a w1 e)

/-- How the byte counter relates to the bytes a call emits: the sink grows by
some bytes, the counter by no more than their number, and by exactly their
number when the call returns `nil`. -/
def Counts (w : Sink) (o : Nat) (w1 : Sink) (o1 : Nat) (err : Option Err) : Prop :=
  ∃ x, w1.data = w.data ++ x ∧ o ≤ o1 ∧ o1 ≤ o + x.length ∧ (err = none → o1 = o + x.length)

/-- A sink that holds nothing yet, takes the first `Write` whole and fails at
the second, with error 7, after taking one byte. -/
def brokenSink : Sink :=
  { data := [], plan := [WriteOutcome.ok, WriteOutcome.fail 1 7] }

/-! ### Empty blocks -/

/-- While an index entry is pending the data block builder holds no pair. -/
def PendingEmpty (t : Writer) : Prop :=
  t.pindex = true → t.dataBlock.entries = []

/-- Every data block written after the first holds a pair, and once a block
has been written the builder holds a pair whenever no index entry is pending. -/
def LaterBlocksFull (t : Writer) : Prop :=
  (∀ r ∈ (dataBlocks t.log).tail, r.entries ≠ []) ∧
  (t.pindex = false → dataBlocks t.log ≠ [] → t.dataBlock.entries ≠ [])

/-- Every data block written holds a pair, and the builder holds a pair
whenever no index entry is pending. -/
def AllBlocksFull (t : Writer) : Prop :=
  (∀ r ∈ dataBlocks t.log, r.entries ≠ []) ∧
  (t.pindex = false → t.dataBlock.entries ≠ [])

/-! ### Calls received by the filter builder -/

/-- The calls one data block contributes to the filter builder: `Add` of each
of its keys, then `Generate` at the offset just past its trailer. -/
def blockCalls (r : BlockRecord) : List (Bytes ⊕ Nat) :=
  r.entries.map (fun kv => Sum.inl kv.1) ++ [Sum.inr (r.h.offset + (r.h.size + 5))]

/-- The calls the filter builder has received when the data blocks `blocks`
have been written: `Generate(0)`, then the calls of each block in turn. -/
def filterCalls (blocks : List BlockRecord) : List (Bytes ⊕ Nat) :=
  Sum.inr 0 :: (blocks.map blockCalls).flatten

/-- The filter builder exists exactly when a filter is configured, and the
calls it has received are those of the data blocks written followed by `Add`
of the keys of the block being built. -/
def FilterInv (env : Env) (t : Writer) : Prop :=
  (env.o.filter = none → t.filterBlock = none) ∧
  (env.o.filter ≠ none →
    t.filterBlock = some
      { calls := filterCalls (dataBlocks t.log)
          ++ t.dataBlock.entries.map (fun kv => Sum.inl kv.1) })

/-! ## The caller's key buffers -/

/-- The writer after the caller has stored the bytes `b` over the key it passed
to the last `Add`. `Add` keeps the slice it is given (`t.lkey = key`, no copy),
so the last key shares its memory with the caller's buffer, and a store into
that buffer between two calls changes what `Separator` and `Successor` read
afterwards. The slice keeps its length: bytes of another length are not the
result of a store into this key and leave the writer as it is. -/
def Writer.store (t : Writer) (b : Bytes) : Writer :=
  if b.length = t.lkey.length then { t with lkey := b } else t

/-- What the caller does: one call on the writer, or a store into the memory of
the key it passed to the last `Add`. -/
inductive Call where
  | op (o : Op)
  | store (b : Bytes)
deriving DecidableEq, Repr

/-- Perform one action of the caller; a store is not a call and returns no
error. -/
def Writer.call (env : Env) (t : Writer) : Call → Result
  | Call.op o => t.step env o
  | Call.store b => Result.ret (t.store b) none

/-- Perform the actions of the caller in order as long as each call returns a
`nil` error; the final writer, or `none` when some call panicked or returned an
error. -/
def runCalls (env : Env) (t : Writer) : List Call → Option Writer
  | [] => some t
  | c :: cs =>
    match t.call env c with
    | Result.ret t1 none => runCalls env t1 cs
    | _ => none

/-- The calls on the writer among the actions of the caller, in order. -/
def opsOf : List Call → List Op
  | [] => []
  | Call.op o :: cs => o :: opsOf cs
  | Call.store _ :: cs => opsOf cs

/-- The caller leaves its keys as they are: every store writes the bytes that
the key passed to the last `Add` already holds. The first argument is that key,
the `nil` key before the first `Add`. -/
def keepsKeys : Bytes → List Call → Bool
  | _, [] => true
  | _, Call.op (Op.add key _) :: cs => keepsKeys key cs
  | k, Call.op Op.flush :: cs => keepsKeys k cs
  | k, Call.op Op.finish :: cs => keepsKeys k cs
  | k, Call.store b :: cs => decide (b = k) && keepsKeys k cs

/-- A caller that reuses its key buffer: the key `[6]` is added and its block
flushed, then the caller stores `[7]` over it and adds the key `[7]`. -/
def reuseCalls : List Call :=
  [Call.op (Op.add [6] [0]), Call.op Op.flush, Call.store [7], Call.op (Op.add [7] [0])]

/-- The writer after `reuseCalls` and `Finish` in `demoEnvP` on the empty sink. -/
def reuseFinal : Writer :=
  exec demoEnvP
    ((exec demoEnvP (NewWriter demoEnvP emptySink) [Op.add [6] [0], Op.flush]).store [7])
    [Op.add [7] [0], Op.finish]

/-- A caller that reuses its key buffer on smaller keys: the key `[1]` is added
and its block flushed, then the caller stores `[2]` over it and adds `[2]`. -/
def reuseCallsLow : List Call :=
  [Call.op (Op.add [1] [0]), Call.op Op.flush, Call.store [2], Call.op (Op.add [2] [0])]

/-- The writer after `reuseCallsLow` and `Finish` in `demoEnvP` on the empty
sink. -/
def reuseFinalLow : Writer :=
  exec demoEnvP
    ((exec demoEnvP (NewWriter demoEnvP emptySink) [Op.add [1] [0], Op.flush]).store [2])
    [Op.add [2] [0], Op.finish]

/-- A caller that passes two keys in buffers of their own and reuses the second
buffer for the third key. -/
def reuseCallsLate : List Call :=
  [Call.op (Op.add [6] [0]), Call.op Op.flush, Call.op (Op.add [7] [0]), Call.op Op.flush,
   Call.store [8], Call.op (Op.add [8] [0])]

/-- The writer after `reuseCallsLate` and `Finish` in `demoEnvP` on the empty
sink. -/
def reuseFinalLate : Writer :=
  exec demoEnvP
    ((exec demoEnvP (NewWriter demoEnvP emptySink)
        [Op.add [6] [0], Op.flush, Op.add [7] [0], Op.flush]).store [8])
    [Op.add [8] [0], Op.finish]

/-- The calls `demoOps` made by a caller that, after the first `Add`, stores
over the key the bytes it already holds. -/
def keptCalls : List Call :=
  [Call.op (Op.add [1] [2, 3]), Call.store [1], Call.op Op.flush,
   Call.op (Op.add [2] [5, 5, 5, 5, 5, 5]), Call.op (Op.add [3] [])]

/-! # Theorems -/

/-! ## What the sink and the pipeline do -/

theorem Sink.Write_ok {s s1 : Sink} {buf : Bytes} {n : Nat}
    (h : s.Write buf = (s1, n, none)) : s1.data = s.data ++ buf ∧ n = buf.length := by
  unfold Sink.Write at h
  split at h
  · simp only [Prod.mk.injEq] at h
    obtain ⟨rfl, rfl, -⟩ := h
    exact ⟨rfl, rfl⟩
  · simp only [Prod.mk.injEq] at h
    obtain ⟨rfl, rfl, -⟩ := h
    exact ⟨rfl, rfl⟩
  · simp at h

theorem Sink.Write_reliable {s : Sink} (hs : s.Reliable) (buf : Bytes) :
    ∃ s1, s.Write buf = (s1, buf.length, none) ∧ s1.Reliable := by
  unfold Sink.Write
  rcases hp : s.plan with _ | ⟨o, rest⟩
  · exact ⟨_, rfl, by simp [Sink.Reliable]⟩
  · have ho : o = WriteOutcome.ok := hs o (by simp [hp])
    subst ho
    refine ⟨_, rfl, ?_⟩
    intro o ho
    exact hs o (by simp only [hp]; exact List.mem_cons_of_mem _ ho)

theorem framed_length (env : Env) (c : Nat) (P : Bytes) :
    (framed env c P).length = P.length + 5 := by
  simp [framed, le32]

/-- Whatever `write` returns, it touches only the sink and the byte counter. -/
theorem Writer.write_frame {env : Env} {t t1 : Writer} {buf : Bytes} {bi bi1 : bInfo}
    {raw : Bool} {err : Option Err} (h : t.write env buf bi raw = (t1, bi1, err)) :
    t1 = { t with w := t1.w, off := t1.off } := by
  unfold Writer.write at h
  split at h
  · simp only [Prod.mk.injEq] at h
    obtain ⟨rfl, -, -⟩ := h
    rfl
  · dsimp only at h
    split at h
    · simp only [Prod.mk.injEq] at h
      obtain ⟨rfl, -, -⟩ := h
      rfl
    · split at h
      · simp only [Prod.mk.injEq] at h
        obtain ⟨rfl, -, -⟩ := h
        rfl
      · split at h
        · simp only [Prod.mk.injEq] at h
          obtain ⟨rfl, -, -⟩ := h
          rfl
        · simp only [Prod.mk.injEq] at h
          obtain ⟨rfl, -, -⟩ := h
          rfl

/-- A pipeline call that returns `nil` has appended the framed payload, has
set the handle to the old byte counter and the payload length, and has advanced
the byte counter by the payload length plus five. -/
theorem Writer.write_ok {env : Env} {t t1 : Writer} {buf : Bytes} {bi bi1 : bInfo}
    {raw : Bool} (h : t.write env buf bi raw = (t1, bi1, none)) :
    ∃ c P, compress env buf raw = Except.ok (c, P) ∧
      bi1 = { offset := t.off, size := P.length } ∧
      t1.w.data = t.w.data ++ framed env c P ∧
      t1 = { t with w := t1.w, off := t.off + (P.length + 5) } := by
  unfold Writer.write at h
  split at h
  · simp at h
  · rename_i c P hc
    dsimp only at h
    split at h
    · simp at h
    · rename_i w1 n1 h1
      split at h
      · simp at h
      · rename_i w2 n2 h2
        split at h
        · simp at h
        · rename_i w3 n3 h3
          simp only [Prod.mk.injEq] at h
          obtain ⟨rfl, rfl, -⟩ := h
          refine ⟨c, P, hc, rfl, ?_, rfl⟩
          have e1 := (Sink.Write_ok h1).1
          have e2 := (Sink.Write_ok h2).1
          have e3 := (Sink.Write_ok h3).1
          simp only [e3, e2, e1, framed, List.append_assoc]

/-- On a reliable sink a pipeline call whose compression step succeeds returns
`nil` and leaves the sink reliable. -/
theorem Writer.write_reliable {env : Env} {t : Writer} {buf : Bytes} {raw : Bool}
    {c : Nat} {P : Bytes} (hw : t.w.Reliable) (hc : compress env buf raw = Except.ok (c, P))
    (bi : bInfo) :
    ∃ t1 bi1, t.write env buf bi raw = (t1, bi1, none) ∧ t1.w.Reliable := by
  obtain ⟨w1, h1, r1⟩ := Sink.Write_reliable hw P
  obtain ⟨w2, h2, r2⟩ := Sink.Write_reliable r1 [c]
  obtain ⟨w3, h3, r3⟩ :=
    Sink.Write_reliable r2 (le32 (env.maskCRC32 (env.crc32c (P ++ [c]))))
  refine ⟨{ t with w := w3, off := t.off + (P.length + 5) },
    { offset := t.off, size := P.length }, ?_, r3⟩
  unfold Writer.write
  simp only [hc, h1, h2, h3]

/-- When snappy never fails, the compression step never fails. -/
theorem compress_total {env : Env} (hs : ∀ b, ∃ c, env.snappyEncode b = Except.ok c)
    (buf : Bytes) (raw : Bool) : ∃ c P, compress env buf raw = Except.ok (c, P) := by
  obtain ⟨b, hb⟩ := hs buf
  unfold compress
  split
  · exact ⟨_, _, rfl⟩
  · split
    · simp only [hb]; exact ⟨_, _, rfl⟩
    · simp only [hb]; exact ⟨_, _, rfl⟩
    · exact ⟨_, _, rfl⟩

/-! ## What `Flush`, `Add` and `Finish` do when they return `nil` -/

theorem Writer.Flush_closed {env : Env} {t : Writer} (h : t.closed = true) :
    t.Flush env = Result.panic := by
  simp [Writer.Flush, h]

theorem Writer.Flush_pending {env : Env} {t : Writer} (hc : t.closed = false)
    (hp : t.pindex = true) : t.Flush env = Result.ret t none := by
  simp [Writer.Flush, hc, hp]

theorem Writer.Flush_ne_panic {env : Env} {t : Writer} (hc : t.closed = false) :
    t.Flush env ≠ Result.panic := by
  unfold Writer.Flush
  simp only [hc, Bool.false_eq_true, if_false]
  split
  · simp
  · split
    · simp
    · split <;> simp

theorem Writer.Flush_ok {env : Env} {t t1 : Writer} (h : t.Flush env = Result.ret t1 none) :
    t.closed = false ∧
    ((t.pindex = true ∧ t1 = t) ∨
     (t.pindex = false ∧ ∃ c P w1,
        compress env (t.dataBlock.Finish env) false = Except.ok (c, P) ∧
        w1.data = t.w.data ++ framed env c P ∧ t1 = t.flushed w1 P)) := by
  unfold Writer.Flush at h
  split at h
  · simp at h
  · rename_i hc
    refine ⟨by simpa using hc, ?_⟩
    split at h
    · rename_i hp
      simp only [Result.ret.injEq, and_true] at h
      exact Or.inl ⟨hp, h.symm⟩
    · rename_i hp
      refine Or.inr ⟨by simpa using hp, ?_⟩
      split at h
      · simp at h
      · rename_i t2 bi hw
        obtain ⟨c, P, hcp, hbi, hdata, ht2⟩ := Writer.write_ok hw
        refine ⟨c, P, t2.w, hcp, hdata, ?_⟩
        dsimp only at h
        have hfb : t2.filterBlock = t.filterBlock := by rw [ht2]
        have hdb : t2.dataBlock = t.dataBlock := by rw [ht2]
        have hlog : t2.log = t.log := by rw [ht2]
        have hoff : t2.off = t.off + (P.length + 5) := by rw [ht2]
        cases hf : t.filterBlock with
        | none =>
          simp only [hfb, hf, Result.ret.injEq, and_true] at h
          rw [← h, ht2]
          simp [Writer.flushed, hf, hbi]
        | some f =>
          simp only [hfb, hf, Result.ret.injEq, and_true] at h
          rw [← h, ht2]
          simp [Writer.flushed, hf, hbi]

theorem Writer.Add_closed {env : Env} {t : Writer} (h : t.closed = true) (key value : Bytes) :
    t.Add env key value = Result.panic := by
  simp [Writer.Add, h]

theorem Writer.Add_eq {env : Env} {t : Writer} (hc : t.closed = false) (key value : Bytes) :
    t.Add env key value =
      if ((t.buffered env key value).dataBlock.Size env : Int) ≥ env.o.blockSize then
        (t.buffered env key value).Flush env
      else Result.ret (t.buffered env key value) none := by
  unfold Writer.Add Writer.buffered
  cases hp : t.pindex <;> cases hf : t.filterBlock <;> simp [hc, hp, hf]

/-- Everything a `Finish` that returns `nil` has done: the flush, the filter
block, the meta block, the index block with the successor entry, the footer. -/
theorem Writer.Finish_ok {env : Env} {t t1 : Writer} (h : t.Finish env = Result.ret t1 none) :
    ∃ (t0 : Writer) (wf : Sink) (fi : bInfo) (ev : List Event) (off1 : Nat) (cm : Nat)
      (Pm : Bytes) (wm : Sink) (ci : Nat) (Pi : Bytes) (wi w6 : Sink),
      t.Flush env = Result.ret t0 none ∧ t0.pindex = true ∧ t0.closed = false ∧
      FilterStage env t0 wf fi ev off1 ∧
      compress env (env.blockBytes env.o.blockRestartInterval (metaEntries env fi)) false
        = Except.ok (cm, Pm) ∧
      wm.data = wf.data ++ framed env cm Pm ∧
      compress env ((t0.lastIndex env).Finish env) false = Except.ok (ci, Pi) ∧
      wi.data = wm.data ++ framed env ci Pi ∧
      w6.data = wi.data
        ++ env.footerBytes { offset := off1, size := Pm.length }
             { offset := off1 + (Pm.length + 5), size := Pi.length } ∧
      t1 = { t0 with
             closed := true
             w := w6
             off := off1 + (Pm.length + 5) + (Pi.length + 5)
               + (env.footerBytes { offset := off1, size := Pm.length }
                   { offset := off1 + (Pm.length + 5), size := Pi.length }).length
             indexBlock := t0.lastIndex env
             pindex := false
             log := t0.log ++ ev ++
               [Event.block { kind := BlockKind.metaindex, entries := metaEntries env fi,
                              start := wf.data.length, stop := wm.data.length,
                              h := { offset := off1, size := Pm.length } },
                Event.block { kind := BlockKind.index, entries := (t0.lastIndex env).entries,
                              start := wm.data.length, stop := wi.data.length,
                              h := { offset := off1 + (Pm.length + 5), size := Pi.length } },
                Event.footer { offset := off1, size := Pm.length }
                  { offset := off1 + (Pm.length + 5), size := Pi.length }
                  wi.data.length w6.data.length] } := by
  have hclosed : t.closed = false := by
    cases hc : t.closed
    · rfl
    · simp [Writer.Finish, hc] at h
  unfold Writer.Finish at h
  simp only [hclosed, Bool.false_eq_true, if_false] at h
  cases hF : t.Flush env with
  | panic => simp [hF] at h
  | ret t0 err =>
    cases err with
    | some e => simp [hF] at h
    | none =>
      simp only [hF] at h
      have hF0 := Writer.Flush_ok hF
      have hc0 : t0.closed = false := by
        rcases hF0 with ⟨hc, ⟨-, rfl⟩ | ⟨-, c, P, w1, -, -, rfl⟩⟩
        · exact hc
        · simpa [Writer.flushed] using hc
      have hp0 : t0.pindex = true := by
        rcases hF0 with ⟨-, ⟨hp, rfl⟩ | ⟨-, c, P, w1, -, -, rfl⟩⟩
        · exact hp
        · simp [Writer.flushed]
      split at h
      · simp at h
      · rename_i tf fi hfs
        -- the filter stage
        have hstage : ∃ ev, FilterStage env t0 tf.w fi ev tf.off ∧
            tf = { t0 with closed := true, w := tf.w, off := tf.off, log := t0.log ++ ev } := by
          split at hfs
          · rename_i f hf
            split at hfs
            · simp at hfs
            · rename_i t2 fi2 hw
              obtain ⟨c, P, hcp, hbi, hdata, ht2⟩ := Writer.write_ok hw
              simp only [Prod.mk.injEq, and_true] at hfs
              obtain ⟨rfl, rfl⟩ := hfs
              refine ⟨_, Or.inr ⟨f, c, P, hf, hcp, hdata, hbi, rfl, ?_⟩, ?_⟩
              · rw [ht2]
              · rw [ht2]
          · rename_i hf
            simp only [Prod.mk.injEq, and_true] at hfs
            obtain ⟨rfl, rfl⟩ := hfs
            exact ⟨[], Or.inl ⟨hf, rfl, rfl, rfl, rfl⟩, by simp⟩
        obtain ⟨ev, hst, htf⟩ := hstage
        split at h
        · simp at h
        · rename_i t3 mb hwm
          obtain ⟨cm, Pm, hcm, hmb, hdm, ht3⟩ := Writer.write_ok hwm
          have hp3 : t3.pindex = true := by rw [ht3, htf]; exact hp0
          simp only [hp3, if_true] at h
          split at h
          · simp at h
          · rename_i t5 ib hwi
            obtain ⟨ci, Pi, hci, hib, hdi, ht5⟩ := Writer.write_ok hwi
            split at h
            · simp at h
            · rename_i w6 n hwf
              obtain ⟨hd6, hn⟩ := Sink.Write_ok hwf
              simp only [Result.ret.injEq, and_true] at h
              have hmeta : (match env.o.filter with
                  | some flt => (BlockWriter.NewWriter env.o.blockRestartInterval).Add
                      (filterKeyPrefix ++ flt.Name) (fi.encode env)
                  | none => BlockWriter.NewWriter env.o.blockRestartInterval)
                  = { restartInterval := env.o.blockRestartInterval,
                      entries := metaEntries env fi } := by
                unfold metaEntries
                cases env.o.filter <;> simp [BlockWriter.NewWriter, BlockWriter.Add]
              have e3 : t3 =
                  { t0 with
                    closed := true
                    w := t3.w
                    off := tf.off + (Pm.length + 5)
                    log := t0.log ++ ev } := by
                rw [ht3, htf]
              have hi3 : t3.indexBlock.Add (env.o.comparer.Successor t3.lkey)
                  (t3.lblock.encode env) = t0.lastIndex env := by
                rw [e3]; rfl
              dsimp only at hib hdi ht5 h
              simp only [hi3, hmeta] at hwi hci ht5 h hcm
              have ho3 : t3.off = tf.off + (Pm.length + 5) := by rw [e3]
              rw [ho3] at hib ht5
              subst hib hmb hn
              rw [writeFooter] at hwf
              have hoff5 : t5.off = tf.off + (Pm.length + 5) + (Pi.length + 5) := by rw [ht5]
              refine ⟨t0, tf.w, fi, ev, tf.off, cm, Pm, t3.w, ci, Pi, t5.w, w6, rfl, hp0, hc0,
                hst, hcm, hdm, hci, hdi, hd6, ?_⟩
              rw [← h, hoff5, ht5, e3]
              simp

/-! ## The invariant of runs without error -/

theorem dataBlocks_append (l1 l2 : List Event) :
    dataBlocks (l1 ++ l2) = dataBlocks l1 ++ dataBlocks l2 := by
  induction l1 with
  | nil => rfl
  | cons e es ih =>
    cases e with
    | block r =>
      by_cases hk : r.kind = BlockKind.data
      · simp [dataBlocks, hk, ih]
      · simp [dataBlocks, hk, ih]
    | footer mb ib a b => simp [dataBlocks, ih]

theorem Chained_append {base : Nat} (l1 l2 : List Event) (a c : Nat) :
    Chained base a (l1 ++ l2) c ↔ ∃ b, Chained base a l1 b ∧ Chained base b l2 c := by
  induction l1 generalizing a with
  | nil => simp [Chained]
  | cons e es ih =>
    cases e with
    | block r =>
      rw [List.cons_append]
      simp only [Chained]
      rw [ih]
      constructor
      · rintro ⟨h1, h2, h3, b, h4, h5⟩
        exact ⟨b, ⟨h1, h2, h3, h4⟩, h5⟩
      · rintro ⟨b, ⟨h1, h2, h3, h4⟩, h5⟩
        exact ⟨h1, h2, h3, b, h4, h5⟩
    | footer mb ib s e =>
      rw [List.cons_append]
      simp only [Chained]
      rw [ih]
      constructor
      · rintro ⟨h1, h2, b, h4, h5⟩
        exact ⟨b, ⟨h1, h2, h4⟩, h5⟩
      · rintro ⟨b, ⟨h1, h2, h4⟩, h5⟩
        exact ⟨h1, h2, b, h4, h5⟩

theorem Chained_block_bounds {base : Nat} {l : List Event} {a b : Nat}
    (h : Chained base a l b) :
    a ≤ b ∧ ∀ r ∈ dataBlocks l, r.start = base + r.h.offset ∧
      r.stop = r.start + (r.h.size + 5) ∧ r.stop ≤ b := by
  induction l generalizing a with
  | nil =>
    simp only [Chained] at h
    simp [dataBlocks, h]
  | cons e es ih =>
    cases e with
    | block r =>
      obtain ⟨h1, h2, h3, h4⟩ := h
      obtain ⟨i1, i2⟩ := ih h4
      refine ⟨by omega, ?_⟩
      intro r1 hr1
      by_cases hk : r.kind = BlockKind.data
      · simp only [dataBlocks, hk, if_true, List.mem_cons] at hr1
        rcases hr1 with rfl | hr1
        · exact ⟨h2, h3, i1⟩
        · exact i2 r1 hr1
      · simp only [dataBlocks, hk, if_false] at hr1
        exact i2 r1 hr1
    | footer mb ib s e =>
      obtain ⟨h1, h2, h4⟩ := h
      obtain ⟨i1, i2⟩ := ih h4
      refine ⟨by omega, ?_⟩
      intro r1 hr1
      simp only [dataBlocks] at hr1
      exact i2 r1 hr1

theorem DataOk_append {env : Env} {data : Bytes} {r : BlockRecord} (h : DataOk env data r)
    (hle : r.start + r.h.size ≤ data.length) (x : Bytes) : DataOk env (data ++ x) r := by
  obtain ⟨c, P, h1, h2, h3⟩ := h
  refine ⟨c, P, h1, h2, ?_⟩
  rw [List.drop_append_of_le_length (by omega), List.take_append_of_le_length, h3]
  rw [List.length_drop]
  omega

theorem Inv_NewWriter (env : Env) (w : Sink) : Inv env w.data.length (NewWriter env w) [] := by
  refine ⟨rfl, rfl, ?_, rfl, rfl, rfl, rfl, ?_, rfl, ?_⟩
  · intro e he
    simp [NewWriter] at he
  · intro r hr
    simp [NewWriter, dataBlocks] at hr
  · intro hp
    simp [NewWriter] at hp

theorem Inv_buffered {env : Env} {base : Nat} {t : Writer} {adds : List Entry}
    (h : Inv env base t adds) (key value : Bytes) :
    Inv env base (t.buffered env key value) (adds ++ [(key, value)]) := by
  obtain ⟨h1, h2, h3, h4, h5, h6, h7, h8, h9, h10⟩ := h
  refine ⟨h1, h2, h3, ?_, ?_, h6, h7, h8, ?_, ?_⟩
  · simp only [Writer.buffered, BlockWriter.Add, ← h4, List.append_assoc]
  · simp only [Writer.buffered, h5, List.length_append, List.length_singleton]
  · show _ = (dataBlocks t.log).map _
    rw [← h9]
    cases hp : t.pindex <;> simp [Writer.buffered, BlockWriter.Add, hp]
  · intro hp
    simp [Writer.buffered] at hp

theorem Inv_Flush {env : Env} {base : Nat} {t t1 : Writer} {adds : List Entry}
    (h : Inv env base t adds) (hf : t.Flush env = Result.ret t1 none) :
    Inv env base t1 adds := by
  obtain ⟨-, ⟨-, rfl⟩ | ⟨hp, c, P, w1, hc, hd, rfl⟩⟩ := Writer.Flush_ok hf
  · exact h
  · obtain ⟨h1, h2, h3, h4, h5, h6, h7, h8, h9, h10⟩ := h
    have hlen : w1.data.length = t.w.data.length + (P.length + 5) := by
      rw [hd, List.length_append, framed_length]
    have hb := (Chained_block_bounds h7).2
    refine ⟨h1, h2, ?_, ?_, h5, ?_, ?_, ?_, ?_, ?_⟩
    · intro e he
      simp only [Writer.flushed, List.mem_append, List.mem_singleton] at he
      rcases he with he | rfl
      · exact h3 e he
      · exact ⟨_, rfl, rfl⟩
    · simp only [Writer.flushed, dataBlocks_append, dataBlocks, if_true, List.map_append,
        List.map_cons, List.map_nil, List.flatten_append, BlockWriter.Reset]
      simpa using h4
    · simp only [Writer.flushed, hlen, h6]
      omega
    · simp only [Writer.flushed]
      rw [Chained_append]
      refine ⟨t.w.data.length, h7, ?_⟩
      simp only [Chained, true_and, and_true]
      exact ⟨h6, hlen⟩
    · intro r hr
      simp only [Writer.flushed, dataBlocks_append, dataBlocks, if_true, List.mem_append,
        List.mem_singleton] at hr
      simp only [Writer.flushed, hd]
      rcases hr with hr | rfl
      · exact DataOk_append (h8 r hr) (by have := hb r hr; omega) _
      · refine ⟨c, P, ?_, rfl, ?_⟩
        · simpa [BlockWriter.Finish, h2] using hc
        · simp [framed]
    · simp only [hp, Bool.false_eq_true, if_false, List.append_nil] at h9
      simp only [Writer.flushed, if_true, dataBlocks_append, dataBlocks, List.map_append,
        List.map_cons, List.map_nil, h9]
    · intro _
      rfl

theorem Inv_Add {env : Env} {base : Nat} {t t1 : Writer} {adds : List Entry}
    (h : Inv env base t adds) {key value : Bytes}
    (ha : t.Add env key value = Result.ret t1 none) :
    Inv env base t1 (adds ++ [(key, value)]) := by
  rw [Writer.Add_eq h.notClosed] at ha
  split at ha
  · exact Inv_Flush (Inv_buffered h key value) ha
  · simp only [Result.ret.injEq, and_true] at ha
    rw [← ha]
    exact Inv_buffered h key value

theorem addsOf_append (l1 l2 : List Op) : addsOf (l1 ++ l2) = addsOf l1 ++ addsOf l2 := by
  induction l1 with
  | nil => rfl
  | cons op ops ih => cases op <;> simp [addsOf, ih]

/-- The invariant holds along every run of `Add` and `Flush` calls that all
return `nil`. -/
theorem Inv_runOk {env : Env} {base : Nat} (ops : List Op) :
    ∀ {t t1 : Writer} {adds : List Entry}, Inv env base t adds →
      (∀ op ∈ ops, op ≠ Op.finish) → runOk env t ops = some t1 →
      Inv env base t1 (adds ++ addsOf ops) := by
  induction ops with
  | nil =>
    intro t t1 adds h _ hr
    simp only [runOk, Option.some.injEq] at hr
    subst hr
    simpa [addsOf] using h
  | cons op ops ih =>
    intro t t1 adds h hops hr
    have hops1 : ∀ o ∈ ops, o ≠ Op.finish := fun o ho => hops o (List.mem_cons_of_mem _ ho)
    simp only [runOk] at hr
    cases hstep : t.step env op with
    | panic => simp [hstep] at hr
    | ret t2 err =>
      cases err with
      | some e => simp [hstep] at hr
      | none =>
        simp only [hstep] at hr
        cases op with
        | add key value =>
          have := ih (Inv_Add h hstep) hops1 hr
          simpa [addsOf, List.append_assoc] using this
        | flush =>
          have := ih (Inv_Flush h hstep) hops1 hr
          simpa [addsOf] using this
        | finish => exact absurd rfl (hops Op.finish (List.mem_cons_self _ _))

theorem runOk_append {env : Env} (l1 l2 : List Op) (t : Writer) :
    runOk env t (l1 ++ l2) = (runOk env t l1).bind (fun t1 => runOk env t1 l2) := by
  induction l1 generalizing t with
  | nil => rfl
  | cons op ops ih =>
    simp only [List.cons_append, runOk]
    cases hstep : t.step env op with
    | panic => rfl
    | ret t2 err =>
      cases err with
      | some e => rfl
      | none => exact ih t2

/-! ## Runs on a sink that never fails -/

theorem Writer.write_no_err {env : Env} (hs : ∀ b, ∃ c, env.snappyEncode b = Except.ok c)
    {t t1 : Writer} {buf : Bytes} {bi bi1 : bInfo} {raw : Bool} {err : Option Err}
    (hw : t.w.Reliable) (h : t.write env buf bi raw = (t1, bi1, err)) :
    err = none ∧ t1.w.Reliable := by
  obtain ⟨c, P, hc⟩ := compress_total hs buf raw
  obtain ⟨t2, bi2, h2, r2⟩ := Writer.write_reliable hw hc bi
  rw [h2] at h
  simp only [Prod.mk.injEq] at h
  obtain ⟨rfl, -, rfl⟩ := h
  exact ⟨rfl, r2⟩

theorem Writer.Flush_reliable {env : Env} (hs : ∀ b, ∃ c, env.snappyEncode b = Except.ok c)
    {t : Writer} (hc : t.closed = false) (hw : t.w.Reliable) :
    ∃ t1, t.Flush env = Result.ret t1 none ∧ t1.w.Reliable ∧ t1.closed = false := by
  cases hp : t.pindex with
  | true => exact ⟨t, Writer.Flush_pending hc hp, hw, hc⟩
  | false =>
    unfold Writer.Flush
    simp only [hc, hp, Bool.false_eq_true, if_false]
    split
    · rename_i t2 bi e hwr
      have := (Writer.write_no_err hs hw hwr).1
      simp at this
    · rename_i t2 bi hwr
      have hr := (Writer.write_no_err hs hw hwr).2
      have hcl : t2.closed = false := by rw [Writer.write_frame hwr]; exact hc
      split
      · exact ⟨_, rfl, hr, hcl⟩
      · exact ⟨_, rfl, hr, hcl⟩

theorem Writer.Add_reliable {env : Env} (hs : ∀ b, ∃ c, env.snappyEncode b = Except.ok c)
    {t : Writer} (hc : t.closed = false) (hw : t.w.Reliable) (key value : Bytes) :
    ∃ t1, t.Add env key value = Result.ret t1 none ∧ t1.w.Reliable ∧ t1.closed = false := by
  rw [Writer.Add_eq hc]
  split
  · exact Writer.Flush_reliable hs hc hw
  · exact ⟨_, rfl, hw, hc⟩

theorem Writer.Finish_reliable {env : Env} (hs : ∀ b, ∃ c, env.snappyEncode b = Except.ok c)
    {t : Writer} (hc : t.closed = false) (hw : t.w.Reliable) :
    ∃ t1, t.Finish env = Result.ret t1 none := by
  obtain ⟨t0, hF, hr0, hc0⟩ := Writer.Flush_reliable hs hc hw
  unfold Writer.Finish
  simp only [hc, hF, Bool.false_eq_true, if_false]
  split
  · rename_i t2 fi e hfs
    exfalso
    split at hfs
    · split at hfs
      · rename_i hwr
        have := (Writer.write_no_err hs (by exact hr0) hwr).1
        simp at this
      · simp at hfs
    · simp at hfs
  · rename_i t2 fi hfs
    have hr2 : t2.w.Reliable := by
      split at hfs
      · split at hfs
        · simp at hfs
        · rename_i hwr
          simp only [Prod.mk.injEq, and_true] at hfs
          rw [← hfs.1]
          exact (Writer.write_no_err hs (by exact hr0) hwr).2
      · simp only [Prod.mk.injEq, and_true] at hfs
        rw [← hfs.1]
        exact hr0
    split
    · rename_i hwr
      have := (Writer.write_no_err hs hr2 hwr).1
      simp at this
    · rename_i t3 mb hwr
      have hr3 := (Writer.write_no_err hs hr2 hwr).2
      split
      · rename_i hwi
        have hr4 : ∀ (x : Writer), x.w = t3.w → x.w.Reliable := fun x hx => hx ▸ hr3
        have := (Writer.write_no_err hs (hr4 _ (by split <;> rfl)) hwi).1
        simp at this
      · rename_i t5 ib hwi
        have hr4 : ∀ (x : Writer), x.w = t3.w → x.w.Reliable := fun x hx => hx ▸ hr3
        have hr5 := (Writer.write_no_err hs (hr4 _ (by split <;> rfl)) hwi).2
        split
        · rename_i hwf
          obtain ⟨w7, h7, -⟩ := Sink.Write_reliable hr5 (env.footerBytes mb ib)
          rw [writeFooter, h7] at hwf
          simp at hwf
        · exact ⟨_, rfl⟩

/-- On a sink that never fails and with a snappy that never fails, every run of
`Add` and `Flush` calls followed by `Finish` returns `nil` at each call. -/
theorem runOk_reliable {env : Env} (hs : ∀ b, ∃ c, env.snappyEncode b = Except.ok c)
    (ops : List Op) :
    ∀ {t : Writer}, t.closed = false → t.w.Reliable → (∀ op ∈ ops, op ≠ Op.finish) →
      ∃ t1, runOk env t (ops ++ [Op.finish]) = some t1 := by
  induction ops with
  | nil =>
    intro t hc hw _
    obtain ⟨t1, h1⟩ := Writer.Finish_reliable hs hc hw
    exact ⟨t1, by simp [runOk, Writer.step, h1]⟩
  | cons op ops ih =>
    intro t hc hw hops
    have hops1 : ∀ o ∈ ops, o ≠ Op.finish := fun o ho => hops o (List.mem_cons_of_mem _ ho)
    cases op with
    | add key value =>
      obtain ⟨t1, h1, hw1, hc1⟩ := Writer.Add_reliable hs hc hw key value
      obtain ⟨t2, h2⟩ := ih hc1 hw1 hops1
      exact ⟨t2, by simp [runOk, Writer.step, h1, h2]⟩
    | flush =>
      obtain ⟨t1, h1, hw1, hc1⟩ := Writer.Flush_reliable hs hc hw
      obtain ⟨t2, h2⟩ := ih hc1 hw1 hops1
      exact ⟨t2, by simp [runOk, Writer.step, h1, h2]⟩
    | finish => exact absurd rfl (hops Op.finish (List.mem_cons_self _ _))

/-! ## After `Finish` -/

theorem logBytes_append (env : Env) (l1 l2 : List Event) :
    logBytes env (l1 ++ l2) = logBytes env l1 + logBytes env l2 := by
  induction l1 with
  | nil => simp [logBytes]
  | cons e es ih =>
    cases e with
    | block r => simp [logBytes, ih, Nat.add_assoc]
    | footer mb ib a b => simp [logBytes, ih, Nat.add_assoc]

theorem Chained_logBytes (env : Env) {base : Nat} {l : List Event} {a b : Nat}
    (h : Chained base a l b) (hl : ∀ e ∈ l, ∃ r, e = Event.block r ∧ r.kind = BlockKind.data) :
    b = a + logBytes env l := by
  induction l generalizing a with
  | nil =>
    simp only [Chained] at h
    simp [logBytes, h]
  | cons e es ih =>
    obtain ⟨r, rfl, -⟩ := hl e (List.mem_cons_self _ _)
    obtain ⟨h1, h2, h3, h4⟩ := h
    have := ih h4 (fun e he => hl e (List.mem_cons_of_mem _ he))
    simp only [logBytes]
    omega

theorem Inv_total {env : Env} {base : Nat} {t : Writer} {adds : List Entry}
    (h : Inv env base t adds) : t.off = logBytes env t.log := by
  have h1 := Chained_logBytes env h.chain h.onlyData
  have h2 := h.bytes
  omega

theorem FilterStage_facts {env : Env} {base : Nat} {t0 : Writer} {wf : Sink} {fi : bInfo}
    {ev : List Event} {off1 : Nat} (h : FilterStage env t0 wf fi ev off1)
    (hb : t0.w.data.length = base + t0.off) :
    dataBlocks ev = [] ∧ wf.data.length = base + off1 ∧
      Chained base t0.w.data.length ev wf.data.length ∧
      off1 = t0.off + logBytes env ev ∧ ∃ x, wf.data = t0.w.data ++ x := by
  rcases h with ⟨-, rfl, -, rfl, rfl⟩ | ⟨f, c, P, -, -, hd, rfl, rfl, rfl⟩
  · exact ⟨rfl, hb, rfl, rfl, [], by simp⟩
  · have hlen : wf.data.length = t0.w.data.length + (P.length + 5) := by
      rw [hd, List.length_append, framed_length]
    refine ⟨by simp [dataBlocks], by omega, ?_, by simp [logBytes], _, hd⟩
    simp only [Chained, true_and, and_true]
    exact ⟨hb, hlen⟩

theorem Done_Finish {env : Env} {base : Nat} {t t1 : Writer} {adds : List Entry}
    (h : Inv env base t adds) (hf : t.Finish env = Result.ret t1 none) :
    Done env base t1 adds := by
  obtain ⟨t0, wf, fi, ev, off1, cm, Pm, wm, ci, Pi, wi, w6, hF, hp0, hc0, hst, hcm, hdm,
    hci, hdi, hd6, rfl⟩ := Writer.Finish_ok hf
  have h0 := Inv_Flush h hF
  obtain ⟨k1, k2, k3, k4, x, k5⟩ := FilterStage_facts hst h0.bytes
  have lm : wm.data.length = wf.data.length + (Pm.length + 5) := by
    rw [hdm, List.length_append, framed_length]
  have li : wi.data.length = wm.data.length + (Pi.length + 5) := by
    rw [hdi, List.length_append, framed_length]
  have l6 : w6.data.length = wi.data.length
      + (env.footerBytes { offset := off1, size := Pm.length }
          { offset := off1 + (Pm.length + 5), size := Pi.length }).length := by
    rw [hd6, List.length_append]
  have hdb : ∀ (a b : BlockRecord) (f1 f2 : bInfo) (s e : Nat),
      a.kind = BlockKind.metaindex → b.kind = BlockKind.index →
      dataBlocks (t0.log ++ ev ++ [Event.block a, Event.block b, Event.footer f1 f2 s e])
        = dataBlocks t0.log := by
    intro a b f1 f2 s e ha hb
    simp [dataBlocks_append, dataBlocks, k1, ha, hb]
  have hpairs := h0.pairs
  rw [h0.pending hp0, List.append_nil] at hpairs
  have hhandles := h0.handles
  simp only [hp0, if_true] at hhandles
  have hb := (Chained_block_bounds h0.chain).2
  refine ⟨rfl, rfl, ?_, h0.count, ?_, ?_, ?_, ?_, ?_⟩
  · dsimp only
    rw [hdb _ _ _ _ _ _ rfl rfl]
    exact hpairs
  · simp only [l6, li, lm, k2]
    omega
  · simp only [List.append_assoc]
    rw [Chained_append]
    refine ⟨_, h0.chain, ?_⟩
    rw [Chained_append]
    refine ⟨_, k3, ?_⟩
    simp only [Chained, true_and, and_true]
    refine ⟨k2, lm, ?_, li, ?_⟩ <;> omega
  · simp only [logBytes_append, logBytes, ← Inv_total h0]
    omega
  · intro r hr
    dsimp only at hr
    rw [hdb _ _ _ _ _ _ rfl rfl] at hr
    have h1 := h0.payload r hr
    have h2 := hb r hr
    simp only [hd6, hdi, hdm, k5, List.append_assoc]
    exact DataOk_append h1 (by omega) _
  · dsimp only
    rw [hdb _ _ _ _ _ _ rfl rfl]
    simp only [Writer.lastIndex, BlockWriter.Add, List.map_append, List.map_cons, List.map_nil]
    exact hhandles

theorem runOk_finish_last {env : Env} {t t1 : Writer} {ops : List Op}
    (h : runOk env t (ops ++ [Op.finish]) = some t1) :
    ∃ t0, runOk env t ops = some t0 ∧ t0.Finish env = Result.ret t1 none := by
  rw [runOk_append] at h
  cases h0 : runOk env t ops with
  | none => simp [h0] at h
  | some t0 =>
    refine ⟨t0, rfl, ?_⟩
    simp only [h0, Option.some_bind, runOk, Writer.step] at h
    cases hf : t0.Finish env with
    | panic => simp [hf] at h
    | ret t2 err =>
      cases err with
      | some e => simp [hf] at h
      | none =>
        simp only [hf, Option.some.injEq] at h
        rw [h]

/-- A run of `Add` and `Flush` calls ended by `Finish`, all returning `nil`,
ends in a state described by `Done`. -/
theorem Done_run {env : Env} {w : Sink} {ops : List Op} {t : Writer}
    (hops : ∀ op ∈ ops, op ≠ Op.finish)
    (hrun : runOk env (NewWriter env w) (ops ++ [Op.finish]) = some t) :
    Done env w.data.length t (addsOf ops) := by
  obtain ⟨t0, h0, hf⟩ := runOk_finish_last hrun
  have hi := Inv_runOk ops (Inv_NewWriter env w) hops h0
  simp only [List.nil_append] at hi
  exact Done_Finish hi hf

theorem runOk_closed {env : Env} {t t1 : Writer} {ops : List Op} (hc : t.closed = true)
    (h : runOk env t ops = some t1) : ops = [] ∧ t1 = t := by
  cases ops with
  | nil =>
    simp only [runOk, Option.some.injEq] at h
    exact ⟨rfl, h.symm⟩
  | cons op ops =>
    exfalso
    cases op with
    | add key value => simp [runOk, Writer.step, Writer.Add, hc] at h
    | flush => simp [runOk, Writer.step, Writer.Flush, hc] at h
    | finish => simp [runOk, Writer.step, Writer.Finish, hc] at h

/-- Every state reached from `NewWriter` by calls that all returned `nil` is an
open state described by `Inv` or a finished state described by `Done`. -/
theorem Inv_or_Done {env : Env} {base : Nat} (ops : List Op) :
    ∀ {t t1 : Writer} {adds : List Entry}, Inv env base t adds →
      runOk env t ops = some t1 →
      ∃ adds1, Inv env base t1 adds1 ∨ Done env base t1 adds1 := by
  induction ops with
  | nil =>
    intro t t1 adds h hr
    simp only [runOk, Option.some.injEq] at hr
    subst hr
    exact ⟨adds, Or.inl h⟩
  | cons op ops ih =>
    intro t t1 adds h hr
    simp only [runOk] at hr
    cases hstep : t.step env op with
    | panic => simp [hstep] at hr
    | ret t2 err =>
      cases err with
      | some e => simp [hstep] at hr
      | none =>
        simp only [hstep] at hr
        cases op with
        | add key value => exact ih (Inv_Add h hstep) hr
        | flush => exact ih (Inv_Flush h hstep) hr
        | finish =>
          have hd := Done_Finish h hstep
          obtain ⟨-, rfl⟩ := runOk_closed hd.isClosed hr
          exact ⟨adds, Or.inr hd⟩

/-! ## What the calls leave alone, whatever they return -/

theorem Writer.write_keeps {env : Env} {t t1 : Writer} {buf : Bytes} {bi bi1 : bInfo}
    {raw : Bool} {err : Option Err} (h : t.write env buf bi raw = (t1, bi1, err)) :
    t1.n = t.n ∧ t1.closed = t.closed ∧ t1.pindex = t.pindex ∧
      t1.indexBlock = t.indexBlock := by
  rw [Writer.write_frame h]
  exact ⟨rfl, rfl, rfl, rfl⟩

theorem Writer.Flush_keeps {env : Env} {t t1 : Writer} {err : Option Err}
    (h : t.Flush env = Result.ret t1 err) :
    t.closed = false ∧ t1.n = t.n ∧ t1.closed = false ∧ t1.indexBlock = t.indexBlock := by
  unfold Writer.Flush at h
  split at h
  · simp at h
  · rename_i hc
    have hc1 : t.closed = false := by simpa using hc
    split at h
    · simp only [Result.ret.injEq] at h
      obtain ⟨rfl, -⟩ := h
      exact ⟨hc1, rfl, hc1, rfl⟩
    · split at h
      · rename_i t2 bi e hw
        obtain ⟨k1, k2, -, k4⟩ := Writer.write_keeps hw
        simp only [Result.ret.injEq] at h
        obtain ⟨rfl, -⟩ := h
        exact ⟨hc1, k1, by rw [← hc1, ← k2], k4⟩
      · rename_i t2 bi hw
        obtain ⟨k1, k2, -, k4⟩ := Writer.write_keeps hw
        dsimp only at h
        split at h
        · simp only [Result.ret.injEq] at h
          obtain ⟨rfl, -⟩ := h
          exact ⟨hc1, k1, by rw [← hc1, ← k2], k4⟩
        · simp only [Result.ret.injEq] at h
          obtain ⟨rfl, -⟩ := h
          exact ⟨hc1, k1, by rw [← hc1, ← k2], k4⟩

theorem Writer.Add_keeps {env : Env} {t t1 : Writer} {key value : Bytes} {err : Option Err}
    (h : t.Add env key value = Result.ret t1 err) :
    t.closed = false ∧ t1.n = t.n + 1 ∧ t1.closed = false := by
  have hc : t.closed = false := by
    cases hc : t.closed
    · rfl
    · simp [Writer.Add, hc] at h
  rw [Writer.Add_eq hc] at h
  split at h
  · obtain ⟨-, k1, k2, -⟩ := Writer.Flush_keeps h
    exact ⟨hc, k1, k2⟩
  · simp only [Result.ret.injEq] at h
    obtain ⟨rfl, -⟩ := h
    exact ⟨hc, rfl, hc⟩

/-- Whatever `Finish` returns: the record count is kept; the writer is closed
when the flush at its start succeeded, and otherwise `Finish` returns what that
flush returned and the writer stays open. -/
theorem Writer.Finish_ret {env : Env} {t t1 : Writer} {err : Option Err}
    (h : t.Finish env = Result.ret t1 err) :
    t.closed = false ∧ t1.n = t.n ∧
    ((∃ t0, t.Flush env = Result.ret t0 none ∧ t1.closed = true) ∨
     (∃ e, err = some e ∧ t.Flush env = Result.ret t1 (some e) ∧ t1.closed = false)) := by
  have hclosed : t.closed = false := by
    cases hc : t.closed
    · rfl
    · simp [Writer.Finish, hc] at h
  unfold Writer.Finish at h
  simp only [hclosed, Bool.false_eq_true, if_false] at h
  cases hF : t.Flush env with
  | panic => simp [hF] at h
  | ret t0 e0 =>
    obtain ⟨-, hn0, hc0, -⟩ := Writer.Flush_keeps hF
    cases e0 with
    | some e =>
      simp only [hF, Result.ret.injEq] at h
      obtain ⟨rfl, rfl⟩ := h
      exact ⟨hclosed, hn0, Or.inr ⟨e, rfl, rfl, hc0⟩⟩
    | none =>
      simp only [hF] at h
      have key : t1.n = t0.n ∧ t1.closed = true := by
        split at h
        · rename_i t2 fi e hfs
          simp only [Result.ret.injEq] at h
          obtain ⟨rfl, -⟩ := h
          split at hfs
          · split at hfs
            · rename_i hwr
              obtain ⟨k1, k2, -, -⟩ := Writer.write_keeps hwr
              simp only [Prod.mk.injEq] at hfs
              obtain ⟨rfl, -, -⟩ := hfs
              exact ⟨k1, k2⟩
            · simp at hfs
          · simp at hfs
        · rename_i t2 fi hfs
          have k2 : t2.n = t0.n ∧ t2.closed = true := by
            split at hfs
            · split at hfs
              · simp at hfs
              · rename_i hwr
                obtain ⟨k1, k2, -, -⟩ := Writer.write_keeps hwr
                simp only [Prod.mk.injEq, and_true] at hfs
                obtain ⟨rfl, -⟩ := hfs
                exact ⟨k1, k2⟩
            · simp only [Prod.mk.injEq, and_true] at hfs
              obtain ⟨rfl, -⟩ := hfs
              exact ⟨rfl, rfl⟩
          split at h
          · rename_i t3 mb e hwm
            obtain ⟨k3, k4, -, -⟩ := Writer.write_keeps hwm
            simp only [Result.ret.injEq] at h
            obtain ⟨rfl, -⟩ := h
            exact ⟨k3.trans k2.1, k4.trans k2.2⟩
          · rename_i t3 mb hwm
            obtain ⟨k3, k4, -, -⟩ := Writer.write_keeps hwm
            split at h
            · rename_i t5 ib e hwi
              obtain ⟨k5, k6, -, -⟩ := Writer.write_keeps hwi
              simp only [Result.ret.injEq] at h
              obtain ⟨rfl, -⟩ := h
              constructor
              · rw [k5, ← k2.1, ← k3]; split <;> rfl
              · rw [k6, ← k2.2, ← k4]; split <;> rfl
            · rename_i t5 ib hwi
              obtain ⟨k5, k6, -, -⟩ := Writer.write_keeps hwi
              have k7 : t5.n = t0.n ∧ t5.closed = true := by
                constructor
                · rw [k5, ← k2.1, ← k3]; split <;> rfl
                · rw [k6, ← k2.2, ← k4]; split <;> rfl
              split at h
              · simp only [Result.ret.injEq] at h
                obtain ⟨rfl, -⟩ := h
                exact k7
              · simp only [Result.ret.injEq] at h
                obtain ⟨rfl, -⟩ := h
                exact k7
      exact ⟨hclosed, key.1.trans hn0, Or.inl ⟨t0, rfl, key.2⟩⟩

theorem Writer.Finish_ne_panic {env : Env} {t : Writer} (hc : t.closed = false) :
    t.Finish env ≠ Result.panic := by
  unfold Writer.Finish
  simp only [hc, Bool.false_eq_true, if_false]
  cases hF : t.Flush env with
  | panic => exact absurd hF (Writer.Flush_ne_panic hc)
  | ret t0 e0 =>
    cases e0 with
    | some e => simp
    | none =>
      simp only
      split
      · simp
      · split
        · simp
        · split
          · simp
          · split <;> simp

/-! ## Index keys and block keys -/

theorem Comparer.le_of_lt {c : Comparer} {a b : Bytes} (h : c.lt a b) : c.le a b :=
  Int.le_of_lt h

theorem Comparer.le_refl {c : Comparer} (ho : c.IsOrder) (x : Bytes) : c.le x x := by
  by_contra hx
  exact hx (Comparer.le_of_lt ((ho.2 x x).2 hx))

theorem Comparer.lt_of_le_of_lt {c : Comparer} (ho : c.IsOrder) {x y z : Bytes}
    (h1 : c.le x y) (h2 : c.lt y z) : c.lt x z := by
  rw [ho.2]
  intro h3
  exact (ho.2 y z).1 h2 (ho.1 z x y h3 h1)

theorem Comparer.lt_of_lt_of_le {c : Comparer} (ho : c.IsOrder) {x y z : Bytes}
    (h1 : c.lt x y) (h2 : c.le y z) : c.lt x z := by
  rw [ho.2]
  intro h3
  exact (ho.2 x y).1 h1 (ho.1 y z x h2 h3)

theorem lastKey_append (adds : List Entry) (key value : Bytes) :
    lastKey (adds ++ [(key, value)]) = key := by
  simp [lastKey]

theorem lastKey_lt {c : Comparer} {adds : List Entry} {key value : Bytes}
    (hne : adds ≠ []) (hinc : List.Chain' c.lt ((adds ++ [(key, value)]).map Prod.fst)) :
    c.lt (lastKey adds) key := by
  rw [List.map_append, List.chain'_append] at hinc
  obtain ⟨-, -, h⟩ := hinc
  unfold lastKey
  cases hl : (adds.map Prod.fst).getLast? with
  | none =>
    rw [List.getLast?_eq_none_iff] at hl
    simp at hl
    exact absurd hl hne
  | some x =>
    exact h x (by simp [hl]) key (by simp)

theorem forall2_snoc {α β : Type} {R : α → β → Prop} {l1 : List α} {l2 : List β} {a : α}
    {b : β} (h : List.Forall₂ R l1 l2) (hab : R a b) :
    List.Forall₂ R (l1 ++ [a]) (l2 ++ [b]) := by
  induction h with
  | nil => exact List.Forall₂.cons hab List.Forall₂.nil
  | cons h1 _ ih => exact List.Forall₂.cons h1 ih

theorem CoverInv_NewWriter (env : Env) (w : Sink) : CoverInv env (NewWriter env w) [] := by
  refine ⟨rfl, by simp, ?_⟩
  simp [NewWriter, blockEntries, dataBlocks, BlockWriter.NewWriter]

theorem mem_adds_of_mem_block {env : Env} {base : Nat} {t : Writer} {adds : List Entry}
    (h : Inv env base t adds) {blk : List Entry} (hb : blk ∈ blockEntries t) {kv : Entry}
    (hkv : kv ∈ blk) : kv ∈ adds := by
  rw [← h.pairs]
  exact List.mem_append_left _ (List.mem_flatten.2 ⟨blk, hb, hkv⟩)

theorem CoverInv_buffered {env : Env} {base : Nat} {t : Writer} {adds : List Entry}
    (ho : env.o.comparer.IsOrder) (hsep : env.o.comparer.SeparatorContract)
    (h : Inv env base t adds) (hk : CoverInv env t adds) {key value : Bytes}
    (hinc : List.Chain' env.o.comparer.lt ((adds ++ [(key, value)]).map Prod.fst)) :
    CoverInv env (t.buffered env key value) (adds ++ [(key, value)]) := by
  obtain ⟨k1, k2, k3⟩ := hk
  have hlt : adds ≠ [] → env.o.comparer.lt t.lkey key := fun hne => by
    rw [k1]; exact lastKey_lt hne hinc
  refine ⟨by simp [Writer.buffered, lastKey_append], ?_, ?_⟩
  · intro kv hkv
    simp only [Writer.buffered]
    rcases List.mem_append.1 hkv with hkv | hkv
    · exact Comparer.le_of_lt
        (Comparer.lt_of_le_of_lt ho (k2 kv hkv) (hlt (List.ne_nil_of_mem hkv)))
    · simp only [List.mem_singleton] at hkv
      subst hkv
      exact Comparer.le_refl ho _
  · have hlog : blockEntries (t.buffered env key value) = blockEntries t := rfl
    simp only [hlog]
    have hpf : (t.buffered env key value).pindex = false := rfl
    simp only [hpf, Bool.false_eq_true, if_false]
    cases hp : t.pindex with
    | false =>
      simp only [hp, Bool.false_eq_true, if_false] at k3
      simpa [Writer.buffered, hp] using k3
    | true =>
      simp only [hp, if_true] at k3
      obtain ⟨init, last, e1, e2⟩ := k3
      rw [e1]
      simp only [Writer.buffered, hp, if_true, BlockWriter.Add]
      refine forall2_snoc e2 ?_
      intro kv hkv
      have hmem : kv ∈ adds := mem_adds_of_mem_block h (by rw [e1]; simp) hkv
      have h1 := hlt (List.ne_nil_of_mem hmem)
      exact Comparer.le_of_lt (Comparer.lt_of_le_of_lt ho (k2 kv hmem) (hsep _ _ h1).1)

theorem CoverInv_Flush {env : Env} {t t1 : Writer} {adds : List Entry}
    (hk : CoverInv env t adds) (hf : t.Flush env = Result.ret t1 none) :
    CoverInv env t1 adds := by
  obtain ⟨-, ⟨-, rfl⟩ | ⟨hp, c, P, w1, hc, hd, rfl⟩⟩ := Writer.Flush_ok hf
  · exact hk
  · obtain ⟨k1, k2, k3⟩ := hk
    refine ⟨k1, k2, ?_⟩
    simp only [hp, Bool.false_eq_true, if_false] at k3
    have hpt : (t.flushed w1 P).pindex = true := rfl
    simp only [hpt, if_true]
    refine ⟨blockEntries t, t.dataBlock.entries, ?_, k3⟩
    simp [blockEntries, Writer.flushed, dataBlocks_append, dataBlocks]

theorem CoverInv_Add {env : Env} {base : Nat} {t t1 : Writer} {adds : List Entry}
    (ho : env.o.comparer.IsOrder) (hsep : env.o.comparer.SeparatorContract)
    (h : Inv env base t adds) (hk : CoverInv env t adds) {key value : Bytes}
    (hinc : List.Chain' env.o.comparer.lt ((adds ++ [(key, value)]).map Prod.fst))
    (ha : t.Add env key value = Result.ret t1 none) :
    CoverInv env t1 (adds ++ [(key, value)]) := by
  rw [Writer.Add_eq h.notClosed] at ha
  split at ha
  · exact CoverInv_Flush (CoverInv_buffered ho hsep h hk hinc) ha
  · simp only [Result.ret.injEq, and_true] at ha
    rw [← ha]
    exact CoverInv_buffered ho hsep h hk hinc

theorem CoverInv_runOk {env : Env} {base : Nat} (ho : env.o.comparer.IsOrder)
    (hsep : env.o.comparer.SeparatorContract) (ops : List Op) :
    ∀ {t t1 : Writer} {adds : List Entry}, Inv env base t adds → CoverInv env t adds →
      (∀ op ∈ ops, op ≠ Op.finish) →
      List.Chain' env.o.comparer.lt ((adds ++ addsOf ops).map Prod.fst) →
      runOk env t ops = some t1 → CoverInv env t1 (adds ++ addsOf ops) := by
  induction ops with
  | nil =>
    intro t t1 adds h hk _ _ hr
    simp only [runOk, Option.some.injEq] at hr
    subst hr
    simpa [addsOf] using hk
  | cons op ops ih =>
    intro t t1 adds h hk hops hinc hr
    have hops1 : ∀ o ∈ ops, o ≠ Op.finish := fun o ho => hops o (List.mem_cons_of_mem _ ho)
    simp only [runOk] at hr
    cases hstep : t.step env op with
    | panic => simp [hstep] at hr
    | ret t2 err =>
      cases err with
      | some e => simp [hstep] at hr
      | none =>
        simp only [hstep] at hr
        cases op with
        | add key value =>
          have e1 : adds ++ addsOf (Op.add key value :: ops)
              = (adds ++ [(key, value)]) ++ addsOf ops := by
            simp [addsOf]
          rw [e1] at hinc ⊢
          have hinc1 : List.Chain' env.o.comparer.lt ((adds ++ [(key, value)]).map Prod.fst) := by
            rw [List.map_append] at hinc
            exact hinc.left_of_append
          exact ih (Inv_Add h hstep) (CoverInv_Add ho hsep h hk hinc1 hstep) hops1 hinc hr
        | flush =>
          exact ih (Inv_Flush h hstep) (CoverInv_Flush hk hstep) hops1 hinc hr
        | finish => exact absurd rfl (hops Op.finish (List.mem_cons_self _ _))

/-- The index block and the data blocks after a `Finish` that returned `nil`,
in terms of the writer left by the flush at its start. -/
theorem Writer.Finish_index {env : Env} {t t1 : Writer}
    (h : t.Finish env = Result.ret t1 none) :
    ∃ t0, t.Flush env = Result.ret t0 none ∧ t0.pindex = true ∧
      t1.indexBlock = t0.lastIndex env ∧ dataBlocks t1.log = dataBlocks t0.log := by
  obtain ⟨t0, wf, fi, ev, off1, cm, Pm, wm, ci, Pi, wi, w6, hF, hp0, hc0, hst, -, -, -, -, -,
    rfl⟩ := Writer.Finish_ok h
  refine ⟨t0, hF, hp0, rfl, ?_⟩
  have k1 : dataBlocks ev = [] := by
    rcases hst with ⟨-, -, -, rfl, -⟩ | ⟨f, c, P, -, -, -, -, rfl, -⟩
    · rfl
    · simp [dataBlocks]
  simp [dataBlocks_append, dataBlocks, k1]

/-! ## The bytewise comparer meets the contracts -/

theorem bytesCompare_lt_iff (a b : Bytes) : bytesCompare a b < 0 ↔ ¬ bytesCompare b a ≤ 0 := by
  induction a generalizing b with
  | nil => cases b <;> simp [bytesCompare]
  | cons x xs ih =>
    cases b with
    | nil => simp [bytesCompare]
    | cons y ys =>
      simp only [bytesCompare]
      by_cases h1 : x < y
      · have h2 : ¬ y < x := by omega
        simp [h1, h2]
      · by_cases h2 : y < x
        · simp [h1, h2]
        · simp only [h1, h2, if_false]
          exact ih ys

theorem bytesCompare_le_trans (a b c : Bytes) (h1 : bytesCompare a b ≤ 0)
    (h2 : bytesCompare b c ≤ 0) : bytesCompare a c ≤ 0 := by
  induction a generalizing b c with
  | nil => cases c <;> simp [bytesCompare]
  | cons x xs ih =>
    cases b with
    | nil => simp [bytesCompare] at h1
    | cons y ys =>
      cases c with
      | nil => simp [bytesCompare] at h2
      | cons z zs =>
        simp only [bytesCompare] at h1 h2 ⊢
        by_cases hxy : x < y
        · by_cases hyz : y < z
          · have : x < z := by omega
            simp [this]
          · by_cases hzy : z < y
            · simp [hyz, hzy] at h2
            · have : x < z := by omega
              simp [this]
        · by_cases hyx : y < x
          · simp [hxy, hyx] at h1
          · simp only [hxy, hyx, if_false] at h1
            have hxy' : x = y := by omega
            subst hxy'
            by_cases hyz : x < z
            · simp [hyz]
            · by_cases hzy : z < x
              · simp [hyz, hzy] at h2
              · simp only [hyz, hzy, if_false] at h2 ⊢
                exact ih ys zs h1 h2

theorem demoComparer_isOrder : demoComparer.IsOrder :=
  ⟨fun x y z h1 h2 => bytesCompare_le_trans x y z h1 h2, fun x y => bytesCompare_lt_iff x y⟩

theorem demoComparer_separator : demoComparer.SeparatorContract :=
  fun _ b h => ⟨h, Comparer.le_refl demoComparer_isOrder b⟩

theorem demoComparer_successor : demoComparer.SuccessorContract :=
  fun a => Comparer.le_refl demoComparer_isOrder a

theorem pickyComparer_isOrder : pickyComparer.IsOrder :=
  ⟨fun x y z h1 h2 => bytesCompare_le_trans x y z h1 h2, fun x y => bytesCompare_lt_iff x y⟩

theorem pickyComparer_separator : pickyComparer.SeparatorContract := by
  intro a b h
  have h1 : bytesCompare a b < 0 := h
  have h2 : pickyComparer.Separator a b = b := by simp [pickyComparer, h1]
  rw [h2]
  exact ⟨h, Comparer.le_refl pickyComparer_isOrder b⟩

theorem pickyComparer_successor : pickyComparer.SuccessorContract :=
  fun a => Comparer.le_refl pickyComparer_isOrder a

/-! ## Index keys and the following block -/

theorem lastKey_lt_of_nil {c : Comparer} {adds : List Entry} {key value : Bytes}
    (hinc : List.Chain' c.lt ([] :: (adds ++ [(key, value)]).map Prod.fst)) :
    c.lt (lastKey adds) key := by
  cases adds with
  | nil =>
    simp only [List.nil_append, List.map_cons, List.map_nil, List.chain'_cons] at hinc
    exact hinc.1
  | cons a as => exact lastKey_lt (List.cons_ne_nil _ _) hinc.tail

theorem PrecInv_NewWriter (env : Env) (w : Sink) : PrecInv env (NewWriter env w) := by
  refine ⟨?_, ?_, ?_⟩
  · intro e he
    simp [NewWriter, BlockWriter.NewWriter] at he
  · intro e he
    simp [NewWriter, BlockWriter.NewWriter] at he
  · simp [NewWriter, blockEntries, dataBlocks, BlockWriter.NewWriter]

theorem PrecInv_buffered {env : Env} {base : Nat} {t : Writer} {adds : List Entry}
    (ho : env.o.comparer.IsOrder) (hsep : env.o.comparer.SeparatorContract)
    (h : Inv env base t adds) (hk : PrecInv env t) {key value : Bytes}
    (hlt : env.o.comparer.lt t.lkey key) :
    PrecInv env (t.buffered env key value) := by
  obtain ⟨k1, k2, k3⟩ := hk
  have hold : ∀ e ∈ t.indexBlock.entries, env.o.comparer.le e.1 key := fun e he =>
    Comparer.le_of_lt (Comparer.lt_of_le_of_lt ho (k1 e he) hlt)
  have hlog : blockEntries (t.buffered env key value) = blockEntries t := rfl
  cases hp : t.pindex with
  | false =>
    have hidx : (t.buffered env key value).indexBlock.entries = t.indexBlock.entries := by
      simp [Writer.buffered, hp]
    refine ⟨?_, ?_, ?_⟩
    · rw [hidx]; exact hold
    · rw [hidx]
      intro e he kv hkv
      simp only [Writer.buffered, BlockWriter.Add, List.mem_append, List.mem_singleton] at hkv
      rcases hkv with hkv | rfl
      · exact k2 e he kv hkv
      · exact hold e he
    · rw [hidx, hlog]
      simp only [hp, Bool.false_eq_true, if_false] at k3
      simpa [Writer.buffered] using k3
  | true =>
    have hidx : (t.buffered env key value).indexBlock.entries
        = t.indexBlock.entries
          ++ [(env.o.comparer.Separator t.lkey key, t.lblock.encode env)] := by
      simp [Writer.buffered, hp, BlockWriter.Add]
    have hall : ∀ e ∈ (t.buffered env key value).indexBlock.entries,
        env.o.comparer.le e.1 key := by
      intro e he
      rw [hidx, List.mem_append, List.mem_singleton] at he
      rcases he with he | rfl
      · exact hold e he
      · exact (hsep _ _ hlt).2
    refine ⟨hall, ?_, ?_⟩
    · intro e he kv hkv
      simp only [Writer.buffered, BlockWriter.Add, h.pending hp, List.nil_append,
        List.mem_singleton] at hkv
      subst hkv
      exact hall e he
    · rw [hidx, hlog]
      simp only [hp, if_true] at k3
      have hpf : (t.buffered env key value).pindex = false := rfl
      simp only [hpf, Bool.false_eq_true, if_false]
      exact Or.inr ⟨_, _, rfl, k3⟩

theorem PrecInv_Flush {env : Env} {base : Nat} {t t1 : Writer} {adds : List Entry}
    (h : Inv env base t adds) (hk : PrecInv env t)
    (hf : t.Flush env = Result.ret t1 none) : PrecInv env t1 := by
  obtain ⟨-, ⟨-, rfl⟩ | ⟨hp, c, P, w1, hc, hd, rfl⟩⟩ := Writer.Flush_ok hf
  · exact hk
  · obtain ⟨k1, k2, k3⟩ := hk
    refine ⟨k1, ?_, ?_⟩
    · intro e _ kv hkv
      simp [Writer.flushed, BlockWriter.Reset] at hkv
    · have hpt : (t.flushed w1 P).pindex = true := rfl
      have hb : blockEntries (t.flushed w1 P) = blockEntries t ++ [t.dataBlock.entries] := by
        simp [blockEntries, Writer.flushed, dataBlocks_append, dataBlocks]
      have hi : (t.flushed w1 P).indexBlock = t.indexBlock := rfl
      simp only [hpt, if_true, hb, hi]
      simp only [hp, Bool.false_eq_true, if_false] at k3
      rcases k3 with ⟨e1, e2⟩ | ⟨idx0, e, e1, e2⟩
      · simp [e1, e2]
      · have hl := congrArg List.length h.handles
        simp only [hp, Bool.false_eq_true, if_false, List.append_nil, List.length_map, e1,
          List.length_append, List.length_singleton] at hl
        have hne : blockEntries t ≠ [] := by
          intro h0
          have := congrArg List.length h0
          simp only [blockEntries, List.length_map, List.length_nil] at this
          omega
        rw [List.tail_append_of_ne_nil hne, e1]
        exact forall2_snoc e2 (k2 e (by simp [e1]))

theorem PrecInv_Add {env : Env} {base : Nat} {t t1 : Writer} {adds : List Entry}
    (ho : env.o.comparer.IsOrder) (hsep : env.o.comparer.SeparatorContract)
    (h : Inv env base t adds) (hk : PrecInv env t) {key value : Bytes}
    (hlt : env.o.comparer.lt t.lkey key)
    (ha : t.Add env key value = Result.ret t1 none) : PrecInv env t1 := by
  rw [Writer.Add_eq h.notClosed] at ha
  split at ha
  · exact PrecInv_Flush (Inv_buffered h key value) (PrecInv_buffered ho hsep h hk hlt) ha
  · simp only [Result.ret.injEq, and_true] at ha
    rw [← ha]
    exact PrecInv_buffered ho hsep h hk hlt

theorem PrecInv_runOk {env : Env} {base : Nat} (ho : env.o.comparer.IsOrder)
    (hsep : env.o.comparer.SeparatorContract) (ops : List Op) :
    ∀ {t t1 : Writer} {adds : List Entry}, Inv env base t adds → t.lkey = lastKey adds →
      PrecInv env t → (∀ op ∈ ops, op ≠ Op.finish) →
      List.Chain' env.o.comparer.lt ([] :: (adds ++ addsOf ops).map Prod.fst) →
      runOk env t ops = some t1 → PrecInv env t1 := by
  induction ops with
  | nil =>
    intro t t1 adds h _ hk _ _ hr
    simp only [runOk, Option.some.injEq] at hr
    subst hr
    exact hk
  | cons op ops ih =>
    intro t t1 adds h hl hk hops hinc hr
    have hops1 : ∀ o ∈ ops, o ≠ Op.finish := fun o ho => hops o (List.mem_cons_of_mem _ ho)
    simp only [runOk] at hr
    cases hstep : t.step env op with
    | panic => simp [hstep] at hr
    | ret t2 err =>
      cases err with
      | some e => simp [hstep] at hr
      | none =>
        simp only [hstep] at hr
        cases op with
        | add key value =>
          have e1 : adds ++ addsOf (Op.add key value :: ops)
              = (adds ++ [(key, value)]) ++ addsOf ops := by
            simp [addsOf]
          rw [e1] at hinc
          have hinc1 : List.Chain' env.o.comparer.lt
              ([] :: (adds ++ [(key, value)]).map Prod.fst) := by
            rw [List.map_append, ← List.cons_append] at hinc
            exact hinc.left_of_append
          have hlt : env.o.comparer.lt t.lkey key := by
            rw [hl]; exact lastKey_lt_of_nil hinc1
          have hl2 : t2.lkey = lastKey (adds ++ [(key, value)]) := by
            rw [lastKey_append]
            have ha := hstep
            simp only [Writer.step] at ha
            rw [Writer.Add_eq h.notClosed] at ha
            split at ha
            · obtain ⟨-, ⟨-, rfl⟩ | ⟨-, c, P, w1, -, -, rfl⟩⟩ := Writer.Flush_ok ha
              · rfl
              · rfl
            · simp only [Result.ret.injEq, and_true] at ha
              rw [← ha]
              rfl
          exact ih (Inv_Add h hstep) hl2 (PrecInv_Add ho hsep h hk hlt hstep) hops1 hinc hr
        | flush =>
          have hl2 : t2.lkey = lastKey adds := by
            obtain ⟨-, ⟨-, rfl⟩ | ⟨-, c, P, w1, -, -, rfl⟩⟩ := Writer.Flush_ok hstep
            · exact hl
            · exact hl
          exact ih (Inv_Flush h hstep) hl2 (PrecInv_Flush h hk hstep) hops1 hinc hr
        | finish => exact absurd rfl (hops Op.finish (List.mem_cons_self _ _))

/-! ## The claims -/

theorem demoFinal_run :
    runOk demoEnv (NewWriter demoEnv emptySink) (demoOps ++ [Op.finish]) = some demoFinal := by
  decide

theorem demoFinalF_run :
    runOk demoEnvF (NewWriter demoEnvF emptySink) (demoOps ++ [Op.finish])
      = some demoFinalF := by
  decide

theorem demoOps_no_finish : ∀ op ∈ demoOps, op ≠ Op.finish := by
  decide

theorem demoOps_increasing :
    List.Chain' demoComparer.lt ([] :: (addsOf demoOps).map Prod.fst) := by
  simp only [demoOps, addsOf, List.map_cons, List.map_nil, List.chain'_cons,
    List.chain'_singleton, and_true]
  decide

theorem demoOpsP_increasing :
    List.Chain' pickyComparer.lt ((addsOf demoOpsP).map Prod.fst) := by
  simp only [demoOpsP, addsOf, List.map_cons, List.map_nil, List.chain'_cons,
    List.chain'_singleton, and_true]
  decide

/-- C1: no pair is lost, duplicated or reordered. In every run of `Add` and
`Flush` calls ended by `Finish` in which each call returns `nil`, the entry lists
of the data blocks written, concatenated in write order, are exactly the pairs
passed to `Add`, in call order; and on a sink that never fails, with a snappy
that never fails, every such run does return `nil` at each call. -/
theorem pairs_written_in_order (env : Env) (w : Sink) (ops : List Op)
    (hops : ∀ op ∈ ops, op ≠ Op.finish) :
    (∀ t, runOk env (NewWriter env w) (ops ++ [Op.finish]) = some t →
      ((dataBlocks t.log).map (fun r => r.entries)).flatten = addsOf ops) ∧
    (w.Reliable → (∀ b, ∃ c, env.snappyEncode b = Except.ok c) →
      ∃ t, runOk env (NewWriter env w) (ops ++ [Op.finish]) = some t) := by
  refine ⟨fun t hrun => (Done_run hops hrun).pairs, fun hw hs => ?_⟩
  exact runOk_reliable hs ops rfl hw hops

theorem pairs_written_in_order_witness :
    (∀ op ∈ demoOps, op ≠ Op.finish) ∧
    ((dataBlocks demoFinal.log).map (fun r => r.entries)).flatten = addsOf demoOps :=
  ⟨demoOps_no_finish,
   (pairs_written_in_order demoEnv emptySink demoOps demoOps_no_finish).1 demoFinal
     demoFinal_run⟩

/-- C2: after a run of `Add` and `Flush` calls ended by `Finish` in which each
call returns `nil`, the values of the index block entries are, in order, the
encoded handles of the data blocks written, one per block; the handle offset of
each data block is the number of bytes the sink held (beyond those it held when
the writer was created) when the block began to be written, its size is the
length of the payload, and the sink holds that payload at that position. -/
theorem index_values_are_handles (env : Env) (w : Sink) (ops : List Op)
    (hops : ∀ op ∈ ops, op ≠ Op.finish) (t : Writer)
    (hrun : runOk env (NewWriter env w) (ops ++ [Op.finish]) = some t) :
    t.indexBlock.entries.map Prod.snd = (dataBlocks t.log).map (fun r => r.h.encode env) ∧
    ∀ r ∈ dataBlocks t.log, r.start = w.data.length + r.h.offset ∧ DataOk env t.w.data r := by
  have hd := Done_run hops hrun
  refine ⟨hd.handles, fun r hr => ⟨?_, hd.payload r hr⟩⟩
  exact ((Chained_block_bounds hd.chain).2 r hr).1

theorem index_values_are_handles_witness :
    demoFinalF.indexBlock.entries.map Prod.snd
      = (dataBlocks demoFinalF.log).map (fun r => r.h.encode demoEnvF) ∧
    ∀ r ∈ dataBlocks demoFinalF.log,
      r.start = emptySink.data.length + r.h.offset ∧ DataOk demoEnvF demoFinalF.w.data r :=
  index_values_are_handles demoEnvF emptySink demoOps demoOps_no_finish demoFinalF
    demoFinalF_run

/-- C5: size accounting. After a run of `Add` and `Flush` calls ended by
`Finish` in which each call returns `nil`, `Size()` is the number of bytes the
sink has received from the writer; it is the sum of payload length plus five
over the blocks written, plus the footer length, and the blocks and the footer
lie end to end in the sink. -/
theorem size_counts_bytes_written (env : Env) (w : Sink) (ops : List Op)
    (hops : ∀ op ∈ ops, op ≠ Op.finish) (t : Writer)
    (hrun : runOk env (NewWriter env w) (ops ++ [Op.finish]) = some t) :
    w.data.length + t.Size = t.w.data.length ∧ t.Size = logBytes env t.log ∧
      Chained w.data.length w.data.length t.log t.w.data.length := by
  have hd := Done_run hops hrun
  exact ⟨hd.bytes.symm, hd.total, hd.chain⟩

theorem size_counts_bytes_written_witness :
    emptySink.data.length + demoFinalF.Size = demoFinalF.w.data.length ∧
    demoFinalF.Size = logBytes demoEnvF demoFinalF.log ∧
    Chained emptySink.data.length emptySink.data.length demoFinalF.log
      demoFinalF.w.data.length :=
  size_counts_bytes_written demoEnvF emptySink demoOps demoOps_no_finish demoFinalF
    demoFinalF_run

/-- C7: in every state reached from `NewWriter` by `Add`, `Flush` and `Finish`
calls that all returned `nil`, `CountBlock()` is the number of data blocks
written so far, plus one exactly when the writer is not closed and no index
entry is pending; after `Finish` it is the number of data blocks written. -/
theorem CountBlock_counts_blocks (env : Env) (w : Sink) (ops : List Op) (t : Writer)
    (hrun : runOk env (NewWriter env w) ops = some t) :
    t.CountBlock = (dataBlocks t.log).length
        + (if t.closed = false ∧ t.pindex = false then 1 else 0) ∧
    (t.closed = true → t.CountBlock = (dataBlocks t.log).length) := by
  obtain ⟨adds, hi | hd⟩ := Inv_or_Done ops (Inv_NewWriter env w) hrun
  · have hl := congrArg List.length hi.handles
    simp only [List.length_append, List.length_map] at hl
    have hc := hi.notClosed
    refine ⟨?_, fun h => by simp [hc] at h⟩
    cases hp : t.pindex
    · simp [hp] at hl
      simp [Writer.CountBlock, BlockWriter.Len, hc, hl]
    · simp [hp] at hl
      simp [Writer.CountBlock, BlockWriter.Len, hc, hl]
  · have hl := congrArg List.length hd.handles
    simp only [List.length_map] at hl
    have hc := hd.isClosed
    simp [Writer.CountBlock, BlockWriter.Len, hc, hl]

theorem CountBlock_counts_blocks_witness :
    demoFinal.CountBlock = (dataBlocks demoFinal.log).length
        + (if demoFinal.closed = false ∧ demoFinal.pindex = false then 1 else 0) ∧
    (demoFinal.closed = true → demoFinal.CountBlock = (dataBlocks demoFinal.log).length) :=
  CountBlock_counts_blocks demoEnv emptySink (demoOps ++ [Op.finish]) demoFinal demoFinal_run

/-- C6: `Len()` is the number of `Add` calls that did not panic, whether or
not a call flushed and whatever the flush returned; `Flush` and `Finish` never
change `Len()`, and no call makes it smaller. -/
theorem Len_counts_returned_adds (env : Env) (w : Sink) (ops : List Op) :
    (exec env (NewWriter env w) ops).Len = returnedAdds env (NewWriter env w) ops ∧
    (∀ t : Writer, (t.after env Op.flush).Len = t.Len ∧ (t.after env Op.finish).Len = t.Len) ∧
    (∀ (t : Writer) (op : Op), t.Len ≤ (t.after env op).Len) := by
  have hflush : ∀ t : Writer, (t.after env Op.flush).Len = t.Len := by
    intro t
    unfold Writer.after Writer.step Writer.Len
    cases hF : t.Flush env with
    | panic => rfl
    | ret t1 err => exact (Writer.Flush_keeps hF).2.1
  have hfinish : ∀ t : Writer, (t.after env Op.finish).Len = t.Len := by
    intro t
    unfold Writer.after Writer.step Writer.Len
    cases hF : t.Finish env with
    | panic => rfl
    | ret t1 err => exact (Writer.Finish_ret hF).2.1
  have hadd : ∀ (t : Writer) (key value : Bytes),
      (t.after env (Op.add key value)).Len
        = t.Len + (match Op.add key value, t.step env (Op.add key value) with
            | Op.add _ _, Result.ret _ _ => 1
            | _, _ => 0) := by
    intro t key value
    cases hA : t.Add env key value with
    | panic => simp [Writer.after, Writer.step, Writer.Len, hA]
    | ret t1 err =>
      simp [Writer.after, Writer.step, Writer.Len, hA, (Writer.Add_keeps hA).2.1]
  have hgen : ∀ (ops : List Op) (t : Writer),
      (exec env t ops).Len = t.Len + returnedAdds env t ops := by
    intro ops
    induction ops with
    | nil => intro t; rfl
    | cons op ops ih =>
      intro t
      show (exec env (t.after env op) ops).Len = _
      rw [ih (t.after env op)]
      cases op with
      | add key value =>
        rw [hadd t key value]
        simp only [returnedAdds, Nat.add_assoc]
      | flush =>
        rw [hflush t]
        simp [returnedAdds]
      | finish =>
        rw [hfinish t]
        simp [returnedAdds]
  refine ⟨?_, fun t => ⟨hflush t, hfinish t⟩, ?_⟩
  · rw [hgen ops (NewWriter env w)]
    simp [Writer.Len, NewWriter]
  · intro t op
    cases op with
    | add key value => rw [hadd t key value]; exact Nat.le_add_right _ _
    | flush => rw [hflush t]
    | finish => rw [hfinish t]

/-- C8: use after close. After a `Finish` that returned `nil`, every `Add`,
`Flush` and `Finish` panics; whatever calls follow, the writer and its sink stay
as they were, and `Len()`, `Size()` and `CountBlock()` keep their values. -/
theorem use_after_Finish_panics (env : Env) (t t1 : Writer)
    (h : t.Finish env = Result.ret t1 none) :
    (∀ key value, t1.Add env key value = Result.panic) ∧
    t1.Flush env = Result.panic ∧ t1.Finish env = Result.panic ∧
    ∀ ops, exec env t1 ops = t1 ∧ (exec env t1 ops).w = t1.w ∧
      (exec env t1 ops).Len = t1.Len ∧ (exec env t1 ops).Size = t1.Size ∧
      (exec env t1 ops).CountBlock = t1.CountBlock := by
  have hc : t1.closed = true := by
    rcases (Writer.Finish_ret h).2.2 with ⟨t0, -, hc⟩ | ⟨e, he, -, -⟩
    · exact hc
    · simp at he
  have hadd : ∀ key value, t1.Add env key value = Result.panic :=
    fun key value => Writer.Add_closed hc key value
  have hflush : t1.Flush env = Result.panic := Writer.Flush_closed hc
  have hfinish : t1.Finish env = Result.panic := by simp [Writer.Finish, hc]
  have hafter : ∀ op, t1.after env op = t1 := by
    intro op
    cases op with
    | add key value => simp [Writer.after, Writer.step, hadd]
    | flush => simp [Writer.after, Writer.step, hflush]
    | finish => simp [Writer.after, Writer.step, hfinish]
  have hexec : ∀ ops, exec env t1 ops = t1 := by
    intro ops
    induction ops with
    | nil => rfl
    | cons op ops ih =>
      show exec env (t1.after env op) ops = t1
      rw [hafter op, ih]
  refine ⟨hadd, hflush, hfinish, fun ops => ?_⟩
  rw [hexec ops]
  exact ⟨rfl, rfl, rfl, rfl, rfl⟩

theorem use_after_Finish_panics_witness :
    (∀ key value, demoFinal.Add demoEnv key value = Result.panic) ∧
    demoFinal.Flush demoEnv = Result.panic ∧ demoFinal.Finish demoEnv = Result.panic ∧
    ∀ ops, exec demoEnv demoFinal ops = demoFinal ∧
      (exec demoEnv demoFinal ops).w = demoFinal.w ∧
      (exec demoEnv demoFinal ops).Len = demoFinal.Len ∧
      (exec demoEnv demoFinal ops).Size = demoFinal.Size ∧
      (exec demoEnv demoFinal ops).CountBlock = demoFinal.CountBlock :=
  use_after_Finish_panics demoEnv (exec demoEnv (NewWriter demoEnv emptySink) demoOps)
    demoFinal (by decide)

/-- C9: a defect of the code. The comment on `Finish` says "No Add(), Flush()
or Finish() is possible beyond this", and so does the specification. On a fresh writer
whose sink fails at the first `Write`, `Finish` returns that error from its
flush before it has set `closed`: the writer is still open, and a further
`Flush` does not panic. -/
theorem Finish_error_may_leave_open :
    (NewWriter demoEnv failingSink).closed = false ∧
    ∃ t1, (NewWriter demoEnv failingSink).Finish demoEnv = Result.ret t1 (some 7) ∧
      t1.closed = false ∧ t1.Flush demoEnv ≠ Result.panic :=
  ⟨rfl, _, rfl, rfl, by decide⟩

/-- What `Finish` does to `closed` on a writer that is not closed. It returns;
when the flush at its start succeeded the writer is closed afterwards, whatever
the later steps return, and every further `Add`, `Flush` and `Finish` panics;
when that flush fails `Finish` returns the error of the flush and leaves the
writer as the flush left it, with `closed` still unset. -/
theorem Finish_closes_once_flushed (env : Env) (t : Writer) (hc : t.closed = false) :
    ∃ t1 err, t.Finish env = Result.ret t1 err ∧
      (((∃ t0, t.Flush env = Result.ret t0 none) ∧ t1.closed = true ∧
          ∀ op, t1.step env op = Result.panic) ∨
       (∃ e, err = some e ∧ t.Flush env = Result.ret t1 (some e) ∧ t1.closed = false)) := by
  cases hF : t.Finish env with
  | panic => exact absurd hF (Writer.Finish_ne_panic hc)
  | ret t1 err =>
    refine ⟨t1, err, rfl, ?_⟩
    rcases (Writer.Finish_ret hF).2.2 with ⟨t0, h0, h1⟩ | h2
    · refine Or.inl ⟨⟨t0, h0⟩, h1, fun op => ?_⟩
      cases op with
      | add key value => exact Writer.Add_closed h1 key value
      | flush => exact Writer.Flush_closed h1
      | finish => simp [Writer.step, Writer.Finish, h1]
    · exact Or.inr h2

theorem Finish_closes_once_flushed_witness :
    ∃ t1 err, (NewWriter demoEnv emptySink).Finish demoEnv = Result.ret t1 err ∧
      (((∃ t0, (NewWriter demoEnv emptySink).Flush demoEnv = Result.ret t0 none) ∧
          t1.closed = true ∧ ∀ op, t1.step demoEnv op = Result.panic) ∨
       (∃ e, err = some e ∧ (NewWriter demoEnv emptySink).Flush demoEnv
          = Result.ret t1 (some e) ∧ t1.closed = false)) :=
  Finish_closes_once_flushed demoEnv (NewWriter demoEnv emptySink) rfl

/-- C10: on a writer that is not closed and has an index entry pending, `Flush`
returns `nil` and leaves the writer, its sink and its filter builder exactly as
they were; hence a `Flush` that returned `nil` followed by another `Flush`
leaves the state of the first. -/
theorem Flush_pending_is_noop (env : Env) (t : Writer) :
    (t.closed = false → t.pindex = true → t.Flush env = Result.ret t none) ∧
    (∀ t1, t.Flush env = Result.ret t1 none → t1.Flush env = Result.ret t1 none) := by
  refine ⟨fun hc hp => Writer.Flush_pending hc hp, fun t1 h => ?_⟩
  obtain ⟨hc, ⟨hp, rfl⟩ | ⟨-, c, P, w1, -, -, rfl⟩⟩ := Writer.Flush_ok h
  · exact Writer.Flush_pending hc hp
  · exact Writer.Flush_pending hc rfl

theorem Flush_pending_is_noop_witness :
    ∃ t1, (NewWriter demoEnvF emptySink).Flush demoEnvF = Result.ret t1 none ∧
      t1.closed = false ∧ t1.pindex = true ∧ t1.Flush demoEnvF = Result.ret t1 none :=
  ⟨_, rfl, rfl, rfl,
    (Flush_pending_is_noop demoEnvF (NewWriter demoEnvF emptySink)).2 _ rfl⟩

/-- Index keys against their own blocks, for a caller that leaves its keys
alone. If the keys passed to `Add` are strictly increasing under the comparer,
the comparer is a total order and `Separator` and `Successor` meet their
contracts, then after a run of `Add` and `Flush` calls ended by `Finish`, all
returning `nil` and with no store into a key in between, the index block has one
entry per data block written and the key of each entry is at or above every key
stored in its block. -/
theorem covers_of_runOk (env : Env) (w : Sink) (ops : List Op)
    (hops : ∀ op ∈ ops, op ≠ Op.finish) (ho : env.o.comparer.IsOrder)
    (hsep : env.o.comparer.SeparatorContract) (hsuc : env.o.comparer.SuccessorContract)
    (hinc : List.Chain' env.o.comparer.lt ((addsOf ops).map Prod.fst))
    (t : Writer) (hrun : runOk env (NewWriter env w) (ops ++ [Op.finish]) = some t) :
    List.Forall₂ (fun e r => ∀ kv ∈ r.entries, env.o.comparer.le kv.1 e.1)
      t.indexBlock.entries (dataBlocks t.log) := by
  obtain ⟨t0, h0, hf⟩ := runOk_finish_last hrun
  have hi := Inv_runOk ops (Inv_NewWriter env w) hops h0
  have hk := CoverInv_runOk ho hsep ops (Inv_NewWriter env w) (CoverInv_NewWriter env w)
    hops (by simpa using hinc) h0
  simp only [List.nil_append] at hi hk
  obtain ⟨t1, hF, hp, hidx, hlog⟩ := Writer.Finish_index hf
  have hi1 := Inv_Flush hi hF
  obtain ⟨k1, k2, k3⟩ := CoverInv_Flush hk hF
  simp only [hp, if_true] at k3
  obtain ⟨init, last, e1, e2⟩ := k3
  have hcov : List.Forall₂ (Covers env.o.comparer) t.indexBlock.entries (blockEntries t1) := by
    rw [hidx, e1]
    refine forall2_snoc e2 ?_
    intro kv hkv
    have hmem : kv ∈ addsOf ops := mem_adds_of_mem_block hi1 (by rw [e1]; simp) hkv
    exact ho.1 _ _ _ (k2 kv hmem) (hsuc t1.lkey)
  rw [hlog]
  exact List.forall₂_map_right_iff.1 hcov

/-- C4, as stated, fails. With the separator that returns the upper key, which
meets the contract `a < k ≤ b`, the index key of the first block is the first
key of the second block, hence not strictly below it; with a separator that
returns `[5]` where the contract says nothing, a block flushed before the first
`Add` gets the index key `[5]`, which is not even at or below the empty key
stored in the following block; and since `Add` keeps the slice it is given as
the last key, a caller that passes `[1]` and then `[2]` in the same buffer has
the separator computed from `[2]` and `[2]`, so that the first block gets the
index key `[5]`, above the key `[2]` stored in the following block. -/
theorem separator_may_reach_next_key :
    (demoComparer.IsOrder ∧ demoComparer.SeparatorContract ∧
      List.Chain' demoComparer.lt ((addsOf demoOps).map Prod.fst) ∧
      runOk demoEnv (NewWriter demoEnv emptySink) (demoOps ++ [Op.finish]) = some demoFinal ∧
      ¬ List.Forall₂ (fun e r => ∀ kv ∈ r.entries, demoComparer.lt e.1 kv.1)
          demoFinal.indexBlock.entries.dropLast (dataBlocks demoFinal.log).tail) ∧
    (pickyComparer.IsOrder ∧ pickyComparer.SeparatorContract ∧
      List.Chain' pickyComparer.lt ((addsOf demoOpsP).map Prod.fst) ∧
      runOk demoEnvP (NewWriter demoEnvP emptySink) (demoOpsP ++ [Op.finish])
        = some demoFinalP ∧
      ¬ List.Forall₂ (fun e r => ∀ kv ∈ r.entries, pickyComparer.le e.1 kv.1)
          demoFinalP.indexBlock.entries.dropLast (dataBlocks demoFinalP.log).tail) ∧
    (List.Chain' pickyComparer.lt ([] :: (addsOf (opsOf reuseCallsLow)).map Prod.fst) ∧
      runCalls demoEnvP (NewWriter demoEnvP emptySink) (reuseCallsLow ++ [Call.op Op.finish])
        = some reuseFinalLow ∧
      ¬ List.Forall₂ (fun e r => ∀ kv ∈ r.entries, pickyComparer.le e.1 kv.1)
          reuseFinalLow.indexBlock.entries.dropLast (dataBlocks reuseFinalLow.log).tail) := by
  refine ⟨⟨demoComparer_isOrder, demoComparer_separator, demoOps_increasing.tail,
      by decide, ?_⟩,
    ⟨pickyComparer_isOrder, pickyComparer_separator, demoOpsP_increasing, by decide, ?_⟩,
    ⟨?_, rfl, ?_⟩⟩
  · intro h
    have e1 : demoFinal.indexBlock.entries.dropLast = [([2], [0, 5]), ([3], [10, 9])] := by
      decide
    have e2 : (dataBlocks demoFinal.log).tail =
        [{ kind := BlockKind.data, entries := [([2], [5, 5, 5, 5, 5, 5])], start := 10,
           stop := 24, h := { offset := 10, size := 9 } },
         { kind := BlockKind.data, entries := [([3], [])], start := 24, stop := 32,
           h := { offset := 24, size := 3 } }] := by
      decide
    rw [e1, e2] at h
    simp only [List.forall₂_cons] at h
    exact absurd (h.1 ([2], [5, 5, 5, 5, 5, 5]) (by simp)) (by decide)
  · intro h
    have e1 : demoFinalP.indexBlock.entries.dropLast = [([5], [0, 0])] := by
      decide
    have e2 : (dataBlocks demoFinalP.log).tail =
        [{ kind := BlockKind.data, entries := [([], [0]), ([1], [0])], start := 5,
           stop := 17, h := { offset := 5, size := 7 } }] := by
      decide
    rw [e1, e2] at h
    simp only [List.forall₂_cons] at h
    exact absurd (h.1 ([], [0]) (by simp)) (by decide)
  · simp only [reuseCallsLow, opsOf, addsOf, List.map_cons, List.map_nil, List.chain'_cons,
      List.chain'_singleton, and_true]
    decide
  · intro h
    have e1 : reuseFinalLow.indexBlock.entries.dropLast = [([5], [0, 4])] := by
      decide
    have e2 : (dataBlocks reuseFinalLow.log).tail =
        [BlockRecord.mk BlockKind.data [([2], [0])] 9 18 (bInfo.mk 9 4)] := by
      decide
    rw [e1, e2] at h
    simp only [List.forall₂_cons] at h
    exact absurd (h.1 ([2], [0]) (by simp)) (by decide)

/-- Index keys against the following block, for a caller that leaves its keys
alone. If the keys passed to `Add` are strictly increasing under the comparer,
the first of them above the `nil` key the writer starts from, the comparer is a
total order and `Separator` meets its contract, then after a run of `Add` and
`Flush` calls ended by `Finish`, all returning `nil` and with no store into a
key in between, the index key of every data block except the last is at or
below every key stored in the following data block. -/
theorem precedes_of_runOk (env : Env) (w : Sink) (ops : List Op)
    (hops : ∀ op ∈ ops, op ≠ Op.finish) (ho : env.o.comparer.IsOrder)
    (hsep : env.o.comparer.SeparatorContract)
    (hinc : List.Chain' env.o.comparer.lt ([] :: (addsOf ops).map Prod.fst))
    (t : Writer) (hrun : runOk env (NewWriter env w) (ops ++ [Op.finish]) = some t) :
    List.Forall₂ (fun e r => ∀ kv ∈ r.entries, env.o.comparer.le e.1 kv.1)
      t.indexBlock.entries.dropLast (dataBlocks t.log).tail := by
  obtain ⟨t0, h0, hf⟩ := runOk_finish_last hrun
  have hi := Inv_runOk ops (Inv_NewWriter env w) hops h0
  have hk := PrecInv_runOk ho hsep ops (Inv_NewWriter env w) rfl (PrecInv_NewWriter env w)
    hops (by simpa using hinc) h0
  simp only [List.nil_append] at hi
  obtain ⟨t1, hF, hp, hidx, hlog⟩ := Writer.Finish_index hf
  obtain ⟨-, -, k3⟩ := PrecInv_Flush hi hk hF
  simp only [hp, if_true] at k3
  have hd : t.indexBlock.entries.dropLast = t1.indexBlock.entries := by
    rw [hidx]
    simp [Writer.lastIndex, BlockWriter.Add]
  rw [hd, hlog]
  have ht : (blockEntries t1).tail = (dataBlocks t1.log).tail.map (fun r => r.entries) := by
    simp [blockEntries, List.map_tail]
  rw [ht] at k3
  exact List.forall₂_map_right_iff.1 k3

/-- C11, as stated, fails: `Finish` on a fresh writer whose sink never fails
returns `nil`, but the index block it writes holds one entry, the handle of an
empty data block that the flush at the start of `Finish` has written. -/
theorem empty_table_index_has_entry :
    emptySink.Reliable ∧
    ∃ t, (NewWriter demoEnv emptySink).Finish demoEnv = Result.ret t none ∧
      t.indexBlock.entries = [([], [0, 0])] ∧
      Event.block { kind := BlockKind.index, entries := [([], [0, 0])], start := 10,
                    stop := 19, h := { offset := 10, size := 4 } } ∈ t.log ∧
      (dataBlocks t.log).map (fun r => r.entries) = [[]] := by
  refine ⟨by simp [Sink.Reliable, emptySink], _, rfl, by decide, by decide, by decide⟩

/-- C11, amended: `Finish` on a fresh writer, with a sink and a snappy that
never fail, returns `nil`; it writes one data block without pairs, at offset
zero, and the index block it writes holds exactly one entry, whose key is the
successor of the `nil` key and whose value is the encoded handle of that empty
data block. -/
theorem empty_table_index_one_entry (env : Env) (w : Sink) (hw : w.Reliable)
    (hs : ∀ b, ∃ c, env.snappyEncode b = Except.ok c) :
    ∃ t c P, (NewWriter env w).Finish env = Result.ret t none ∧
      compress env (env.blockBytes env.o.blockRestartInterval []) false = Except.ok (c, P) ∧
      dataBlocks t.log =
        [{ kind := BlockKind.data, entries := [], start := w.data.length,
           stop := w.data.length + (P.length + 5), h := { offset := 0, size := P.length } }] ∧
      t.indexBlock.entries =
        [(env.o.comparer.Successor [], bInfo.encode env { offset := 0, size := P.length })] ∧
      ∃ irec, Event.block irec ∈ t.log ∧ irec.kind = BlockKind.index ∧
        irec.entries = t.indexBlock.entries := by
  obtain ⟨t, hf⟩ := Writer.Finish_reliable hs (rfl : (NewWriter env w).closed = false) hw
  obtain ⟨t0, wf, fi, ev, off1, cm, Pm, wm, ci, Pi, wi, w6, hF, hp0, hc0, hst, -, -, -, -, -,
    rfl⟩ := Writer.Finish_ok hf
  obtain ⟨t00, hF0, -, hi0, hl0⟩ := Writer.Finish_index hf
  rw [hF] at hF0
  simp only [Result.ret.injEq, and_true] at hF0
  subst hF0
  obtain ⟨-, ⟨hp, -⟩ | ⟨-, c, P, w1, hc, hd, rfl⟩⟩ := Writer.Flush_ok hF
  · simp [NewWriter] at hp
  · have hlen : w1.data.length = w.data.length + (P.length + 5) := by
      rw [hd, List.length_append, framed_length]
      rfl
    refine ⟨_, c, P, hf, hc, ?_, ?_, ?_⟩
    · rw [hl0]
      simp [Writer.flushed, NewWriter, dataBlocks, BlockWriter.NewWriter, hlen]
    · rfl
    · refine ⟨{ kind := BlockKind.index,
                entries := (((NewWriter env w).flushed w1 P).lastIndex env).entries,
                start := wm.data.length, stop := wi.data.length,
                h := { offset := off1 + (Pm.length + 5), size := Pi.length } }, ?_, rfl, rfl⟩
      simp

theorem empty_table_index_one_entry_witness :
    ∃ t c P, (NewWriter demoEnv emptySink).Finish demoEnv = Result.ret t none ∧
      compress demoEnv (demoEnv.blockBytes demoEnv.o.blockRestartInterval []) false
        = Except.ok (c, P) ∧
      dataBlocks t.log =
        [{ kind := BlockKind.data, entries := [], start := emptySink.data.length,
           stop := emptySink.data.length + (P.length + 5),
           h := { offset := 0, size := P.length } }] ∧
      t.indexBlock.entries =
        [(demoEnv.o.comparer.Successor [],
          bInfo.encode demoEnv { offset := 0, size := P.length })] ∧
      ∃ irec, Event.block irec ∈ t.log ∧ irec.kind = BlockKind.index ∧
        irec.entries = t.indexBlock.entries :=
  empty_table_index_one_entry demoEnv emptySink (by simp [Sink.Reliable, emptySink])
    (fun b => ⟨_, rfl⟩)

theorem compress_cases {env : Env} {buf : Bytes} {raw : Bool} {c : Nat} {P : Bytes}
    (h : compress env buf raw = Except.ok (c, P)) :
    ((raw = true ∨ (env.o.compressionType ≠ Compression.DefaultCompression ∧
        env.o.compressionType ≠ Compression.SnappyCompression)) ∧ P = buf ∧
      c = kNoCompression) ∨
    (raw = false ∧ (env.o.compressionType = Compression.DefaultCompression ∨
        env.o.compressionType = Compression.SnappyCompression) ∧
      env.snappyEncode buf = Except.ok P ∧ c = kSnappyCompression) := by
  unfold compress at h
  split at h
  · rename_i hr
    simp only [Except.ok.injEq, Prod.mk.injEq] at h
    exact Or.inl ⟨Or.inl hr, h.2.symm, h.1.symm⟩
  · rename_i hr
    have hr1 : raw = false := by simpa using hr
    split at h
    · rename_i hd
      split at h
      · rename_i b hb
        simp only [Except.ok.injEq, Prod.mk.injEq] at h
        exact Or.inr ⟨hr1, Or.inl hd, by rw [hb, h.2], h.1.symm⟩
      · simp at h
    · rename_i hd
      split at h
      · rename_i b hb
        simp only [Except.ok.injEq, Prod.mk.injEq] at h
        exact Or.inr ⟨hr1, Or.inr hd, by rw [hb, h.2], h.1.symm⟩
      · simp at h
    · rename_i hd
      simp only [Except.ok.injEq, Prod.mk.injEq] at h
      exact Or.inl ⟨Or.inr (by simp [hd]), h.2.symm, h.1.symm⟩

/-- C12: the block write pipeline. A `write(buf, bi, raw)` that returns `nil`
has appended to the sink exactly `P ++ [c]` followed by the four little-endian
bytes of the masked CRC32C of `P ++ [c]`, where `(P, c)` is `(buf, 0)` when
`raw` is set or the configured compression is neither default nor snappy, and
`(snappy.Encode(buf), 1)` otherwise; it has set the handle to the `Size()` before
the call and the length of `P`, has increased `Size()` by that length plus five
and has changed nothing else. -/
theorem write_appends_framed_block (env : Env) (t t1 : Writer) (buf : Bytes)
    (bi bi1 : bInfo) (raw : Bool) (h : t.write env buf bi raw = (t1, bi1, none)) :
    ∃ c P,
      (((raw = true ∨ (env.o.compressionType ≠ Compression.DefaultCompression ∧
          env.o.compressionType ≠ Compression.SnappyCompression)) ∧ P = buf ∧ c = 0) ∨
       (raw = false ∧ (env.o.compressionType = Compression.DefaultCompression ∨
          env.o.compressionType = Compression.SnappyCompression) ∧
        env.snappyEncode buf = Except.ok P ∧ c = 1)) ∧
      t1.w.data = t.w.data ++ (P ++ [c] ++ le32 (env.maskCRC32 (env.crc32c (P ++ [c])))) ∧
      (∃ b0 b1 b2 b3, le32 (env.maskCRC32 (env.crc32c (P ++ [c]))) = [b0, b1, b2, b3] ∧
        b0 < 256 ∧ b1 < 256 ∧ b2 < 256 ∧ b3 < 256 ∧
        b0 + 256 * b1 + 65536 * b2 + 16777216 * b3
          = env.maskCRC32 (env.crc32c (P ++ [c])) % 4294967296) ∧
      bi1 = { offset := t.Size, size := P.length } ∧
      t1.Size = t.Size + (P.length + 5) ∧
      t1 = { t with w := t1.w, off := t1.off } := by
  obtain ⟨c, P, hc, hbi, hd, ht1⟩ := Writer.write_ok h
  refine ⟨c, P, compress_cases hc, hd, ⟨_, _, _, _, rfl, ?_, ?_, ?_, ?_, ?_⟩, hbi, ?_,
    Writer.write_frame h⟩
  · exact Nat.mod_lt _ (by decide)
  · exact Nat.mod_lt _ (by decide)
  · exact Nat.mod_lt _ (by decide)
  · exact Nat.mod_lt _ (by decide)
  · omega
  · rw [ht1]
    rfl

theorem write_appends_framed_block_witness :
    ∃ c P,
      (((false = true ∨ (demoEnvF.o.compressionType ≠ Compression.DefaultCompression ∧
          demoEnvF.o.compressionType ≠ Compression.SnappyCompression)) ∧ P = [1, 2, 3] ∧
          c = 0) ∨
       (false = false ∧ (demoEnvF.o.compressionType = Compression.DefaultCompression ∨
          demoEnvF.o.compressionType = Compression.SnappyCompression) ∧
        demoEnvF.snappyEncode [1, 2, 3] = Except.ok P ∧ c = 1)) ∧
      ((NewWriter demoEnvF emptySink).write demoEnvF [1, 2, 3] { offset := 0, size := 0 }
          false).1.w.data
        = (NewWriter demoEnvF emptySink).w.data
          ++ (P ++ [c] ++ le32 (demoEnvF.maskCRC32 (demoEnvF.crc32c (P ++ [c])))) ∧
      (∃ b0 b1 b2 b3,
        le32 (demoEnvF.maskCRC32 (demoEnvF.crc32c (P ++ [c]))) = [b0, b1, b2, b3] ∧
        b0 < 256 ∧ b1 < 256 ∧ b2 < 256 ∧ b3 < 256 ∧
        b0 + 256 * b1 + 65536 * b2 + 16777216 * b3
          = demoEnvF.maskCRC32 (demoEnvF.crc32c (P ++ [c])) % 4294967296) ∧
      ((NewWriter demoEnvF emptySink).write demoEnvF [1, 2, 3] { offset := 0, size := 0 }
          false).2.1
        = { offset := (NewWriter demoEnvF emptySink).Size, size := P.length } ∧
      ((NewWriter demoEnvF emptySink).write demoEnvF [1, 2, 3] { offset := 0, size := 0 }
          false).1.Size
        = (NewWriter demoEnvF emptySink).Size + (P.length + 5) ∧
      ((NewWriter demoEnvF emptySink).write demoEnvF [1, 2, 3] { offset := 0, size := 0 }
          false).1
        = { NewWriter demoEnvF emptySink with
            w := ((NewWriter demoEnvF emptySink).write demoEnvF [1, 2, 3]
              { offset := 0, size := 0 } false).1.w
            off := ((NewWriter demoEnvF emptySink).write demoEnvF [1, 2, 3]
              { offset := 0, size := 0 } false).1.off } :=
  write_appends_framed_block demoEnvF (NewWriter demoEnvF emptySink) _ [1, 2, 3]
    { offset := 0, size := 0 } _ false rfl

/-! ## Tools for the remaining claims -/

/-- Induction along a run of `Add` and `Flush` calls that all return `nil`. -/
theorem runOk_induction {env : Env} (P : Writer → List Entry → Prop)
    (hadd : ∀ (t t1 : Writer) (adds : List Entry) (key value : Bytes), P t adds →
      t.Add env key value = Result.ret t1 none → P t1 (adds ++ [(key, value)]))
    (hflush : ∀ (t t1 : Writer) (adds : List Entry), P t adds →
      t.Flush env = Result.ret t1 none → P t1 adds)
    (ops : List Op) :
    ∀ {t t1 : Writer} {adds : List Entry}, P t adds → (∀ op ∈ ops, op ≠ Op.finish) →
      runOk env t ops = some t1 → P t1 (adds ++ addsOf ops) := by
  induction ops with
  | nil =>
    intro t t1 adds h _ hr
    simp only [runOk, Option.some.injEq] at hr
    subst hr
    simpa [addsOf] using h
  | cons op ops ih =>
    intro t t1 adds h hops hr
    have hops1 : ∀ o ∈ ops, o ≠ Op.finish := fun o ho => hops o (List.mem_cons_of_mem _ ho)
    simp only [runOk] at hr
    cases hstep : t.step env op with
    | panic => simp [hstep] at hr
    | ret t2 err =>
      cases err with
      | some e => simp [hstep] at hr
      | none =>
        simp only [hstep] at hr
        cases op with
        | add key value =>
          have := ih (hadd t t2 adds key value h hstep) hops1 hr
          simpa [addsOf, List.append_assoc] using this
        | flush =>
          have := ih (hflush t t2 adds h hstep) hops1 hr
          simpa [addsOf] using this
        | finish => exact absurd rfl (hops Op.finish (List.mem_cons_self _ _))

/-- A run in which every call returns `nil` has no `Finish`, or exactly one,
at its end. -/
theorem runOk_shape {env : Env} (ops : List Op) :
    ∀ {t t1 : Writer}, runOk env t ops = some t1 →
      (∀ op ∈ ops, op ≠ Op.finish) ∨
      ∃ pre, ops = pre ++ [Op.finish] ∧ ∀ op ∈ pre, op ≠ Op.finish := by
  induction ops with
  | nil => intro t t1 _; exact Or.inl (by simp)
  | cons op ops ih =>
    intro t t1 hr
    simp only [runOk] at hr
    cases hstep : t.step env op with
    | panic => simp [hstep] at hr
    | ret t2 err =>
      cases err with
      | some e => simp [hstep] at hr
      | none =>
        simp only [hstep] at hr
        by_cases hop : op = Op.finish
        · subst hop
          have hc : t2.closed = true := by
            rcases (Writer.Finish_ret hstep).2.2 with ⟨t0, -, hc⟩ | ⟨e, he, -, -⟩
            · exact hc
            · simp at he
          obtain ⟨rfl, -⟩ := runOk_closed hc hr
          exact Or.inr ⟨[], rfl, by simp⟩
        · rcases ih hr with h1 | ⟨pre, rfl, h2⟩
          · left
            intro o ho
            rcases List.mem_cons.1 ho with rfl | ho
            · exact hop
            · exact h1 o ho
          · right
            refine ⟨op :: pre, rfl, ?_⟩
            intro o ho
            rcases List.mem_cons.1 ho with rfl | ho
            · exact hop
            · exact h2 o ho

/-- Whatever `Flush` returns, it keeps the last key, the index block, the
record count and the closed flag; when it returns an error it also keeps the
data block, the pending flag, the filter builder and the history. -/
theorem Writer.Flush_frame {env : Env} {t t1 : Writer} {err : Option Err}
    (h : t.Flush env = Result.ret t1 err) :
    t1.lkey = t.lkey ∧ t1.indexBlock = t.indexBlock ∧ t1.n = t.n ∧ t1.closed = t.closed ∧
    (err ≠ none → t1.dataBlock = t.dataBlock ∧ t1.pindex = t.pindex ∧
      t1.filterBlock = t.filterBlock ∧ t1.log = t.log ∧ t.pindex = false) := by
  unfold Writer.Flush at h
  split at h
  · simp at h
  · split at h
    · simp only [Result.ret.injEq] at h
      obtain ⟨rfl, rfl⟩ := h
      exact ⟨rfl, rfl, rfl, rfl, fun h => absurd rfl h⟩
    · rename_i hp
      split at h
      · rename_i t2 bi e hw
        have hf := Writer.write_frame hw
        simp only [Result.ret.injEq] at h
        obtain ⟨rfl, rfl⟩ := h
        rw [hf]
        exact ⟨rfl, rfl, rfl, rfl, fun _ => ⟨rfl, rfl, rfl, rfl, by simpa using hp⟩⟩
      · rename_i t2 bi hw
        have hf := Writer.write_frame hw
        dsimp only at h
        split at h
        · simp only [Result.ret.injEq] at h
          obtain ⟨rfl, rfl⟩ := h
          rw [hf]
          exact ⟨rfl, rfl, rfl, rfl, fun h => absurd rfl h⟩
        · simp only [Result.ret.injEq] at h
          obtain ⟨rfl, rfl⟩ := h
          rw [hf]
          exact ⟨rfl, rfl, rfl, rfl, fun h => absurd rfl h⟩

theorem Writer.Add_frame {env : Env} {t t1 : Writer} {key value : Bytes} {err : Option Err}
    (h : t.Add env key value = Result.ret t1 err) :
    t1.lkey = key ∧ t1.indexBlock = (t.buffered env key value).indexBlock := by
  have hc : t.closed = false := (Writer.Add_keeps h).1
  rw [Writer.Add_eq hc] at h
  split at h
  · obtain ⟨k1, k2, -, -, -⟩ := Writer.Flush_frame h
    exact ⟨k1, k2⟩
  · simp only [Result.ret.injEq] at h
    obtain ⟨rfl, -⟩ := h
    exact ⟨rfl, rfl⟩

theorem sorted_buffered {env : Env} {t : Writer} (ho : env.o.comparer.IsOrder)
    (hsep : env.o.comparer.SeparatorContract) (hk : PrecInv env t)
    (hs : List.Pairwise env.o.comparer.le (t.indexBlock.entries.map Prod.fst))
    {key : Bytes} (value : Bytes) (hlt : env.o.comparer.lt t.lkey key) :
    List.Pairwise env.o.comparer.le
      ((t.buffered env key value).indexBlock.entries.map Prod.fst) := by
  cases hp : t.pindex with
  | false => simpa [Writer.buffered, hp] using hs
  | true =>
    simp only [Writer.buffered, hp, if_true, BlockWriter.Add, List.map_append, List.map_cons,
      List.map_nil]
    rw [List.pairwise_append]
    refine ⟨hs, List.pairwise_singleton _ _, ?_⟩
    intro a ha b hb
    simp only [List.mem_singleton] at hb
    subst hb
    obtain ⟨e, he, rfl⟩ := List.mem_map.1 ha
    exact Comparer.le_of_lt (Comparer.lt_of_le_of_lt ho (hk.idxBelow e he) (hsep _ _ hlt).1)

/-- The facts carried along a run with increasing keys, the first above `nil`. -/
theorem sorted_run {env : Env} {base : Nat} (ho : env.o.comparer.IsOrder)
    (hsep : env.o.comparer.SeparatorContract) (ops : List Op) {t t1 : Writer}
    (h0 : Inv env base t [] ∧ t.lkey = lastKey [] ∧ PrecInv env t ∧
      List.Pairwise env.o.comparer.le (t.indexBlock.entries.map Prod.fst))
    (hops : ∀ op ∈ ops, op ≠ Op.finish)
    (hinc : List.Chain' env.o.comparer.lt ([] :: (addsOf ops).map Prod.fst))
    (hr : runOk env t ops = some t1) :
    Inv env base t1 (addsOf ops) ∧ t1.lkey = lastKey (addsOf ops) ∧ PrecInv env t1 ∧
      List.Pairwise env.o.comparer.le (t1.indexBlock.entries.map Prod.fst) := by
  have key := runOk_induction
    (fun (t : Writer) (adds : List Entry) =>
      List.Chain' env.o.comparer.lt ([] :: adds.map Prod.fst) →
        Inv env base t adds ∧ t.lkey = lastKey adds ∧ PrecInv env t ∧
        List.Pairwise env.o.comparer.le (t.indexBlock.entries.map Prod.fst))
    (by
      intro t t1 adds key value h ha hch
      have hch0 : List.Chain' env.o.comparer.lt ([] :: adds.map Prod.fst) := by
        rw [List.map_append, ← List.cons_append] at hch
        exact hch.left_of_append
      obtain ⟨hi, hl, hp, hs⟩ := h hch0
      have hlt : env.o.comparer.lt t.lkey key := by
        rw [hl]; exact lastKey_lt_of_nil hch
      refine ⟨Inv_Add hi ha, ?_, PrecInv_Add ho hsep hi hp hlt ha, ?_⟩
      · rw [(Writer.Add_frame ha).1, lastKey_append]
      · rw [(Writer.Add_frame ha).2]
        exact sorted_buffered ho hsep hp hs value hlt)
    (by
      intro t t1 adds h hf hch
      obtain ⟨hi, hl, hp, hs⟩ := h hch
      obtain ⟨k1, k2, -, -, -⟩ := Writer.Flush_frame hf
      exact ⟨Inv_Flush hi hf, by rw [k1, hl], PrecInv_Flush hi hp hf, by rw [k2]; exact hs⟩)
    ops (fun _ => h0) hops hr
  simp only [List.nil_append] at key
  exact key hinc

/-- Order of the index keys, for a caller that leaves its keys alone. If the
keys passed to `Add` are strictly increasing under the comparer, the first of
them above the `nil` key the writer starts from, the comparer is a total order
and `Separator` and `Successor` meet their contracts, then in every run of `Add`
and `Flush` calls that all return `nil`, with no store into a key in between,
and also after a `Finish` that returns `nil` at its end, the keys of the index
block are in non-decreasing order. -/
theorem sorted_of_runOk (env : Env) (w : Sink) (ops : List Op)
    (hops : ∀ op ∈ ops, op ≠ Op.finish) (ho : env.o.comparer.IsOrder)
    (hsep : env.o.comparer.SeparatorContract) (hsuc : env.o.comparer.SuccessorContract)
    (hinc : List.Chain' env.o.comparer.lt ([] :: (addsOf ops).map Prod.fst)) :
    (∀ t, runOk env (NewWriter env w) ops = some t →
      List.Pairwise env.o.comparer.le (t.indexBlock.entries.map Prod.fst)) ∧
    (∀ t, runOk env (NewWriter env w) (ops ++ [Op.finish]) = some t →
      List.Pairwise env.o.comparer.le (t.indexBlock.entries.map Prod.fst)) := by
  have h0 : Inv env w.data.length (NewWriter env w) [] ∧
      (NewWriter env w).lkey = lastKey [] ∧ PrecInv env (NewWriter env w) ∧
      List.Pairwise env.o.comparer.le ((NewWriter env w).indexBlock.entries.map Prod.fst) :=
    ⟨Inv_NewWriter env w, rfl, PrecInv_NewWriter env w,
      by simp [NewWriter, BlockWriter.NewWriter]⟩
  refine ⟨fun t hr => (sorted_run ho hsep ops h0 hops hinc hr).2.2.2, fun t hr => ?_⟩
  obtain ⟨t0, hr0, hf⟩ := runOk_finish_last hr
  obtain ⟨hi, hl, hp, hs⟩ := sorted_run ho hsep ops h0 hops hinc hr0
  obtain ⟨t1, hF, -, hidx, -⟩ := Writer.Finish_index hf
  obtain ⟨k1, k2, -, -, -⟩ := Writer.Flush_frame hF
  have hp1 := PrecInv_Flush hi hp hF
  rw [hidx]
  simp only [Writer.lastIndex, BlockWriter.Add, List.map_append, List.map_cons, List.map_nil]
  rw [List.pairwise_append]
  refine ⟨by rw [k2]; exact hs, List.pairwise_singleton _ _, ?_⟩
  intro a ha b hb
  simp only [List.mem_singleton] at hb
  subst hb
  obtain ⟨e, he, rfl⟩ := List.mem_map.1 ha
  exact ho.1 _ _ _ (hp1.idxBelow e he) (hsuc t1.lkey)

/-- `Finish` is a chain of steps: the flush, the pipeline calls, the footer
write, and in between updates that leave the sink and the byte counter alone. A
relation that holds for each step and composes along steps that return `nil`
holds between the writer before `Finish` and the writer and error it returns. -/
theorem Writer.Finish_compose {env : Env} (R : Writer → Writer → Option Err → Prop)
    (hcomp : ∀ (a b c : Writer) (err : Option Err), R a b none → R b c err → R a c err)
    (hpure : ∀ a b : Writer, b.w = a.w → b.off = a.off → b.dataBlock = a.dataBlock →
      b.n = a.n → b.lkey = a.lkey → b.lblock = a.lblock → b.filterBlock = a.filterBlock →
      (b.pindex = true → a.pindex = true) → R a b none)
    (hwrite : ∀ (a b : Writer) (buf : Bytes) (bi : bInfo) (raw : Bool) (bi1 : bInfo)
      (err : Option Err), a.write env buf bi raw = (b, bi1, err) → R a b err)
    (hfooter : ∀ (a b : Writer) (mb ib : bInfo) (n : Nat) (err : Option Err),
      writeFooter env a.w mb ib = (b.w, n, err) →
      b.off = (if err = none then a.off + n else a.off) → b.dataBlock = a.dataBlock →
      b.n = a.n → b.lkey = a.lkey → b.lblock = a.lblock → b.filterBlock = a.filterBlock →
      (b.pindex = true → a.pindex = true) → R a b err)
    (hflush : ∀ (a b : Writer) (err : Option Err), a.Flush env = Result.ret b err → R a b err)
    {t t1 : Writer} {err : Option Err} (h : t.Finish env = Result.ret t1 err) :
    R t t1 err := by
  have hclosed : t.closed = false := by
    cases hc : t.closed
    · rfl
    · simp [Writer.Finish, hc] at h
  unfold Writer.Finish at h
  simp only [hclosed, Bool.false_eq_true, if_false] at h
  cases hF : t.Flush env with
  | panic => simp [hF] at h
  | ret t0 e0 =>
    have r0 := hflush t t0 e0 hF
    cases e0 with
    | some e =>
      simp only [hF, Result.ret.injEq] at h
      obtain ⟨rfl, rfl⟩ := h
      exact r0
    | none =>
      simp only [hF] at h
      refine hcomp _ _ _ _ r0 ?_
      have rc : R t0 { t0 with closed := true } none :=
        hpure _ _ rfl rfl rfl rfl rfl rfl rfl (fun h => h)
      refine hcomp _ _ _ _ rc ?_
      split at h
      · rename_i t2 fi e hfs
        simp only [Result.ret.injEq] at h
        obtain ⟨rfl, rfl⟩ := h
        split at hfs
        · split at hfs
          · rename_i hwr
            simp only [Prod.mk.injEq, Option.some.injEq] at hfs
            obtain ⟨rfl, -, rfl⟩ := hfs
            exact hwrite _ _ _ _ _ _ _ hwr
          · simp at hfs
        · simp at hfs
      · rename_i t2 fi hfs
        have r2 : R { t0 with closed := true } t2 none := by
          split at hfs
          · split at hfs
            · simp at hfs
            · rename_i hwr
              simp only [Prod.mk.injEq, and_true] at hfs
              obtain ⟨rfl, -⟩ := hfs
              exact hcomp _ _ _ _ (hwrite _ _ _ _ _ _ _ hwr)
                (hpure _ _ rfl rfl rfl rfl rfl rfl rfl (fun h => h))
          · simp only [Prod.mk.injEq, and_true] at hfs
            obtain ⟨rfl, -⟩ := hfs
            exact hpure _ _ rfl rfl rfl rfl rfl rfl rfl (fun h => h)
        refine hcomp _ _ _ _ r2 ?_
        split at h
        · rename_i t3 mb e hwm
          simp only [Result.ret.injEq] at h
          obtain ⟨rfl, rfl⟩ := h
          exact hwrite _ _ _ _ _ _ _ hwm
        · rename_i t3 mb hwm
          refine hcomp _ _ _ _ (hwrite _ _ _ _ _ _ _ hwm) ?_
          have r4 : ∀ (x : Writer), x.w = t3.w → x.off = t3.off →
              x.dataBlock = t3.dataBlock → x.n = t3.n → x.lkey = t3.lkey →
              x.lblock = t3.lblock → x.filterBlock = t3.filterBlock →
              (x.pindex = true → t3.pindex = true) → R t3 x none :=
            fun x a1 a2 a3 a4 a5 a6 a7 a8 => hpure _ _ a1 a2 a3 a4 a5 a6 a7 a8
          split at h
          · rename_i t5 ib e hwi
            simp only [Result.ret.injEq] at h
            obtain ⟨rfl, rfl⟩ := h
            refine hcomp _ _ _ _ (r4 _ ?_ ?_ ?_ ?_ ?_ ?_ ?_ ?_) (hwrite _ _ _ _ _ _ _ hwi)
            all_goals first | (split <;> rfl) | (split <;> simp)
          · rename_i t5 ib hwi
            have hw := hwrite _ _ _ _ _ _ _ hwi
            have hrest : R t5 t1 err := by
              split at h
              · rename_i w6 n e hwf
                simp only [Result.ret.injEq] at h
                obtain ⟨rfl, rfl⟩ := h
                exact hfooter t5 _ mb ib n (some e) hwf (by simp) rfl rfl rfl rfl rfl
                  (fun h => h)
              · rename_i w6 n hwf
                simp only [Result.ret.injEq] at h
                obtain ⟨rfl, rfl⟩ := h
                exact hfooter t5 _ mb ib n none hwf (by simp) rfl rfl rfl rfl rfl
                  (fun h => h)
            refine hcomp _ _ _ _ (r4 _ ?_ ?_ ?_ ?_ ?_ ?_ ?_ ?_) (hcomp _ _ _ _ hw hrest)
            all_goals first | (split <;> rfl) | (split <;> simp)

theorem Sink.Write_any {s s1 : Sink} {buf : Bytes} {n : Nat} {err : Option Err}
    (h : s.Write buf = (s1, n, err)) :
    s1.plan = s.plan.drop 1 ∧ (err = none → AllOk (s.plan.take 1)) ∧
      (∃ x, s1.data = s.data ++ x ∧ n = x.length ∧ (err = none → x = buf)) ∧
      (∀ e, err = some e → ∃ k, s.plan.take 1 = [WriteOutcome.fail k e]) := by
  unfold Sink.Write at h
  split at h
  · rename_i hp
    simp only [Prod.mk.injEq] at h
    obtain ⟨rfl, rfl, rfl⟩ := h
    refine ⟨by simp [hp], fun _ => by simp [hp, AllOk], ⟨buf, rfl, rfl, fun _ => rfl⟩, ?_⟩
    intro e he
    simp at he
  · rename_i rest hp
    simp only [Prod.mk.injEq] at h
    obtain ⟨rfl, rfl, rfl⟩ := h
    refine ⟨by simp [hp], fun _ => by simp [hp, AllOk], ⟨buf, rfl, rfl, fun _ => rfl⟩, ?_⟩
    intro e he
    simp at he
  · rename_i k e rest hp
    simp only [Prod.mk.injEq] at h
    obtain ⟨rfl, rfl, rfl⟩ := h
    refine ⟨by simp [hp], fun h => by simp at h, ⟨buf.take k, rfl, rfl, fun h => by simp at h⟩,
      ?_⟩
    intro e1 he
    simp only [Option.some.injEq] at he
    subst he
    exact ⟨k, by simp [hp]⟩

theorem Clean_refl (p : List WriteOutcome) : Clean p p :=
  ⟨0, by simp, by simp [AllOk]⟩

theorem Clean_trans {p p1 p2 : List WriteOutcome} (h1 : Clean p p1) (h2 : Clean p1 p2) :
    Clean p p2 := by
  obtain ⟨k1, rfl, a1⟩ := h1
  obtain ⟨k2, rfl, a2⟩ := h2
  refine ⟨k1 + k2, by rw [List.drop_drop, Nat.add_comm], ?_⟩
  intro o ho
  rw [List.take_add] at ho
  rcases List.mem_append.1 ho with ho | ho
  · exact a1 o ho
  · exact a2 o ho

theorem Clean_Write {s s1 : Sink} {buf : Bytes} {n : Nat}
    (h : s.Write buf = (s1, n, none)) : Clean s.plan s1.plan :=
  ⟨1, (Sink.Write_any h).1, (Sink.Write_any h).2.1 rfl⟩

theorem Writer.Flush_sink {env : Env} (S : Sink → Nat → Sink → Nat → Option Err → Prop)
    (hrefl : ∀ (w : Sink) (o : Nat), S w o w o none)
    (hwrite : ∀ (a b : Writer) (buf : Bytes) (bi : bInfo) (raw : Bool) (bi1 : bInfo)
      (err : Option Err), a.write env buf bi raw = (b, bi1, err) → S a.w a.off b.w b.off err)
    {t t1 : Writer} {err : Option Err} (h : t.Flush env = Result.ret t1 err) :
    S t.w t.off t1.w t1.off err := by
  unfold Writer.Flush at h
  split at h
  · simp at h
  · split at h
    · simp only [Result.ret.injEq] at h
      obtain ⟨rfl, rfl⟩ := h
      exact hrefl _ _
    · split at h
      · rename_i t2 bi e hw
        simp only [Result.ret.injEq] at h
        obtain ⟨rfl, rfl⟩ := h
        exact hwrite t t2 _ _ _ _ _ hw
      · rename_i t2 bi hw
        dsimp only at h
        split at h
        · simp only [Result.ret.injEq] at h
          obtain ⟨rfl, rfl⟩ := h
          exact hwrite t t2 _ _ _ _ _ hw
        · simp only [Result.ret.injEq] at h
          obtain ⟨rfl, rfl⟩ := h
          exact hwrite t t2 _ _ _ _ _ hw

/-- A relation between sink and byte counter before and after that holds for
every pipeline call and for the footer write, and composes along calls that
return `nil`, holds for every `Add`, `Flush` and `Finish`. -/
theorem Writer.step_sink {env : Env} (S : Sink → Nat → Sink → Nat → Option Err → Prop)
    (hrefl : ∀ (w : Sink) (o : Nat), S w o w o none)
    (hcomp : ∀ (w : Sink) (o : Nat) (w1 : Sink) (o1 : Nat) (w2 : Sink) (o2 : Nat)
      (err : Option Err), S w o w1 o1 none → S w1 o1 w2 o2 err → S w o w2 o2 err)
    (hwrite : ∀ (a b : Writer) (buf : Bytes) (bi : bInfo) (raw : Bool) (bi1 : bInfo)
      (err : Option Err), a.write env buf bi raw = (b, bi1, err) → S a.w a.off b.w b.off err)
    (hfooter : ∀ (w w6 : Sink) (mb ib : bInfo) (n : Nat) (err : Option Err) (o : Nat),
      writeFooter env w mb ib = (w6, n, err) →
      S w o w6 (if err = none then o + n else o) err)
    {t t1 : Writer} {op : Op} {err : Option Err} (h : t.step env op = Result.ret t1 err) :
    S t.w t.off t1.w t1.off err := by
  cases op with
  | flush => exact Writer.Flush_sink S hrefl hwrite h
  | add key value =>
    simp only [Writer.step] at h
    have hc : t.closed = false := (Writer.Add_keeps h).1
    rw [Writer.Add_eq hc] at h
    split at h
    · have := Writer.Flush_sink S hrefl hwrite h
      exact this
    · simp only [Result.ret.injEq] at h
      obtain ⟨rfl, rfl⟩ := h
      exact hrefl _ _
  | finish =>
    simp only [Writer.step] at h
    refine Writer.Finish_compose (fun a b err => S a.w a.off b.w b.off err) ?_ ?_ ?_ ?_ ?_ h
    · intro a b c err h1 h2
      exact hcomp _ _ _ _ _ _ _ h1 h2
    · intro a b hw ho _ _ _ _ _ _
      rw [hw, ho]
      exact hrefl _ _
    · exact hwrite
    · intro a b mb ib n err hwf ho _ _ _ _ _ _
      rw [ho]
      exact hfooter _ _ _ _ _ _ _ hwf
    · intro a b err hf
      exact Writer.Flush_sink S hrefl hwrite hf

theorem Writer.write_counts {env : Env} {t t1 : Writer} {buf : Bytes} {bi bi1 : bInfo}
    {raw : Bool} {err : Option Err} (h : t.write env buf bi raw = (t1, bi1, err)) :
    Counts t.w t.off t1.w t1.off err := by
  cases err with
  | none =>
    obtain ⟨c, P, -, -, hd, ht⟩ := Writer.write_ok h
    have ho : t1.off = t.off + (P.length + 5) := by rw [ht]
    refine ⟨framed env c P, hd, by omega, ?_, fun _ => ?_⟩
    · rw [ho, framed_length]
    · rw [ho, framed_length]
  | some e =>
    unfold Writer.write at h
    split at h
    · simp only [Prod.mk.injEq] at h
      obtain ⟨rfl, -, -⟩ := h
      exact ⟨[], by simp, Nat.le_refl _, by simp, fun h => by simp at h⟩
    · dsimp only at h
      split at h
      · rename_i w1 n1 e1 h1
        obtain ⟨-, -, ⟨x1, d1, -, -⟩, -⟩ := Sink.Write_any h1
        simp only [Prod.mk.injEq] at h
        obtain ⟨rfl, -, -⟩ := h
        exact ⟨x1, d1, Nat.le_refl _, by simp, fun h => by simp at h⟩
      · rename_i w1 n1 h1
        obtain ⟨-, -, ⟨x1, d1, -, -⟩, -⟩ := Sink.Write_any h1
        split at h
        · rename_i w2 n2 e2 h2
          obtain ⟨-, -, ⟨x2, d2, -, -⟩, -⟩ := Sink.Write_any h2
          simp only [Prod.mk.injEq] at h
          obtain ⟨rfl, -, -⟩ := h
          exact ⟨x1 ++ x2, by simp [d2, d1], Nat.le_refl _, by simp, fun h => by simp at h⟩
        · rename_i w2 n2 h2
          obtain ⟨-, -, ⟨x2, d2, -, -⟩, -⟩ := Sink.Write_any h2
          split at h
          · rename_i w3 n3 e3 h3
            obtain ⟨-, -, ⟨x3, d3, -, -⟩, -⟩ := Sink.Write_any h3
            simp only [Prod.mk.injEq] at h
            obtain ⟨rfl, -, -⟩ := h
            exact ⟨x1 ++ (x2 ++ x3), by simp [d3, d2, d1], Nat.le_refl _, by simp,
              fun h => by simp at h⟩
          · simp at h

theorem Counts_refl (w : Sink) (o : Nat) : Counts w o w o none :=
  ⟨[], by simp, Nat.le_refl _, by simp, fun _ => by simp⟩

theorem Counts_comp (w : Sink) (o : Nat) (w1 : Sink) (o1 : Nat) (w2 : Sink) (o2 : Nat)
    (err : Option Err) (h1 : Counts w o w1 o1 none) (h2 : Counts w1 o1 w2 o2 err) :
    Counts w o w2 o2 err := by
  obtain ⟨x1, d1, a1, b1, c1⟩ := h1
  obtain ⟨x2, d2, a2, b2, c2⟩ := h2
  have e1 := c1 rfl
  refine ⟨x1 ++ x2, by rw [d2, d1, List.append_assoc], by omega, ?_, fun h => ?_⟩
  · rw [List.length_append]; omega
  · rw [List.length_append, c2 h]; omega

theorem Counts_footer {env : Env} (w w6 : Sink) (mb ib : bInfo) (n : Nat)
    (err : Option Err) (o : Nat) (h : writeFooter env w mb ib = (w6, n, err)) :
    Counts w o w6 (if err = none then o + n else o) err := by
  obtain ⟨-, -, ⟨x, d, hn, -⟩, -⟩ := Sink.Write_any h
  cases err with
  | none => exact ⟨x, d, by simp, by simp [hn], fun _ => by simp [hn]⟩
  | some e => exact ⟨x, d, by simp, by simp, fun h => by simp at h⟩

/-- Every `Add`, `Flush` and `Finish`, whatever it returns, makes the sink
longer by some bytes and the byte counter larger by no more than their number,
and by exactly their number when it returns `nil`. -/
theorem Writer.step_counts {env : Env} {t t1 : Writer} {op : Op} {err : Option Err}
    (h : t.step env op = Result.ret t1 err) : Counts t.w t.off t1.w t1.off err :=
  Writer.step_sink Counts Counts_refl Counts_comp
    (fun _ _ _ _ _ _ _ hw => Writer.write_counts hw) Counts_footer h

theorem Chained_blocks {base : Nat} {l : List Event} {a b : Nat} (h : Chained base a l b) :
    ∀ r, Event.block r ∈ l →
      r.start = base + r.h.offset ∧ r.stop = r.start + (r.h.size + 5) := by
  induction l generalizing a with
  | nil => intro r hr; simp at hr
  | cons e es ih =>
    intro r hr
    cases e with
    | block r0 =>
      obtain ⟨-, h2, h3, h4⟩ := h
      rcases List.mem_cons.1 hr with hr | hr
      · simp only [Event.block.injEq] at hr
        subst hr
        exact ⟨h2, h3⟩
      · exact ih h4 r hr
    | footer mb ib s e =>
      obtain ⟨-, -, h4⟩ := h
      rcases List.mem_cons.1 hr with hr | hr
      · simp at hr
      · exact ih h4 r hr

theorem exec_append (env : Env) (t : Writer) (l1 l2 : List Op) :
    exec env t (l1 ++ l2) = exec env (exec env t l1) l2 := by
  simp [exec, List.foldl_append]

/-- A property of the writer kept by every call that returns holds in every
state the writer goes through. -/
theorem exec_invariant {env : Env} (Q : Writer → Prop)
    (hstep : ∀ (t t1 : Writer) (op : Op) (err : Option Err), Q t →
      t.step env op = Result.ret t1 err → Q t1)
    (ops : List Op) : ∀ {t : Writer}, Q t → Q (exec env t ops) := by
  induction ops with
  | nil => intro t h; exact h
  | cons op ops ih =>
    intro t h
    show Q (exec env (t.after env op) ops)
    apply ih
    unfold Writer.after
    cases hs : t.step env op with
    | panic => exact h
    | ret t1 err => exact hstep t t1 op err h hs

/-- C13, as stated, fails. On a sink whose second `Write` fails after taking
one byte, a `Flush` of one buffered pair leaves six bytes in the sink while
`Size()` is still zero; the `Flush` after it writes the block again, with the
handle offset zero, beginning at sink position six. -/
theorem Size_misses_failed_write :
    (exec demoEnv (NewWriter demoEnv brokenSink) [Op.add [1] [2, 3], Op.flush]).Size = 0 ∧
    (exec demoEnv (NewWriter demoEnv brokenSink)
      [Op.add [1] [2, 3], Op.flush]).w.data.length = 6 ∧
    (exec demoEnv (NewWriter demoEnv brokenSink)
      [Op.add [1] [2, 3], Op.flush, Op.flush]).log =
        [Event.block { kind := BlockKind.data, entries := [([1], [2, 3])], start := 6,
                       stop := 16, h := { offset := 0, size := 5 } }] := by
  decide

/-- C13, amended: in every state reached from `NewWriter` by `Add`, `Flush` and
`Finish` calls, whatever each sink write returns, `Size()` is at most the number
of bytes the sink has received from the writer; in the states reached by calls
that all returned `nil` it is exactly that number, and the offset of the handle
of every block written is the number of bytes the sink had received when the
block began to be written. -/
theorem Size_at_most_bytes_emitted (env : Env) (w : Sink) (ops : List Op) :
    w.data.length + (exec env (NewWriter env w) ops).Size
      ≤ (exec env (NewWriter env w) ops).w.data.length ∧
    (∀ t, runOk env (NewWriter env w) ops = some t →
      w.data.length + t.Size = t.w.data.length ∧
      ∀ r, Event.block r ∈ t.log → r.start = w.data.length + r.h.offset) := by
  constructor
  · refine exec_invariant (fun t => w.data.length + t.Size ≤ t.w.data.length) ?_ ops ?_
    · intro t t1 op err hq hs
      obtain ⟨x, hd, -, h2, -⟩ := Writer.step_counts hs
      simp only [Writer.Size] at hq ⊢
      rw [hd, List.length_append]
      omega
    · simp [NewWriter, Writer.Size]
  · intro t hr
    obtain ⟨adds, hi | hd⟩ := Inv_or_Done ops (Inv_NewWriter env w) hr
    · exact ⟨hi.bytes.symm, fun r hr => (Chained_blocks hi.chain r hr).1⟩
    · exact ⟨hd.bytes.symm, fun r hr => (Chained_blocks hd.chain r hr).1⟩

theorem Writer.write_propagates {env : Env} {t t1 : Writer} {buf : Bytes} {bi bi1 : bInfo}
    {raw : Bool} {err : Option Err} (h : t.write env buf bi raw = (t1, bi1, err)) :
    Propagates env t.w t1.w err := by
  constructor
  · intro he
    subst he
    unfold Writer.write at h
    split at h
    · simp at h
    · dsimp only at h
      split at h
      · simp at h
      · rename_i w1 n1 h1
        split at h
        · simp at h
        · rename_i w2 n2 h2
          split at h
          · simp at h
          · rename_i w3 n3 h3
            simp only [Prod.mk.injEq] at h
            obtain ⟨rfl, -, -⟩ := h
            exact Clean_trans (Clean_trans (Clean_Write h1) (Clean_Write h2)) (Clean_Write h3)
  · intro e he
    subst he
    exact ⟨t, Clean_refl _, Or.inl ⟨buf, bi, raw, t1, bi1, h, rfl⟩⟩

theorem Propagates_comp {env : Env} {w w1 w2 : Sink} {err : Option Err}
    (h1 : Propagates env w w1 none) (h2 : Propagates env w1 w2 err) :
    Propagates env w w2 err := by
  have c1 := h1.1 rfl
  constructor
  · intro he
    exact Clean_trans c1 (h2.1 he)
  · intro e he
    obtain ⟨a, ca, fa⟩ := h2.2 e he
    exact ⟨a, Clean_trans c1 ca, fa⟩

/-- Every `Add`, `Flush` and `Finish` that returns relates its sink writes to
its error as `Propagates` says. -/
theorem Writer.step_propagates {env : Env} {t t1 : Writer} {op : Op} {err : Option Err}
    (h : t.step env op = Result.ret t1 err) : Propagates env t.w t1.w err := by
  refine Writer.step_sink
    (fun (w : Sink) (_ : Nat) (w1 : Sink) (_ : Nat) (err : Option Err) =>
      Propagates env w w1 err) ?_ (fun _ _ _ _ _ _ _ h1 h2 => Propagates_comp h1 h2) ?_ ?_ h
  · intro w _
    exact ⟨fun _ => Clean_refl _, fun e he => by simp at he⟩
  · intro a b buf bi raw bi1 err hw
    exact Writer.write_propagates hw
  · intro w w6 mb ib n err _ hwf
    constructor
    · intro he
      subst he
      exact Clean_Write hwf
    · intro e he
      subst he
      exact ⟨NewWriter env w, Clean_refl _, Or.inr ⟨mb, ib, n, hwf⟩⟩

theorem Writer.step_ne_panic {env : Env} {t : Writer} (hc : t.closed = false) (op : Op) :
    t.step env op ≠ Result.panic := by
  cases op with
  | add key value =>
    simp only [Writer.step]
    rw [Writer.Add_eq hc]
    split
    · exact Writer.Flush_ne_panic hc
    · simp
  | flush => exact Writer.Flush_ne_panic hc
  | finish => exact Writer.Finish_ne_panic hc

theorem Writer.step_reliable {env : Env} (hs : ∀ b, ∃ c, env.snappyEncode b = Except.ok c)
    {t t1 : Writer} {op : Op} {err : Option Err} (hw : t.w.Reliable)
    (h : t.step env op = Result.ret t1 err) : err = none := by
  have hc : t.closed = false := by
    cases hc : t.closed
    · rfl
    · exfalso
      cases op with
      | add key value => simp [Writer.step, Writer.Add, hc] at h
      | flush => simp [Writer.step, Writer.Flush, hc] at h
      | finish => simp [Writer.step, Writer.Finish, hc] at h
  cases op with
  | add key value =>
    obtain ⟨t2, h2, -, -⟩ := Writer.Add_reliable hs hc hw key value
    simp only [Writer.step] at h
    rw [h2] at h
    simp only [Result.ret.injEq] at h
    exact h.2.symm
  | flush =>
    obtain ⟨t2, h2, -, -⟩ := Writer.Flush_reliable hs hc hw
    simp only [Writer.step] at h
    rw [h2] at h
    simp only [Result.ret.injEq] at h
    exact h.2.symm
  | finish =>
    obtain ⟨t2, h2⟩ := Writer.Finish_reliable hs hc hw
    simp only [Writer.step] at h
    rw [h2] at h
    simp only [Result.ret.injEq] at h
    exact h.2.symm

theorem Writer.write_compress_error {env : Env} (a : Writer) {buf : Bytes} (bi : bInfo)
    {raw : Bool} {e : Err} (h : compress env buf raw = Except.error e) :
    a.write env buf bi raw = (a, bi, some e) := by
  unfold Writer.write
  rw [h]

theorem Writer.write_error_cases {env : Env} {a b : Writer} {buf : Bytes} {bi bi1 : bInfo}
    {raw : Bool} {e : Err} (h : a.write env buf bi raw = (b, bi1, some e)) :
    compress env buf raw = Except.error e ∨
    ∃ c P j x pre, compress env buf raw = Except.ok (c, P) ∧ j < 3 ∧
      a.w.plan.take (j + 1) = pre ++ [WriteOutcome.fail x e] ∧ AllOk pre ∧
      b.w.plan = a.w.plan.drop (j + 1) := by
  unfold Writer.write at h
  split at h
  · rename_i e1 hc
    simp only [Prod.mk.injEq, Option.some.injEq] at h
    obtain ⟨-, -, rfl⟩ := h
    exact Or.inl hc
  · rename_i c P hc
    right
    dsimp only at h
    split at h
    · rename_i w1 n1 e1 h1
      simp only [Prod.mk.injEq, Option.some.injEq] at h
      obtain ⟨rfl, -, rfl⟩ := h
      obtain ⟨p1, -, -, f1⟩ := Sink.Write_any h1
      obtain ⟨x, hx⟩ := f1 e1 rfl
      exact ⟨c, P, 0, x, [], hc, by omega, by simpa using hx, by simp [AllOk], p1⟩
    · rename_i w1 n1 h1
      obtain ⟨p1, a1, -, -⟩ := Sink.Write_any h1
      split at h
      · rename_i w2 n2 e2 h2
        simp only [Prod.mk.injEq, Option.some.injEq] at h
        obtain ⟨rfl, -, rfl⟩ := h
        obtain ⟨p2, -, -, f2⟩ := Sink.Write_any h2
        obtain ⟨x, hx⟩ := f2 e2 rfl
        refine ⟨c, P, 1, x, a.w.plan.take 1, hc, by omega, ?_, a1 rfl, ?_⟩
        · rw [Nat.add_comm, List.take_add, ← p1, hx]
        · show w2.plan = _
          rw [p2, p1, List.drop_drop]
      · rename_i w2 n2 h2
        obtain ⟨p2, a2, -, -⟩ := Sink.Write_any h2
        split at h
        · rename_i w3 n3 e3 h3
          simp only [Prod.mk.injEq, Option.some.injEq] at h
          obtain ⟨rfl, -, rfl⟩ := h
          obtain ⟨p3, -, -, f3⟩ := Sink.Write_any h3
          obtain ⟨x, hx⟩ := f3 e3 rfl
          have c2 : Clean a.w.plan w2.plan := Clean_trans (Clean_Write h1) (Clean_Write h2)
          have hw2 : w2.plan = a.w.plan.drop 2 := by
            rw [p2, p1, List.drop_drop]
          refine ⟨c, P, 2, x, a.w.plan.take 2, hc, by omega, ?_, ?_, ?_⟩
          · rw [show 2 + 1 = 2 + 1 from rfl, List.take_add, ← hw2, hx]
          · intro o ho
            rw [show 2 = 1 + 1 from rfl, List.take_add, ← p1] at ho
            rcases List.mem_append.1 ho with ho | ho
            · exact a1 rfl o ho
            · exact a2 rfl o ho
          · show w3.plan = _
            rw [p3, hw2, List.drop_drop]
        · simp at h

/-- C14: error propagation. On a writer that is not closed each of `Add`,
`Flush` and `Finish` returns; when it returns `nil` every sink write it made
succeeded; when it returns an error, that error is the one returned by a
pipeline call or by the footer write that was preceded only by successful sink
writes and after which the sink was not touched; on a sink and with a snappy
that never fail it returns `nil`. A pipeline call returns an error exactly when
its compression step fails, and then it writes nothing, or when one of its three
sink writes fails after the earlier ones succeeded, and then it makes no later
write; the footer write fails exactly when its one sink write fails. -/
theorem error_is_first_failure (env : Env) (t : Writer) (op : Op) (hc : t.closed = false) :
    (∃ t1 err, t.step env op = Result.ret t1 err ∧ Propagates env t.w t1.w err ∧
      ((∀ b, ∃ c, env.snappyEncode b = Except.ok c) → t.w.Reliable → err = none)) ∧
    (∀ (a : Writer) (buf : Bytes) (bi : bInfo) (raw : Bool) (e : Err),
      compress env buf raw = Except.error e → a.write env buf bi raw = (a, bi, some e)) ∧
    (∀ (a b : Writer) (buf : Bytes) (bi bi1 : bInfo) (raw : Bool) (e : Err),
      a.write env buf bi raw = (b, bi1, some e) →
      compress env buf raw = Except.error e ∨
      ∃ c P j x pre, compress env buf raw = Except.ok (c, P) ∧ j < 3 ∧
        a.w.plan.take (j + 1) = pre ++ [WriteOutcome.fail x e] ∧ AllOk pre ∧
        b.w.plan = a.w.plan.drop (j + 1)) ∧
    (∀ (w w6 : Sink) (mb ib : bInfo) (n : Nat) (e : Err),
      writeFooter env w mb ib = (w6, n, some e) →
      ∃ x, w.plan.take 1 = [WriteOutcome.fail x e] ∧ w6.plan = w.plan.drop 1) := by
  refine ⟨?_, fun a buf bi raw e h => Writer.write_compress_error a bi h,
    fun a b buf bi bi1 raw e h => Writer.write_error_cases h, ?_⟩
  · cases hs : t.step env op with
    | panic => exact absurd hs (Writer.step_ne_panic hc op)
    | ret t1 err =>
      exact ⟨t1, err, rfl, Writer.step_propagates hs,
        fun hsn hw => Writer.step_reliable hsn hw hs⟩
  · intro w w6 mb ib n e h
    obtain ⟨p1, -, -, f1⟩ := Sink.Write_any h
    obtain ⟨x, hx⟩ := f1 e rfl
    exact ⟨x, hx, p1⟩

theorem error_is_first_failure_witness :
    (NewWriter demoEnv failingSink).closed = false ∧
    ((∃ t1 err, (NewWriter demoEnv failingSink).step demoEnv Op.finish = Result.ret t1 err ∧
        Propagates demoEnv (NewWriter demoEnv failingSink).w t1.w err ∧
        ((∀ b, ∃ c, demoEnv.snappyEncode b = Except.ok c) →
          (NewWriter demoEnv failingSink).w.Reliable → err = none)) ∧
     (∀ (a : Writer) (buf : Bytes) (bi : bInfo) (raw : Bool) (e : Err),
        compress demoEnv buf raw = Except.error e →
        a.write demoEnv buf bi raw = (a, bi, some e)) ∧
     (∀ (a b : Writer) (buf : Bytes) (bi bi1 : bInfo) (raw : Bool) (e : Err),
        a.write demoEnv buf bi raw = (b, bi1, some e) →
        compress demoEnv buf raw = Except.error e ∨
        ∃ c P j x pre, compress demoEnv buf raw = Except.ok (c, P) ∧ j < 3 ∧
          a.w.plan.take (j + 1) = pre ++ [WriteOutcome.fail x e] ∧ AllOk pre ∧
          b.w.plan = a.w.plan.drop (j + 1)) ∧
     (∀ (w w6 : Sink) (mb ib : bInfo) (n : Nat) (e : Err),
        writeFooter demoEnv w mb ib = (w6, n, some e) →
        ∃ x, w.plan.take 1 = [WriteOutcome.fail x e] ∧ w6.plan = w.plan.drop 1)) :=
  ⟨rfl, error_is_first_failure demoEnv (NewWriter demoEnv failingSink) Op.finish rfl⟩

theorem PendingEmpty_Flush {env : Env} {t t1 : Writer} {err : Option Err}
    (hq : PendingEmpty t) (h : t.Flush env = Result.ret t1 err) : PendingEmpty t1 := by
  cases err with
  | none =>
    obtain ⟨-, ⟨-, rfl⟩ | ⟨-, c, P, w1, -, -, rfl⟩⟩ := Writer.Flush_ok h
    · exact hq
    · intro _
      rfl
  | some e =>
    obtain ⟨-, -, -, -, k⟩ := Writer.Flush_frame h
    obtain ⟨k1, k2, -, -, -⟩ := k (by simp)
    intro hp
    rw [k1]
    exact hq (by rw [← k2]; exact hp)

theorem PendingEmpty_step {env : Env} (t t1 : Writer) (op : Op) (err : Option Err)
    (hq : PendingEmpty t) (h : t.step env op = Result.ret t1 err) : PendingEmpty t1 := by
  cases op with
  | flush => exact PendingEmpty_Flush hq h
  | add key value =>
    simp only [Writer.step] at h
    have hc : t.closed = false := (Writer.Add_keeps h).1
    rw [Writer.Add_eq hc] at h
    have hb : PendingEmpty (t.buffered env key value) := by
      intro hp
      simp [Writer.buffered] at hp
    split at h
    · exact PendingEmpty_Flush hb h
    · simp only [Result.ret.injEq] at h
      obtain ⟨rfl, -⟩ := h
      exact hb
  | finish =>
    simp only [Writer.step] at h
    refine Writer.Finish_compose (fun a b _ => PendingEmpty a → PendingEmpty b) ?_ ?_ ?_ ?_ ?_
      h hq
    · intro a b c err h1 h2 ha
      exact h2 (h1 ha)
    · intro a b _ _ hd _ _ _ _ hp ha hb
      rw [hd]
      exact ha (hp hb)
    · intro a b buf bi raw bi1 err hw ha hb
      rw [Writer.write_frame hw] at hb ⊢
      exact ha hb
    · intro a b mb ib n err _ _ hd _ _ _ _ hp ha hb
      rw [hd]
      exact ha (hp hb)
    · intro a b err hf ha
      exact PendingEmpty_Flush ha hf

theorem LaterBlocksFull_buffered {env : Env} {t : Writer} (h : LaterBlocksFull t)
    (key value : Bytes) : LaterBlocksFull (t.buffered env key value) :=
  ⟨h.1, fun _ _ => by simp [Writer.buffered, BlockWriter.Add]⟩

theorem AllBlocksFull_buffered {env : Env} {t : Writer}
    (h : ∀ r ∈ dataBlocks t.log, r.entries ≠ []) (key value : Bytes) :
    AllBlocksFull (t.buffered env key value) :=
  ⟨h, fun _ => by simp [Writer.buffered, BlockWriter.Add]⟩

theorem dataBlocks_flushed (t : Writer) (w1 : Sink) (P : Bytes) :
    dataBlocks (t.flushed w1 P).log = dataBlocks t.log ++
      [{ kind := BlockKind.data, entries := t.dataBlock.entries, start := t.w.data.length,
         stop := w1.data.length, h := { offset := t.off, size := P.length } }] := by
  simp [Writer.flushed, dataBlocks_append, dataBlocks]

theorem LaterBlocksFull_Flush {env : Env} {t t1 : Writer} (hq : LaterBlocksFull t)
    (h : t.Flush env = Result.ret t1 none) : LaterBlocksFull t1 := by
  obtain ⟨-, ⟨-, rfl⟩ | ⟨hp, c, P, w1, -, -, rfl⟩⟩ := Writer.Flush_ok h
  · exact hq
  · refine ⟨?_, fun hp1 => by simp [Writer.flushed] at hp1⟩
    rw [dataBlocks_flushed]
    intro r hr
    by_cases hne : dataBlocks t.log = []
    · simp [hne] at hr
    · rw [List.tail_append_of_ne_nil hne] at hr
      rcases List.mem_append.1 hr with hr | hr
      · exact hq.1 r hr
      · simp only [List.mem_singleton] at hr
        subst hr
        exact hq.2 hp hne

theorem AllBlocksFull_Flush {env : Env} {t t1 : Writer} (hq : AllBlocksFull t)
    (h : t.Flush env = Result.ret t1 none) : AllBlocksFull t1 := by
  obtain ⟨-, ⟨-, rfl⟩ | ⟨hp, c, P, w1, -, -, rfl⟩⟩ := Writer.Flush_ok h
  · exact hq
  · refine ⟨?_, fun hp1 => by simp [Writer.flushed] at hp1⟩
    rw [dataBlocks_flushed]
    intro r hr
    rcases List.mem_append.1 hr with hr | hr
    · exact hq.1 r hr
    · simp only [List.mem_singleton] at hr
      subst hr
      exact hq.2 hp

/-- A property of the writer kept by every `Add` and `Flush` that returns
`nil` holds, in every run whose calls all return `nil`, of a writer that has
written the same data blocks as the writer the run ends in. -/
theorem runOk_blocks {env : Env} (B : Writer → Prop)
    (hadd : ∀ (t t1 : Writer) (key value : Bytes), B t →
      t.Add env key value = Result.ret t1 none → B t1)
    (hflush : ∀ (t t1 : Writer), B t → t.Flush env = Result.ret t1 none → B t1)
    (ops : List Op) {t t1 : Writer} (hb : B t) (hr : runOk env t ops = some t1) :
    ∃ t0, B t0 ∧ dataBlocks t1.log = dataBlocks t0.log := by
  have hind : ∀ (pre : List Op) (t2 : Writer), (∀ op ∈ pre, op ≠ Op.finish) →
      runOk env t pre = some t2 → B t2 := by
    intro pre t2 hpre hr2
    exact @runOk_induction env (fun (t : Writer) (_ : List Entry) => B t)
      (fun t t1 _ key value h ha => hadd t t1 key value h ha)
      (fun t t1 _ h hf => hflush t t1 h hf) pre t t2 [] hb hpre hr2
  rcases runOk_shape ops hr with hno | ⟨pre, rfl, hno⟩
  · exact ⟨t1, hind ops t1 hno hr, rfl⟩
  · obtain ⟨t2, hr2, hf⟩ := runOk_finish_last hr
    obtain ⟨t3, hF, -, -, hlog⟩ := Writer.Finish_index hf
    exact ⟨t3, hflush t2 t3 (hind pre t2 hno hr2) hF, hlog⟩

/-- C19: in every state the writer goes through, whatever its calls return,
the data block builder holds no pair while an index entry is pending. Hence in
a run whose calls all return `nil` every data block written after the first
holds a pair, and so does the first when the run starts with an `Add`: an empty
block can only be the first block, written by a `Flush` or `Finish` that comes
before every `Add`. -/
theorem pending_index_means_empty_builder (env : Env) (w : Sink) (ops : List Op) :
    ((exec env (NewWriter env w) ops).pindex = true →
      (exec env (NewWriter env w) ops).dataBlock.entries = []) ∧
    (∀ t, runOk env (NewWriter env w) ops = some t →
      (∀ r ∈ (dataBlocks t.log).tail, r.entries ≠ []) ∧
      (∀ key value rest, ops = Op.add key value :: rest →
        ∀ r ∈ dataBlocks t.log, r.entries ≠ [])) := by
  refine ⟨?_, fun t hr => ⟨?_, ?_⟩⟩
  · exact exec_invariant PendingEmpty PendingEmpty_step ops (fun hp => by simp [NewWriter] at hp)
  · obtain ⟨t0, h0, hlog⟩ := runOk_blocks LaterBlocksFull
      (fun t t1 key value h ha => by
        have hc : t.closed = false := (Writer.Add_keeps ha).1
        rw [Writer.Add_eq hc] at ha
        split at ha
        · exact LaterBlocksFull_Flush (LaterBlocksFull_buffered h key value) ha
        · simp only [Result.ret.injEq, and_true] at ha
          rw [← ha]
          exact LaterBlocksFull_buffered h key value)
      (fun t t1 h hf => LaterBlocksFull_Flush h hf) ops
      (by simp [LaterBlocksFull, NewWriter, dataBlocks] : LaterBlocksFull (NewWriter env w)) hr
    rw [hlog]
    exact h0.1
  · intro key value rest hops
    subst hops
    simp only [runOk] at hr
    cases hstep : (NewWriter env w).step env (Op.add key value) with
    | panic => simp [hstep] at hr
    | ret t2 err =>
      cases err with
      | some e => simp [hstep] at hr
      | none =>
        simp only [hstep] at hr
        have h2 : AllBlocksFull t2 := by
          have ha := hstep
          simp only [Writer.step] at ha
          rw [Writer.Add_eq rfl] at ha
          have hb : AllBlocksFull ((NewWriter env w).buffered env key value) :=
            AllBlocksFull_buffered (by simp [NewWriter, dataBlocks]) key value
          split at ha
          · exact AllBlocksFull_Flush hb ha
          · simp only [Result.ret.injEq, and_true] at ha
            rw [← ha]
            exact hb
        obtain ⟨t0, h0, hlog⟩ := runOk_blocks AllBlocksFull
          (fun t t1 key value h ha => by
            have hc : t.closed = false := (Writer.Add_keeps ha).1
            rw [Writer.Add_eq hc] at ha
            split at ha
            · exact AllBlocksFull_Flush (AllBlocksFull_buffered h.1 key value) ha
            · simp only [Result.ret.injEq, and_true] at ha
              rw [← ha]
              exact AllBlocksFull_buffered h.1 key value)
          (fun t t1 h hf => AllBlocksFull_Flush h hf) rest h2 hr
        rw [hlog]
        exact h0.1

theorem filterCalls_append (l : List BlockRecord) (r : BlockRecord) :
    filterCalls (l ++ [r]) = filterCalls l ++ blockCalls r := by
  simp [filterCalls]

theorem FilterInv_NewWriter (env : Env) (w : Sink) : FilterInv env (NewWriter env w) := by
  constructor
  · intro h
    simp [NewWriter, h]
  · intro h
    cases hf : env.o.filter with
    | none => exact absurd hf h
    | some flt =>
      simp [NewWriter, hf, filterCalls, dataBlocks, BlockWriter.NewWriter,
        FilterWriter.Generate, FilterWriter.NewFilterWriter]

theorem FilterInv_buffered {env : Env} {t : Writer} (h : FilterInv env t)
    (key value : Bytes) : FilterInv env (t.buffered env key value) := by
  constructor
  · intro hn
    simp [Writer.buffered, h.1 hn]
  · intro hn
    simp [Writer.buffered, h.2 hn, FilterWriter.Add, BlockWriter.Add]

theorem FilterInv_Flush {env : Env} {t t1 : Writer} (h : FilterInv env t)
    (hf : t.Flush env = Result.ret t1 none) : FilterInv env t1 := by
  obtain ⟨-, ⟨-, rfl⟩ | ⟨-, c, P, w1, -, -, rfl⟩⟩ := Writer.Flush_ok hf
  · exact h
  · constructor
    · intro hn
      simp [Writer.flushed, h.1 hn]
    · intro hn
      rw [dataBlocks_flushed, filterCalls_append]
      simp [Writer.flushed, h.2 hn, FilterWriter.Generate, BlockWriter.Reset, blockCalls]

theorem FilterInv_Add {env : Env} {t t1 : Writer} (h : FilterInv env t) {key value : Bytes}
    (ha : t.Add env key value = Result.ret t1 none) : FilterInv env t1 := by
  have hc : t.closed = false := (Writer.Add_keeps ha).1
  rw [Writer.Add_eq hc] at ha
  split at ha
  · exact FilterInv_Flush (FilterInv_buffered h key value) ha
  · simp only [Result.ret.injEq, and_true] at ha
    rw [← ha]
    exact FilterInv_buffered h key value

/-- A run whose calls all return `nil` either has no `Finish`, or it is a run
without `Finish` followed by one `Finish`, whose flush leaves an index entry
pending. -/
theorem runOk_cases {env : Env} {t t1 : Writer} {ops : List Op}
    (hr : runOk env t ops = some t1) :
    (∀ op ∈ ops, op ≠ Op.finish) ∨
    ∃ pre t2 t3, ops = pre ++ [Op.finish] ∧ (∀ op ∈ pre, op ≠ Op.finish) ∧
      runOk env t pre = some t2 ∧ t2.Flush env = Result.ret t3 none ∧ t3.pindex = true ∧
      t2.Finish env = Result.ret t1 none := by
  rcases runOk_shape ops hr with hno | ⟨pre, rfl, hno⟩
  · exact Or.inl hno
  · obtain ⟨t2, hr2, hf⟩ := runOk_finish_last hr
    obtain ⟨t3, hF, hp, -, -⟩ := Writer.Finish_index hf
    exact Or.inr ⟨pre, t2, t3, rfl, hno, hr2, hF, hp, hf⟩

/-- Invariants of a run of `Add` and `Flush` calls from `NewWriter` that all
return `nil`. -/
theorem open_run {env : Env} {w : Sink} {ops : List Op} {t : Writer}
    (hno : ∀ op ∈ ops, op ≠ Op.finish) (hr : runOk env (NewWriter env w) ops = some t) :
    Inv env w.data.length t (addsOf ops) ∧ FilterInv env t := by
  have h1 := Inv_runOk ops (Inv_NewWriter env w) hno hr
  simp only [List.nil_append] at h1
  refine ⟨h1, ?_⟩
  exact @runOk_induction env (fun (t : Writer) (_ : List Entry) => FilterInv env t)
    (fun t t1 _ key value h ha => FilterInv_Add h ha)
    (fun t t1 _ h hf => FilterInv_Flush h hf) ops (NewWriter env w) t []
    (FilterInv_NewWriter env w) hno hr

theorem log_eq_dataBlocks {l : List Event}
    (h : ∀ e ∈ l, ∃ r, e = Event.block r ∧ r.kind = BlockKind.data) :
    l = (dataBlocks l).map Event.block := by
  induction l with
  | nil => rfl
  | cons e es ih =>
    obtain ⟨r, rfl, hk⟩ := h e (List.mem_cons_self _ _)
    have := ih (fun e he => h e (List.mem_cons_of_mem _ he))
    simp only [dataBlocks, hk, if_true, List.map_cons]
    rw [← this]

theorem generate_before_block {base b : Nat} {L1 L2 : List BlockRecord} {r : BlockRecord}
    (h : Chained base base ((L1 ++ r :: L2).map Event.block) b) :
    ∃ pre, filterCalls L1 = pre ++ [Sum.inr r.h.offset] := by
  rcases List.eq_nil_or_concat L1 with rfl | ⟨L, q, rfl⟩
  · simp only [List.nil_append, List.map_cons, Chained] at h
    obtain ⟨h1, h2, -, -⟩ := h
    have : r.h.offset = 0 := by omega
    exact ⟨[], by simp [filterCalls, this]⟩
  · rw [List.concat_eq_append] at h ⊢
    rw [List.append_assoc, List.map_append, Chained_append] at h
    obtain ⟨m, -, h2⟩ := h
    simp only [List.singleton_append, List.map_cons, Chained] at h2
    obtain ⟨-, q2, q3, r1, r2, -, -⟩ := h2
    have : r.h.offset = q.h.offset + (q.h.size + 5) := by omega
    refine ⟨filterCalls L ++ q.entries.map (fun (kv : Entry) => (Sum.inl kv.1 : Bytes ⊕ Nat)), ?_⟩
    rw [filterCalls_append, blockCalls, this, List.append_assoc]

theorem keys_of_adds (es : List Entry) :
    (es.map (fun (kv : Entry) => (Sum.inl kv.1 : Bytes ⊕ Nat))).filterMap Sum.getLeft?
      = es.map Prod.fst := by
  induction es with
  | nil => rfl
  | cons e es ih => simp [ih]

theorem filterCalls_keys (L : List BlockRecord) :
    (filterCalls L).filterMap Sum.getLeft?
      = ((L.map (fun r => r.entries)).flatten).map Prod.fst := by
  induction L using List.reverseRecOn with
  | nil => simp [filterCalls]
  | append_singleton L r ih =>
    rw [filterCalls_append, List.filterMap_append, ih, blockCalls, List.filterMap_append,
      keys_of_adds]
    simp

/-- A `Finish` that returns `nil` leaves the filter builder, the data block
builder and the data blocks written as its flush left them. -/
theorem Writer.Finish_builders {env : Env} {t t1 t3 : Writer}
    (hf : t.Finish env = Result.ret t1 none) (hF : t.Flush env = Result.ret t3 none) :
    t1.filterBlock = t3.filterBlock ∧ t1.dataBlock = t3.dataBlock ∧
      dataBlocks t1.log = dataBlocks t3.log := by
  obtain ⟨t0, hF0, -, -, hlog⟩ := Writer.Finish_index hf
  obtain ⟨t00, wf, fi, ev, off1, cm, Pm, wm, ci, Pi, wi, w6, hF1, -, -, -, -, -, -, -, -,
    rfl⟩ := Writer.Finish_ok hf
  rw [hF] at hF0 hF1
  simp only [Result.ret.injEq, and_true] at hF0 hF1
  subst hF0
  subst hF1
  exact ⟨rfl, rfl, hlog⟩

/-- C16: filter bucketing. With a filter configured, in every state reached
from `NewWriter` by calls that all returned `nil`, the calls the filter builder
has received are `Generate(0)`, then for each data block written, in order,
`Add` of each of its keys followed by `Generate` at the offset just past the
block's five trailer bytes, then `Add` of the keys of the block being built;
the keys added are the keys passed to `Add`, in order; and the `Generate` that
precedes the `Add` calls of a data block carries the offset of that block. -/
theorem filter_calls_follow_blocks (env : Env) (w : Sink) (ops : List Op) (flt : Filter)
    (hflt : env.o.filter = some flt) (t : Writer)
    (hr : runOk env (NewWriter env w) ops = some t) :
    t.filterBlock = some
      { calls := filterCalls (dataBlocks t.log)
          ++ t.dataBlock.entries.map (fun (kv : Entry) => (Sum.inl kv.1 : Bytes ⊕ Nat)) } ∧
    (filterCalls (dataBlocks t.log)
        ++ t.dataBlock.entries.map (fun (kv : Entry) => (Sum.inl kv.1 : Bytes ⊕ Nat))).filterMap Sum.getLeft?
      = (addsOf ops).map Prod.fst ∧
    (∀ r ∈ dataBlocks t.log,
      r.start = w.data.length + r.h.offset ∧
      r.stop = w.data.length + (r.h.offset + (r.h.size + 5))) ∧
    (∀ L1 r L2, dataBlocks t.log = L1 ++ r :: L2 →
      ∃ pre, filterCalls L1 = pre ++ [Sum.inr r.h.offset]) := by
  have hne : env.o.filter ≠ none := by simp [hflt]
  have key : ∀ (t0 : Writer) (adds : List Entry), Inv env w.data.length t0 adds →
      FilterInv env t0 →
      t0.filterBlock = some
        { calls := filterCalls (dataBlocks t0.log)
            ++ t0.dataBlock.entries.map (fun (kv : Entry) => (Sum.inl kv.1 : Bytes ⊕ Nat)) } ∧
      (filterCalls (dataBlocks t0.log)
          ++ t0.dataBlock.entries.map (fun (kv : Entry) => (Sum.inl kv.1 : Bytes ⊕ Nat))).filterMap Sum.getLeft?
        = adds.map Prod.fst ∧
      (∀ r ∈ dataBlocks t0.log,
        r.start = w.data.length + r.h.offset ∧
        r.stop = w.data.length + (r.h.offset + (r.h.size + 5))) ∧
      (∀ L1 r L2, dataBlocks t0.log = L1 ++ r :: L2 →
        ∃ pre, filterCalls L1 = pre ++ [Sum.inr r.h.offset]) := by
    intro t0 adds hi hfi
    refine ⟨hfi.2 hne, ?_, ?_, ?_⟩
    · rw [List.filterMap_append, filterCalls_keys, ← hi.pairs, List.map_append,
        keys_of_adds]
    · intro r hr
      obtain ⟨h1, h2, -⟩ := (Chained_block_bounds hi.chain).2 r hr
      exact ⟨h1, by omega⟩
    · intro L1 r L2 hsplit
      have hc := hi.chain
      rw [log_eq_dataBlocks hi.onlyData, hsplit] at hc
      exact generate_before_block hc
  rcases runOk_cases hr with hno | ⟨pre, t2, t3, rfl, hno, hr2, hF, -, hf⟩
  · obtain ⟨hi, hfi⟩ := open_run hno hr
    exact key t (addsOf ops) hi hfi
  · obtain ⟨hi, hfi⟩ := open_run hno hr2
    obtain ⟨b1, b2, b3⟩ := Writer.Finish_builders hf hF
    have := key t3 (addsOf pre) (Inv_Flush hi hF) (FilterInv_Flush hfi hF)
    rw [b1, b2, b3, addsOf_append]
    simpa [addsOf] using this

theorem filter_calls_follow_blocks_witness :
    demoFinalF.filterBlock = some
      { calls := filterCalls (dataBlocks demoFinalF.log)
          ++ demoFinalF.dataBlock.entries.map (fun (kv : Entry) => (Sum.inl kv.1 : Bytes ⊕ Nat)) } ∧
    (filterCalls (dataBlocks demoFinalF.log)
        ++ demoFinalF.dataBlock.entries.map (fun (kv : Entry) => (Sum.inl kv.1 : Bytes ⊕ Nat))).filterMap Sum.getLeft?
      = (addsOf (demoOps ++ [Op.finish])).map Prod.fst ∧
    (∀ r ∈ dataBlocks demoFinalF.log,
      r.start = emptySink.data.length + r.h.offset ∧
      r.stop = emptySink.data.length + (r.h.offset + (r.h.size + 5))) ∧
    (∀ L1 r L2, dataBlocks demoFinalF.log = L1 ++ r :: L2 →
      ∃ pre, filterCalls L1 = pre ++ [Sum.inr r.h.offset]) :=
  filter_calls_follow_blocks demoEnvF emptySink (demoOps ++ [Op.finish]) { Name := [102] } rfl
    demoFinalF demoFinalF_run

/-- C15: footer anchoring. In a run from `NewWriter` whose calls all return
`nil`, a `Finish` that returns `nil` adds to the history, in this order, the
pending data block when no index entry was pending, the filter block exactly
when a filter is configured, the meta block, the index block and the footer;
the footer is written once, last, from the handles of the meta block and of the
index block; all of them lie end to end in the sink, each handle giving the
position and the payload length of its block; and the footer starts at `Size()`
minus the footer length, which is the index offset plus the index size plus
five, and its bytes are the last bytes of the sink. -/
theorem Finish_write_order (env : Env) (w : Sink) (ops : List Op)
    (hops : ∀ op ∈ ops, op ≠ Op.finish) (t0 t : Writer)
    (h0 : runOk env (NewWriter env w) ops = some t0)
    (hf : t0.Finish env = Result.ret t none) :
    ∃ dataEv filterEv mrec irec fstart,
      t.log = t0.log ++ dataEv ++ filterEv ++
        [Event.block mrec, Event.block irec,
         Event.footer mrec.h irec.h fstart t.w.data.length] ∧
      ((t0.pindex = true ∧ dataEv = []) ∨
       (t0.pindex = false ∧ ∃ r, dataEv = [Event.block r] ∧ r.kind = BlockKind.data ∧
          r.entries = t0.dataBlock.entries)) ∧
      ((env.o.filter = none ∧ filterEv = []) ∨
       (env.o.filter ≠ none ∧ ∃ r, filterEv = [Event.block r] ∧ r.kind = BlockKind.filter)) ∧
      mrec.kind = BlockKind.metaindex ∧ irec.kind = BlockKind.index ∧
      (∀ e ∈ t0.log, ∃ r, e = Event.block r ∧ r.kind = BlockKind.data) ∧
      Chained w.data.length w.data.length t.log t.w.data.length ∧
      fstart = w.data.length + (irec.h.offset + irec.h.size + 5) ∧
      t.Size = (irec.h.offset + irec.h.size + 5) + (env.footerBytes mrec.h irec.h).length ∧
      ∃ pre, t.w.data = pre ++ env.footerBytes mrec.h irec.h ∧ pre.length = fstart := by
  obtain ⟨hi, hfi⟩ := open_run hops h0
  have hd := Done_Finish hi hf
  obtain ⟨t00, wf, fi, ev, off1, cm, Pm, wm, ci, Pi, wi, w6, hF, hp0, hc0, hst, -, -, -, -,
    hd6, rfl⟩ := Writer.Finish_ok hf
  have hfi0 := FilterInv_Flush hfi hF
  have hdata : ∃ dataEv, t00.log = t0.log ++ dataEv ∧
      ((t0.pindex = true ∧ dataEv = []) ∨
       (t0.pindex = false ∧ ∃ r, dataEv = [Event.block r] ∧ r.kind = BlockKind.data ∧
          r.entries = t0.dataBlock.entries)) := by
    obtain ⟨-, ⟨hp, rfl⟩ | ⟨hp, c, P, w1, -, -, rfl⟩⟩ := Writer.Flush_ok hF
    · exact ⟨[], by simp, Or.inl ⟨hp, rfl⟩⟩
    · exact ⟨_, rfl, Or.inr ⟨hp, _, rfl, rfl, rfl⟩⟩
  have hfilter : (env.o.filter = none ∧ ev = []) ∨
      (env.o.filter ≠ none ∧ ∃ r, ev = [Event.block r] ∧ r.kind = BlockKind.filter) := by
    rcases hst with ⟨hn, -, -, rfl, -⟩ | ⟨f, c, P, hs, -, -, -, rfl, -⟩
    · left
      refine ⟨?_, rfl⟩
      by_contra hne
      rw [hfi0.2 hne] at hn
      simp at hn
    · right
      refine ⟨?_, _, rfl, rfl⟩
      intro hn
      rw [hfi0.1 hn] at hs
      simp at hs
  obtain ⟨dataEv, hlog, hdcase⟩ := hdata
  have hchain := hd.chain
  have hidx := Chained_blocks hchain
    { kind := BlockKind.index, entries := (t00.lastIndex env).entries,
      start := wm.data.length, stop := wi.data.length,
      h := { offset := off1 + (Pm.length + 5), size := Pi.length } } (by simp)
  refine ⟨dataEv, ev,
    { kind := BlockKind.metaindex, entries := metaEntries env fi, start := wf.data.length,
      stop := wm.data.length, h := { offset := off1, size := Pm.length } },
    { kind := BlockKind.index, entries := (t00.lastIndex env).entries,
      start := wm.data.length, stop := wi.data.length,
      h := { offset := off1 + (Pm.length + 5), size := Pi.length } },
    wi.data.length, ?_, hdcase, hfilter, rfl, rfl, hi.onlyData, hchain, ?_, ?_, ?_⟩
  · simp only [hlog]
  · have h1 := hidx.1
    have h2 := hidx.2
    dsimp only at h1 h2 ⊢
    omega
  · dsimp only [Writer.Size]
    omega
  · refine ⟨wi.data, ?_, rfl⟩
    simpa using hd6

theorem Finish_write_order_witness :
    (∀ op ∈ demoOps, op ≠ Op.finish) ∧
    runOk demoEnvF (NewWriter demoEnvF emptySink) demoOps
      = some (exec demoEnvF (NewWriter demoEnvF emptySink) demoOps) ∧
    (exec demoEnvF (NewWriter demoEnvF emptySink) demoOps).Finish demoEnvF
      = Result.ret demoFinalF none ∧
    ∃ dataEv filterEv mrec irec fstart,
      demoFinalF.log = (exec demoEnvF (NewWriter demoEnvF emptySink) demoOps).log
        ++ dataEv ++ filterEv ++
        [Event.block mrec, Event.block irec,
         Event.footer mrec.h irec.h fstart demoFinalF.w.data.length] ∧
      (((exec demoEnvF (NewWriter demoEnvF emptySink) demoOps).pindex = true ∧ dataEv = []) ∨
       ((exec demoEnvF (NewWriter demoEnvF emptySink) demoOps).pindex = false ∧
          ∃ r, dataEv = [Event.block r] ∧ r.kind = BlockKind.data ∧
          r.entries = (exec demoEnvF (NewWriter demoEnvF emptySink) demoOps).dataBlock.entries)) ∧
      ((demoEnvF.o.filter = none ∧ filterEv = []) ∨
       (demoEnvF.o.filter ≠ none ∧
          ∃ r, filterEv = [Event.block r] ∧ r.kind = BlockKind.filter)) ∧
      mrec.kind = BlockKind.metaindex ∧ irec.kind = BlockKind.index ∧
      (∀ e ∈ (exec demoEnvF (NewWriter demoEnvF emptySink) demoOps).log,
        ∃ r, e = Event.block r ∧ r.kind = BlockKind.data) ∧
      Chained emptySink.data.length emptySink.data.length demoFinalF.log
        demoFinalF.w.data.length ∧
      fstart = emptySink.data.length + (irec.h.offset + irec.h.size + 5) ∧
      demoFinalF.Size
        = (irec.h.offset + irec.h.size + 5) + (demoEnvF.footerBytes mrec.h irec.h).length ∧
      ∃ pre, demoFinalF.w.data = pre ++ demoEnvF.footerBytes mrec.h irec.h ∧
        pre.length = fstart :=
  ⟨demoOps_no_finish, by decide, by decide,
    Finish_write_order demoEnvF emptySink demoOps demoOps_no_finish
      (exec demoEnvF (NewWriter demoEnvF emptySink) demoOps) demoFinalF
      (by decide) (by decide)⟩

/-- The history after `Finish`, whatever it returns: it is the history left by
the flush followed by the records of the blocks that were written completely,
in the order filter block, meta block, index block, footer; the meta block holds
the pairs `metaEntries` of the filter handle, and the footer is recorded exactly
when `Finish` returns `nil`. -/
theorem Writer.Finish_log {env : Env} {t t1 : Writer} {err : Option Err}
    (h : t.Finish env = Result.ret t1 err) :
    (∃ e, err = some e ∧ t.Flush env = Result.ret t1 (some e)) ∨
    ∃ t0, t.Flush env = Result.ret t0 none ∧
      ((err ≠ none ∧ t0.filterBlock ≠ none ∧ t1.log = t0.log) ∨
       ∃ fi ev,
        ((t0.filterBlock = none ∧ ev = [] ∧ fi = { offset := 0, size := 0 }) ∨
         (t0.filterBlock ≠ none ∧
            ∃ fr, ev = [Event.block fr] ∧ fr.kind = BlockKind.filter ∧ fr.h = fi)) ∧
        ((err ≠ none ∧ t1.log = t0.log ++ ev) ∨
         ∃ mrec, mrec.kind = BlockKind.metaindex ∧ mrec.entries = metaEntries env fi ∧
          ((err ≠ none ∧ t1.log = t0.log ++ ev ++ [Event.block mrec]) ∨
           ∃ irec, irec.kind = BlockKind.index ∧
            ((err ≠ none ∧ t1.log = t0.log ++ ev ++ [Event.block mrec, Event.block irec]) ∨
             ∃ s e1, err = none ∧
               t1.log = t0.log ++ ev ++
                 [Event.block mrec, Event.block irec, Event.footer mrec.h irec.h s e1])))) := by
  have hclosed : t.closed = false := by
    cases hc : t.closed
    · rfl
    · simp [Writer.Finish, hc] at h
  unfold Writer.Finish at h
  simp only [hclosed, Bool.false_eq_true, if_false] at h
  cases hF : t.Flush env with
  | panic => simp [hF] at h
  | ret t0 e0 =>
    cases e0 with
    | some e =>
      simp only [hF, Result.ret.injEq] at h
      obtain ⟨rfl, rfl⟩ := h
      exact Or.inl ⟨e, rfl, rfl⟩
    | none =>
      simp only [hF] at h
      refine Or.inr ⟨t0, rfl, ?_⟩
      split at h
      · rename_i t2 fi e hfs
        simp only [Result.ret.injEq] at h
        obtain ⟨rfl, rfl⟩ := h
        split at hfs
        · rename_i f hfb
          split at hfs
          · rename_i hwr
            simp only [Prod.mk.injEq] at hfs
            obtain ⟨rfl, -, -⟩ := hfs
            refine Or.inl ⟨by simp, ?_, ?_⟩
            · intro hn
              simp [hn] at hfb
            · rw [Writer.write_frame hwr]
          · simp at hfs
        · simp at hfs
      · rename_i t2 fi hfs
        have k2 : ∃ ev, t2.log = t0.log ++ ev ∧
            ((t0.filterBlock = none ∧ ev = [] ∧ fi = { offset := 0, size := 0 }) ∨
             (t0.filterBlock ≠ none ∧
                ∃ fr, ev = [Event.block fr] ∧ fr.kind = BlockKind.filter ∧ fr.h = fi)) := by
          split at hfs
          · rename_i f hfb
            split at hfs
            · simp at hfs
            · rename_i t2a fia hwr
              simp only [Prod.mk.injEq, and_true] at hfs
              obtain ⟨rfl, rfl⟩ := hfs
              refine ⟨_, ?_, Or.inr ⟨?_,
                BlockRecord.mk BlockKind.filter [] t0.w.data.length t2a.w.data.length fia,
                rfl, rfl, rfl⟩⟩
              · dsimp only
                rw [Writer.write_frame hwr]
              · intro hn
                simp [hn] at hfb
          · rename_i hfb
            simp only [Prod.mk.injEq, and_true] at hfs
            obtain ⟨rfl, rfl⟩ := hfs
            exact ⟨[], by simp, Or.inl ⟨by simpa using hfb, rfl, rfl⟩⟩
        obtain ⟨ev, hlog2, hstage⟩ := k2
        refine Or.inr ⟨fi, ev, hstage, ?_⟩
        split at h
        · rename_i t3 mb e hwm
          simp only [Result.ret.injEq] at h
          obtain ⟨rfl, rfl⟩ := h
          refine Or.inl ⟨by simp, ?_⟩
          rw [Writer.write_frame hwm]
          exact hlog2
        · rename_i t3 mb hwm
          have hlog3 : t3.log = t0.log ++ ev := by
            rw [Writer.write_frame hwm]
            exact hlog2
          have hme : (match env.o.filter with
              | some flt => (BlockWriter.NewWriter env.o.blockRestartInterval).Add
                  (filterKeyPrefix ++ flt.Name) (bInfo.encode env fi)
              | none => BlockWriter.NewWriter env.o.blockRestartInterval).entries
              = metaEntries env fi := by
            unfold metaEntries
            cases env.o.filter <;> simp [BlockWriter.NewWriter, BlockWriter.Add]
          simp only [hme] at h
          refine Or.inr ⟨BlockRecord.mk BlockKind.metaindex (metaEntries env fi)
            t2.w.data.length t3.w.data.length mb, rfl, rfl, ?_⟩
          generalize ht4 : (if t3.pindex = true then
              ({ ({ t3 with log := t3.log ++ [Event.block
                      (BlockRecord.mk BlockKind.metaindex (metaEntries env fi)
                        t2.w.data.length t3.w.data.length mb)] } : Writer) with
                  indexBlock :=
                    t3.indexBlock.Add (env.o.comparer.Successor t3.lkey) (t3.lblock.encode env)
                  pindex := false } : Writer)
            else
              ({ t3 with log := t3.log ++ [Event.block
                    (BlockRecord.mk BlockKind.metaindex (metaEntries env fi)
                      t2.w.data.length t3.w.data.length mb)] } : Writer)) = t4 at h
          have hlog4 : t4.log = t0.log ++ ev ++ [Event.block
              (BlockRecord.mk BlockKind.metaindex (metaEntries env fi)
                t2.w.data.length t3.w.data.length mb)] := by
            rw [← ht4, ← hlog3]
            split <;> rfl
          split at h
          · rename_i t5 ib e hwi
            simp only [Result.ret.injEq] at h
            obtain ⟨rfl, rfl⟩ := h
            refine Or.inl ⟨by simp, ?_⟩
            rw [Writer.write_frame hwi]
            exact hlog4
          · rename_i t5 ib hwi
            have hlog5 : t5.log = t4.log := by
              rw [Writer.write_frame hwi]
            refine Or.inr ⟨BlockRecord.mk BlockKind.index t4.indexBlock.entries
              t4.w.data.length t5.w.data.length ib, rfl, ?_⟩
            split at h
            · rename_i w6 n6 e hft
              simp only [Result.ret.injEq] at h
              obtain ⟨rfl, rfl⟩ := h
              refine Or.inl ⟨by simp, ?_⟩
              dsimp only
              rw [hlog5, hlog4]
              simp
            · rename_i w6 n6 hft
              simp only [Result.ret.injEq] at h
              obtain ⟨rfl, rfl⟩ := h
              refine Or.inr ⟨t5.w.data.length, w6.data.length, rfl, ?_⟩
              dsimp only
              rw [hlog5, hlog4]
              simp

/-- Whatever `Flush` returns, the filter builder stays present or absent, and
the history is unchanged or has grown by the record of one data block. -/
theorem Writer.Flush_log {env : Env} {t t1 : Writer} {err : Option Err}
    (h : t.Flush env = Result.ret t1 err) :
    (t1.filterBlock = none ↔ t.filterBlock = none) ∧
    (t1.log = t.log ∨ ∃ r, r.kind = BlockKind.data ∧ t1.log = t.log ++ [Event.block r]) := by
  cases err with
  | some e =>
    obtain ⟨-, -, -, -, hk⟩ := Writer.Flush_frame h
    obtain ⟨-, -, k3, k4, -⟩ := hk (by simp)
    exact ⟨by rw [k3], Or.inl k4⟩
  | none =>
    obtain ⟨-, ⟨-, rfl⟩ | ⟨-, c, P, w1, -, -, rfl⟩⟩ := Writer.Flush_ok h
    · exact ⟨Iff.rfl, Or.inl rfl⟩
    · refine ⟨by simp [Writer.flushed], Or.inr ⟨_, ?_, rfl⟩⟩
      rfl

/-- In every state reached from `NewWriter`, whatever the calls returned, the
filter builder is present exactly when a filter is configured, and the history
of a writer that is not closed holds data blocks only. -/
theorem exec_open (env : Env) (w : Sink) (ops : List Op) :
    ((exec env (NewWriter env w) ops).filterBlock = none ↔ env.o.filter = none) ∧
    ((exec env (NewWriter env w) ops).closed = false →
      ∀ e ∈ (exec env (NewWriter env w) ops).log,
        ∃ r, e = Event.block r ∧ r.kind = BlockKind.data) := by
  refine exec_invariant
    (fun t => (t.filterBlock = none ↔ env.o.filter = none) ∧
      (t.closed = false → ∀ e ∈ t.log, ∃ r, e = Event.block r ∧ r.kind = BlockKind.data))
    ?_ ops ?_
  · intro t t1 op err hq hs
    have hflush : ∀ (a b : Writer) (er : Option Err),
        ((a.filterBlock = none ↔ env.o.filter = none) ∧
          (a.closed = false → ∀ e ∈ a.log, ∃ r, e = Event.block r ∧ r.kind = BlockKind.data)) →
        a.Flush env = Result.ret b er →
        ((b.filterBlock = none ↔ env.o.filter = none) ∧
          (b.closed = false → ∀ e ∈ b.log, ∃ r, e = Event.block r ∧ r.kind = BlockKind.data)) := by
      intro a b er ha hf
      obtain ⟨k1, k2⟩ := Writer.Flush_log hf
      obtain ⟨-, -, -, kc, -⟩ := Writer.Flush_frame hf
      refine ⟨k1.trans ha.1, ?_⟩
      intro hc e he
      rw [kc] at hc
      rcases k2 with k2 | ⟨r, hr, k2⟩
      · rw [k2] at he
        exact ha.2 hc e he
      · rw [k2, List.mem_append, List.mem_singleton] at he
        rcases he with he | rfl
        · exact ha.2 hc e he
        · exact ⟨r, rfl, hr⟩
    have hbuf : ∀ key value, t.closed = false →
        (((t.buffered env key value).filterBlock = none ↔ env.o.filter = none) ∧
          ((t.buffered env key value).closed = false →
            ∀ e ∈ (t.buffered env key value).log,
              ∃ r, e = Event.block r ∧ r.kind = BlockKind.data)) := by
      intro key value hc
      refine ⟨?_, fun _ => hq.2 hc⟩
      rw [← hq.1]
      simp [Writer.buffered]
    cases op with
    | flush => exact hflush t t1 err hq hs
    | add key value =>
      simp only [Writer.step] at hs
      have hc : t.closed = false := (Writer.Add_keeps hs).1
      rw [Writer.Add_eq hc] at hs
      split at hs
      · exact hflush _ t1 err (hbuf key value hc) hs
      · simp only [Result.ret.injEq] at hs
        obtain ⟨rfl, -⟩ := hs
        exact hbuf key value hc
    | finish =>
      simp only [Writer.step] at hs
      obtain ⟨-, -, ⟨t0, hF, hcl⟩ | ⟨e, rfl, hF, -⟩⟩ := Writer.Finish_ret hs
      · refine ⟨?_, fun hc => by simp [hcl] at hc⟩
        have h1 : t1.filterBlock = none ↔ t.filterBlock = none :=
          Writer.Finish_compose
            (fun a b _ => (b.filterBlock = none ↔ a.filterBlock = none))
            (fun a b c _ h1 h2 => h2.trans h1)
            (fun a b _ _ _ _ _ _ h7 _ => by show (_ ↔ _); rw [h7])
            (fun a b _ _ _ _ _ hw => by show (_ ↔ _); rw [Writer.write_frame hw])
            (fun a b _ _ _ _ _ _ _ _ _ _ h7 _ => by show (_ ↔ _); rw [h7])
            (fun a b _ hf => (Writer.Flush_log hf).1) hs
        exact h1.trans hq.1
      · exact hflush t t1 _ hq hF
  · refine ⟨?_, fun _ e he => by simp [NewWriter] at he⟩
    cases hf : env.o.filter <;> simp [NewWriter, hf]

/-- C18: meta block contents. Take any state reached from `NewWriter`, whatever
the earlier calls returned, and a `Finish` on it that returns, with or without
an error. Every meta block this leaves in the history was written by this
`Finish` after all data blocks. With no filter configured it has no entry and
directly follows the data blocks. With a filter configured it directly follows
the record of the filter block, and it has exactly one entry: the key is the
bytes of `"filter."` followed by the filter name, the value is the encoding of
the handle the pipeline call set for that filter block. When `Finish` returns
`nil` the history does hold a meta block. -/
theorem meta_block_contents (env : Env) (w : Sink) (ops : List Op) (t1 : Writer)
    (err : Option Err)
    (hf : (exec env (NewWriter env w) ops).Finish env = Result.ret t1 err) :
    (∀ m, Event.block m ∈ t1.log → m.kind = BlockKind.metaindex →
      ∃ (data : List BlockRecord) (post : List Event),
        (∀ r ∈ data, r.kind = BlockKind.data) ∧
        ((env.o.filter = none ∧ m.entries = [] ∧
            t1.log = data.map Event.block ++ [Event.block m] ++ post) ∨
         (∃ flt fr, env.o.filter = some flt ∧ fr.kind = BlockKind.filter ∧
            m.entries = [(filterKeyPrefix ++ flt.Name, fr.h.encode env)] ∧
            t1.log = data.map Event.block ++ [Event.block fr, Event.block m] ++ post))) ∧
    (err = none → ∃ m, Event.block m ∈ t1.log ∧ m.kind = BlockKind.metaindex) := by
  obtain ⟨hfilt, hdata⟩ := exec_open env w ops
  generalize exec env (NewWriter env w) ops = t at hf hfilt hdata
  have hclosed : t.closed = false := (Writer.Finish_ret hf).1
  have hd := hdata hclosed
  have hnometa : ∀ (l : List Event),
      (∀ e ∈ l, ∃ r, e = Event.block r ∧ (r.kind = BlockKind.data ∨ r.kind = BlockKind.filter)) →
      ∀ m, Event.block m ∈ l → m.kind = BlockKind.metaindex → False := by
    intro l hl m hm hk
    obtain ⟨r, hr, hrk⟩ := hl _ hm
    cases hr
    rw [hk] at hrk
    rcases hrk with h | h <;> cases h
  rcases Writer.Finish_log hf with ⟨e, rfl, hF⟩ | ⟨t0, hF, hrest⟩
  · obtain ⟨-, -, -, -, hk⟩ := Writer.Flush_frame hF
    obtain ⟨-, -, -, k4, -⟩ := hk (by simp)
    refine ⟨fun m hm hk => ?_, by simp⟩
    rw [k4] at hm
    exact (hnometa t.log (fun e he => by
      obtain ⟨r, h1, h2⟩ := hd e he
      exact ⟨r, h1, Or.inl h2⟩) m hm hk).elim
  · obtain ⟨kfb, klog⟩ := Writer.Flush_log hF
    have hd0 : ∀ e ∈ t0.log, ∃ r, e = Event.block r ∧ r.kind = BlockKind.data := by
      intro e he
      rcases klog with k | ⟨r, hr, k⟩
      · rw [k] at he
        exact hd e he
      · rw [k, List.mem_append, List.mem_singleton] at he
        rcases he with he | rfl
        · exact hd e he
        · exact ⟨r, rfl, hr⟩
    have hlog0 := log_eq_dataBlocks hd0
    have hkinds : ∀ r ∈ dataBlocks t0.log, r.kind = BlockKind.data := by
      intro r hr
      have : Event.block r ∈ t0.log := by
        rw [hlog0]
        exact List.mem_map_of_mem _ hr
      obtain ⟨r1, h1, h2⟩ := hd0 _ this
      cases h1
      exact h2
    have hfilt0 : t0.filterBlock = none ↔ env.o.filter = none := kfb.trans hfilt
    rcases hrest with ⟨hne, -, hl⟩ | ⟨fi, ev, hstage, hrest⟩
    · refine ⟨fun m hm hk => ?_, fun h => absurd h hne⟩
      rw [hl] at hm
      exact (hnometa t0.log (fun e he => by
        obtain ⟨r, h1, h2⟩ := hd0 e he
        exact ⟨r, h1, Or.inl h2⟩) m hm hk).elim
    · have hpre : ∀ e ∈ t0.log ++ ev, ∃ r, e = Event.block r ∧
          (r.kind = BlockKind.data ∨ r.kind = BlockKind.filter) := by
        intro e he
        rw [List.mem_append] at he
        rcases he with he | he
        · obtain ⟨r, h1, h2⟩ := hd0 e he
          exact ⟨r, h1, Or.inl h2⟩
        · rcases hstage with ⟨-, rfl, -⟩ | ⟨-, fr, rfl, hfr, -⟩
          · simp at he
          · rw [List.mem_singleton] at he
            exact ⟨fr, he, Or.inr hfr⟩
      rcases hrest with ⟨hne, hl⟩ | ⟨mrec, hmk, hme, hrest⟩
      · refine ⟨fun m hm hk => ?_, fun h => absurd h hne⟩
        rw [hl] at hm
        exact (hnometa _ hpre m hm hk).elim
      · have hshape : ∃ post, t1.log = t0.log ++ ev ++ [Event.block mrec] ++ post ∧
            ∀ m, Event.block m ∈ post → m.kind ≠ BlockKind.metaindex := by
          rcases hrest with ⟨-, hl⟩ | ⟨irec, hik, ⟨-, hl⟩ | ⟨s, e1, -, hl⟩⟩
          · exact ⟨[], by simpa using hl, by simp⟩
          · refine ⟨[Event.block irec], by simpa using hl, ?_⟩
            intro m hm
            simp only [List.mem_singleton, Event.block.injEq] at hm
            rw [hm, hik]
            decide
          · refine ⟨[Event.block irec, Event.footer mrec.h irec.h s e1], by simpa using hl, ?_⟩
            intro m hm
            simp only [List.mem_cons, Event.block.injEq, List.mem_singleton, reduceCtorEq,
              List.not_mem_nil, or_false] at hm
            rw [hm, hik]
            decide
        obtain ⟨post, hl, hpost⟩ := hshape
        refine ⟨fun m hm hk => ?_, fun _ => ⟨mrec, by rw [hl]; simp, hmk⟩⟩
        have hm1 : m = mrec := by
          rw [hl, List.mem_append, List.mem_append, List.mem_singleton] at hm
          rcases hm with (hm | hm) | hm
          · exact (hnometa _ hpre m hm hk).elim
          · exact Event.block.inj hm
          · exact absurd hk (hpost m hm)
        subst hm1
        refine ⟨dataBlocks t0.log, post, hkinds, ?_⟩
        rcases hstage with ⟨hnone, rfl, -⟩ | ⟨hsome, fr, rfl, hfr, hfi⟩
        · have hfn := hfilt0.1 hnone
          refine Or.inl ⟨hfn, ?_, ?_⟩
          · rw [hme]
            simp [metaEntries, hfn]
          · rw [hl, List.append_nil, ← hlog0]
        · cases hflt : env.o.filter with
          | none => exact absurd (hfilt0.2 hflt) hsome
          | some flt =>
            refine Or.inr ⟨flt, fr, rfl, hfr, ?_, ?_⟩
            · rw [hme, hfi]
              simp [metaEntries, hflt]
            · rw [hl, ← hlog0]
              simp

theorem meta_block_contents_witness :
    (exec demoEnvF (NewWriter demoEnvF emptySink) demoOps).Finish demoEnvF
      = Result.ret demoFinalF none ∧
    ((∀ m, Event.block m ∈ demoFinalF.log → m.kind = BlockKind.metaindex →
      ∃ (data : List BlockRecord) (post : List Event),
        (∀ r ∈ data, r.kind = BlockKind.data) ∧
        ((demoEnvF.o.filter = none ∧ m.entries = [] ∧
            demoFinalF.log = data.map Event.block ++ [Event.block m] ++ post) ∨
         (∃ flt fr, demoEnvF.o.filter = some flt ∧ fr.kind = BlockKind.filter ∧
            m.entries = [(filterKeyPrefix ++ flt.Name, fr.h.encode demoEnvF)] ∧
            demoFinalF.log
              = data.map Event.block ++ [Event.block fr, Event.block m] ++ post))) ∧
     ((none : Option Err) = none →
        ∃ m, Event.block m ∈ demoFinalF.log ∧ m.kind = BlockKind.metaindex)) :=
  ⟨by decide, meta_block_contents demoEnvF emptySink demoOps demoFinalF none (by decide)⟩

/-- A `Flush` with no index entry pending is one pipeline call on the finished
data block: it returns what that call returns and leaves the sink and the byte
counter as that call left them. -/
theorem Writer.Flush_call {env : Env} {t : Writer} (hc : t.closed = false)
    (hp : t.pindex = false) :
    ∃ b bi err, t.write env (t.dataBlock.Finish env) t.lblock false = (b, bi, err) ∧
      ∃ t1, t.Flush env = Result.ret t1 err ∧ t1.w = b.w ∧ t1.off = b.off := by
  unfold Writer.Flush
  simp only [hc, hp, Bool.false_eq_true, if_false]
  split
  · rename_i t2 bi e hwr
    exact ⟨t2, bi, some e, hwr, _, rfl, rfl, rfl⟩
  · rename_i t2 bi hwr
    refine ⟨t2, bi, none, hwr, ?_⟩
    dsimp only
    split
    · exact ⟨_, rfl, rfl, rfl⟩
    · exact ⟨_, rfl, rfl, rfl⟩

/-- C17: flush trigger and frame of `Add`. On a writer that is not closed, take
the size of the data block builder after the pair is inserted. When it is at
least the configured block size, `Add` makes exactly one pipeline call, on the
data block holding the buffered pairs and the new pair: it returns what that
call returns and leaves the sink and `Size()` as that call left them; when it
returns `nil` the sink has grown by exactly the framed payload of that block,
`Size()` by its length, and the history by the record of that one data block;
and it does return `nil` on a sink and with a snappy that never fail. When the
size is below the block size, `Add` returns `nil`, leaves the sink, `Size()` and
the history unchanged, and the pair is in the builder. -/
theorem Add_flushes_at_block_size (env : Env) (t : Writer) (key value : Bytes)
    (hc : t.closed = false) :
    (((t.dataBlock.Add key value).Size env : Int) ≥ env.o.blockSize →
      (∃ b bi err,
        (t.buffered env key value).write env ((t.dataBlock.Add key value).Finish env)
          t.lblock false = (b, bi, err) ∧
        ∃ t1, t.Add env key value = Result.ret t1 err ∧ t1.w = b.w ∧ t1.Size = b.off) ∧
      (∀ t1, t.Add env key value = Result.ret t1 none →
        ∃ c P, compress env ((t.dataBlock.Add key value).Finish env) false = Except.ok (c, P) ∧
          t1.w.data = t.w.data ++ framed env c P ∧
          t1.Size = t.Size + (P.length + 5) ∧
          t1.dataBlock.entries = [] ∧
          t1.log = t.log ++ [Event.block
            (BlockRecord.mk BlockKind.data (t.dataBlock.entries ++ [(key, value)])
              t.w.data.length t1.w.data.length (bInfo.mk t.off P.length))]) ∧
      ((∀ b, ∃ c, env.snappyEncode b = Except.ok c) → t.w.Reliable →
        ∃ t1, t.Add env key value = Result.ret t1 none)) ∧
    (((t.dataBlock.Add key value).Size env : Int) < env.o.blockSize →
      ∃ t1, t.Add env key value = Result.ret t1 none ∧ t1.w = t.w ∧ t1.Size = t.Size ∧
        t1.log = t.log ∧ t1.dataBlock.entries = t.dataBlock.entries ++ [(key, value)]) := by
  have hbd : (t.buffered env key value).dataBlock = t.dataBlock.Add key value := rfl
  have hbc : (t.buffered env key value).closed = false := hc
  have hbp : (t.buffered env key value).pindex = false := rfl
  constructor
  · intro hsz
    have hadd : t.Add env key value = (t.buffered env key value).Flush env := by
      rw [Writer.Add_eq hc, hbd, if_pos hsz]
    refine ⟨?_, ?_, ?_⟩
    · obtain ⟨b, bi, err, hw, t1, hF, h1, h2⟩ := Writer.Flush_call hbc hbp
      exact ⟨b, bi, err, hw, t1, by rw [hadd]; exact hF, h1, h2⟩
    · intro t1 h1
      rw [hadd] at h1
      obtain ⟨-, ⟨hp, -⟩ | ⟨-, c, P, w1, hcp, hd, rfl⟩⟩ := Writer.Flush_ok h1
      · rw [hbp] at hp
        cases hp
      · exact ⟨c, P, hcp, hd, rfl, rfl, rfl⟩
    · intro hs hw
      obtain ⟨t1, h1, -, -⟩ := Writer.Add_reliable hs hc hw key value
      exact ⟨t1, h1⟩
  · intro hsz
    refine ⟨t.buffered env key value, ?_, rfl, rfl, rfl, rfl⟩
    rw [Writer.Add_eq hc, hbd, if_neg (not_le.2 hsz)]

theorem Add_flushes_at_block_size_witness :
    (NewWriter demoEnv emptySink).closed = false ∧
    ((((NewWriter demoEnv emptySink).dataBlock.Add [2] [5, 5, 5, 5, 5, 5]).Size demoEnv : Int)
      ≥ demoEnv.o.blockSize) ∧
   (((((NewWriter demoEnv emptySink).dataBlock.Add [2] [5, 5, 5, 5, 5, 5]).Size demoEnv : Int) ≥ demoEnv.o.blockSize →
      (∃ b bi err,
        ((NewWriter demoEnv emptySink).buffered demoEnv [2] [5, 5, 5, 5, 5, 5]).write demoEnv (((NewWriter demoEnv emptySink).dataBlock.Add [2] [5, 5, 5, 5, 5, 5]).Finish demoEnv)
          (NewWriter demoEnv emptySink).lblock false = (b, bi, err) ∧
        ∃ t1, (NewWriter demoEnv emptySink).Add demoEnv [2] [5, 5, 5, 5, 5, 5] = Result.ret t1 err ∧ t1.w = b.w ∧ t1.Size = b.off) ∧
      (∀ t1, (NewWriter demoEnv emptySink).Add demoEnv [2] [5, 5, 5, 5, 5, 5] = Result.ret t1 none →
        ∃ c P, compress demoEnv (((NewWriter demoEnv emptySink).dataBlock.Add [2] [5, 5, 5, 5, 5, 5]).Finish demoEnv) false = Except.ok (c, P) ∧
          t1.w.data = (NewWriter demoEnv emptySink).w.data ++ framed demoEnv c P ∧
          t1.Size = (NewWriter demoEnv emptySink).Size + (P.length + 5) ∧
          t1.dataBlock.entries = [] ∧
          t1.log = (NewWriter demoEnv emptySink).log ++ [Event.block
            (BlockRecord.mk BlockKind.data ((NewWriter demoEnv emptySink).dataBlock.entries ++ [([2], [5, 5, 5, 5, 5, 5])])
              (NewWriter demoEnv emptySink).w.data.length t1.w.data.length (bInfo.mk (NewWriter demoEnv emptySink).off P.length))]) ∧
      ((∀ b, ∃ c, demoEnv.snappyEncode b = Except.ok c) → (NewWriter demoEnv emptySink).w.Reliable →
        ∃ t1, (NewWriter demoEnv emptySink).Add demoEnv [2] [5, 5, 5, 5, 5, 5] = Result.ret t1 none)) ∧
    ((((NewWriter demoEnv emptySink).dataBlock.Add [2] [5, 5, 5, 5, 5, 5]).Size demoEnv : Int) < demoEnv.o.blockSize →
      ∃ t1, (NewWriter demoEnv emptySink).Add demoEnv [2] [5, 5, 5, 5, 5, 5] = Result.ret t1 none ∧ t1.w = (NewWriter demoEnv emptySink).w ∧ t1.Size = (NewWriter demoEnv emptySink).Size ∧
        t1.log = (NewWriter demoEnv emptySink).log ∧ t1.dataBlock.entries = (NewWriter demoEnv emptySink).dataBlock.entries ++ [([2], [5, 5, 5, 5, 5, 5])])) :=
  ⟨rfl, by decide,
    Add_flushes_at_block_size demoEnv (NewWriter demoEnv emptySink) [2] [5, 5, 5, 5, 5, 5] rfl⟩

/-! ## Index keys and the caller's key buffers -/

theorem Writer.store_same (t : Writer) : t.store t.lkey = t := by
  simp [Writer.store]

/-- The last key after a call that returns: the key passed, for `Add`; the
last key as it was, for `Flush` and `Finish`. -/
theorem Writer.step_lkey {env : Env} {t t1 : Writer} {op : Op} {err : Option Err}
    (h : t.step env op = Result.ret t1 err) :
    t1.lkey = (match op with
      | Op.add key _ => key
      | _ => t.lkey) := by
  cases op with
  | add key value => exact (Writer.Add_frame h).1
  | flush => exact (Writer.Flush_frame h).1
  | finish =>
    exact Writer.Finish_compose (fun a b _ => b.lkey = a.lkey)
      (fun a b c _ h1 h2 => by show c.lkey = a.lkey; exact h2.trans h1)
      (fun a b _ _ _ _ h5 _ _ _ => h5)
      (fun a b _ _ _ _ _ hw => by show b.lkey = a.lkey; rw [Writer.write_frame hw])
      (fun a b _ _ _ _ _ _ _ _ h5 _ _ _ => h5)
      (fun a b _ hf => (Writer.Flush_frame hf).1) h

theorem opsOf_snoc (calls : List Call) (o : Op) :
    opsOf (calls ++ [Call.op o]) = opsOf calls ++ [o] := by
  induction calls with
  | nil => rfl
  | cons c cs ih =>
    cases c with
    | op o1 => simp [opsOf, ih]
    | store b => simp [opsOf, ih]

theorem keepsKeys_snoc_finish (calls : List Call) :
    ∀ k, keepsKeys k (calls ++ [Call.op Op.finish]) = keepsKeys k calls := by
  induction calls with
  | nil => intro k; rfl
  | cons c cs ih =>
    intro k
    cases c with
    | op o1 =>
      cases o1 with
      | add key value => simp [keepsKeys, ih]
      | flush => simp [keepsKeys, ih]
      | finish => simp [keepsKeys, ih]
    | store b => simp [keepsKeys, ih]

/-- For a caller that leaves its keys as they are, the stores change nothing:
the run is the run of its calls. -/
theorem runCalls_keeps {env : Env} (calls : List Call) :
    ∀ (t : Writer) (k : Bytes), t.lkey = k → keepsKeys k calls = true →
      runCalls env t calls = runOk env t (opsOf calls) := by
  induction calls with
  | nil => intro t k _ _; rfl
  | cons c cs ih =>
    intro t k hk hkeep
    cases c with
    | store b =>
      simp only [keepsKeys, Bool.and_eq_true, decide_eq_true_eq] at hkeep
      obtain ⟨rfl, hrest⟩ := hkeep
      have hs : t.store b = t := by rw [← hk]; exact Writer.store_same t
      simp only [runCalls, Writer.call, opsOf, hs]
      exact ih t b hk hrest
    | op o =>
      simp only [runCalls, Writer.call, opsOf, runOk]
      cases hs : t.step env o with
      | panic => rfl
      | ret t1 err =>
        cases err with
        | some e => rfl
        | none =>
          have hl := Writer.step_lkey hs
          cases o with
          | add key value => exact ih t1 key hl hkeep
          | flush => exact ih t1 k (hl.trans hk) hkeep
          | finish => exact ih t1 k (hl.trans hk) hkeep

theorem keptCalls_run :
    runCalls demoEnv (NewWriter demoEnv emptySink) (keptCalls ++ [Call.op Op.finish])
      = some demoFinal := by
  rw [runCalls_keeps (keptCalls ++ [Call.op Op.finish]) _ [] rfl (by decide)]
  exact demoFinal_run

theorem keptCalls_increasing :
    List.Chain' demoComparer.lt ([] :: (addsOf (opsOf keptCalls)).map Prod.fst) :=
  demoOps_increasing

/-- C3, as stated, fails. `Add` keeps the slice it is given as the last key, so
a caller that reuses its key buffer changes the bytes `Separator` reads. The
keys `[6]` and `[7]` are passed in the same buffer, the block of `[6]` having
been flushed in between: the comparer is a total order and meets both
contracts, the keys passed are strictly increasing, every call returns `nil`,
but the separator is computed from `[7]` and `[7]` and the index key of the
first block is `[5]`, below the key `[6]` stored in that block. -/
theorem overwritten_key_breaks_cover :
    pickyComparer.IsOrder ∧ pickyComparer.SeparatorContract ∧
    pickyComparer.SuccessorContract ∧
    List.Chain' pickyComparer.lt ((addsOf (opsOf reuseCalls)).map Prod.fst) ∧
    runCalls demoEnvP (NewWriter demoEnvP emptySink) (reuseCalls ++ [Call.op Op.finish])
      = some reuseFinal ∧
    reuseFinal.indexBlock.entries.map Prod.fst = [[5], [7]] ∧
    (dataBlocks reuseFinal.log).map (fun r => r.entries) = [[([6], [0])], [([7], [0])]] ∧
    ¬ List.Forall₂ (fun e r => ∀ kv ∈ r.entries, pickyComparer.le kv.1 e.1)
        reuseFinal.indexBlock.entries (dataBlocks reuseFinal.log) := by
  refine ⟨pickyComparer_isOrder, pickyComparer_separator, pickyComparer_successor, ?_, rfl,
    by decide, by decide, ?_⟩
  · simp only [reuseCalls, opsOf, addsOf, List.map_cons, List.map_nil, List.chain'_cons,
      List.chain'_singleton, and_true]
    decide
  · intro h
    have e1 : reuseFinal.indexBlock.entries = [([5], [0, 4]), ([7], [9, 4])] := by
      decide
    have e2 : dataBlocks reuseFinal.log =
        [BlockRecord.mk BlockKind.data [([6], [0])] 0 9 (bInfo.mk 0 4),
         BlockRecord.mk BlockKind.data [([7], [0])] 9 18 (bInfo.mk 9 4)] := by
      decide
    rw [e1, e2] at h
    simp only [List.forall₂_cons] at h
    exact absurd (h.1 ([6], [0]) (by simp)) (by decide)

/-- C3, amended: index key lower bound. If the keys passed to `Add` are strictly
increasing under the comparer, the comparer is a total order, `Separator` and
`Successor` meet their contracts, and the caller leaves the bytes of every key
it has passed to `Add` as they are (`Add` keeps the slice), then after a run of
`Add` and `Flush` calls ended by `Finish`, all returning `nil`, the index block
has one entry per data block written and the key of each entry is at or above
every key stored in its block. -/
theorem index_key_covers_block (env : Env) (w : Sink) (calls : List Call)
    (hkeep : keepsKeys [] calls = true)
    (hops : ∀ op ∈ opsOf calls, op ≠ Op.finish) (ho : env.o.comparer.IsOrder)
    (hsep : env.o.comparer.SeparatorContract) (hsuc : env.o.comparer.SuccessorContract)
    (hinc : List.Chain' env.o.comparer.lt ((addsOf (opsOf calls)).map Prod.fst))
    (t : Writer)
    (hrun : runCalls env (NewWriter env w) (calls ++ [Call.op Op.finish]) = some t) :
    List.Forall₂ (fun e r => ∀ kv ∈ r.entries, env.o.comparer.le kv.1 e.1)
      t.indexBlock.entries (dataBlocks t.log) := by
  rw [runCalls_keeps _ _ [] rfl (by rw [keepsKeys_snoc_finish]; exact hkeep),
    opsOf_snoc] at hrun
  exact covers_of_runOk env w (opsOf calls) hops ho hsep hsuc hinc t hrun

theorem index_key_covers_block_witness :
    keepsKeys [] keptCalls = true ∧
    runCalls demoEnv (NewWriter demoEnv emptySink) (keptCalls ++ [Call.op Op.finish])
      = some demoFinal ∧
    List.Forall₂ (fun e r => ∀ kv ∈ r.entries, demoEnv.o.comparer.le kv.1 e.1)
      demoFinal.indexBlock.entries (dataBlocks demoFinal.log) :=
  ⟨by decide, keptCalls_run,
    index_key_covers_block demoEnv emptySink keptCalls (by decide) demoOps_no_finish
      demoComparer_isOrder demoComparer_separator demoComparer_successor
      keptCalls_increasing.tail demoFinal keptCalls_run⟩

/-- C4, amended: index key upper bound. If the keys passed to `Add` are strictly
increasing under the comparer, the first of them above the `nil` key the writer
starts from, the comparer is a total order, `Separator` meets its contract, and
the caller leaves the bytes of every key it has passed to `Add` as they are
(`Add` keeps the slice), then after a run of `Add` and `Flush` calls ended by
`Finish`, all returning `nil`, the index key of every data block except the
last is at or below every key stored in the following data block. -/
theorem index_key_precedes_next_block (env : Env) (w : Sink) (calls : List Call)
    (hkeep : keepsKeys [] calls = true)
    (hops : ∀ op ∈ opsOf calls, op ≠ Op.finish) (ho : env.o.comparer.IsOrder)
    (hsep : env.o.comparer.SeparatorContract)
    (hinc : List.Chain' env.o.comparer.lt ([] :: (addsOf (opsOf calls)).map Prod.fst))
    (t : Writer)
    (hrun : runCalls env (NewWriter env w) (calls ++ [Call.op Op.finish]) = some t) :
    List.Forall₂ (fun e r => ∀ kv ∈ r.entries, env.o.comparer.le e.1 kv.1)
      t.indexBlock.entries.dropLast (dataBlocks t.log).tail := by
  rw [runCalls_keeps _ _ [] rfl (by rw [keepsKeys_snoc_finish]; exact hkeep),
    opsOf_snoc] at hrun
  exact precedes_of_runOk env w (opsOf calls) hops ho hsep hinc t hrun

theorem index_key_precedes_next_block_witness :
    keepsKeys [] keptCalls = true ∧
    runCalls demoEnv (NewWriter demoEnv emptySink) (keptCalls ++ [Call.op Op.finish])
      = some demoFinal ∧
    List.Forall₂ (fun e r => ∀ kv ∈ r.entries, demoEnv.o.comparer.le e.1 kv.1)
      demoFinal.indexBlock.entries.dropLast (dataBlocks demoFinal.log).tail :=
  ⟨by decide, keptCalls_run,
    index_key_precedes_next_block demoEnv emptySink keptCalls (by decide) demoOps_no_finish
      demoComparer_isOrder demoComparer_separator keptCalls_increasing demoFinal
      keptCalls_run⟩

/-- C20, as stated, fails. `Add` keeps the slice it is given as the last key.
The keys `[6]`, `[7]` and `[8]` are passed, each block being flushed, and the
caller reuses the buffer of `[7]` for `[8]`: the comparer is a total order and
meets both contracts, the keys passed are strictly increasing from the `nil`
key on, every call returns `nil`, but the second separator is computed from
`[8]` and `[8]`, and the keys inserted into the index block are `[7]`, `[5]`,
`[8]`, which is not a non-decreasing sequence. -/
theorem overwritten_key_breaks_order :
    pickyComparer.IsOrder ∧ pickyComparer.SeparatorContract ∧
    pickyComparer.SuccessorContract ∧
    List.Chain' pickyComparer.lt ([] :: (addsOf (opsOf reuseCallsLate)).map Prod.fst) ∧
    runCalls demoEnvP (NewWriter demoEnvP emptySink) (reuseCallsLate ++ [Call.op Op.finish])
      = some reuseFinalLate ∧
    reuseFinalLate.indexBlock.entries.map Prod.fst = [[7], [5], [8]] ∧
    ¬ List.Pairwise pickyComparer.le (reuseFinalLate.indexBlock.entries.map Prod.fst) := by
  have e1 : reuseFinalLate.indexBlock.entries.map Prod.fst = [[7], [5], [8]] := by
    decide
  refine ⟨pickyComparer_isOrder, pickyComparer_separator, pickyComparer_successor, ?_, rfl,
    e1, ?_⟩
  · simp only [reuseCallsLate, opsOf, addsOf, List.map_cons, List.map_nil, List.chain'_cons,
      List.chain'_singleton, and_true]
    decide
  · rw [e1]
    intro h
    simp only [List.pairwise_cons] at h
    exact absurd (h.1 [5] (by simp)) (by decide)

/-- C20, amended: the index block is built sorted. If the keys passed to `Add`
are strictly increasing under the comparer, the first of them above the `nil`
key the writer starts from, the comparer is a total order, `Separator` and
`Successor` meet their contracts, and the caller leaves the bytes of every key
it has passed to `Add` as they are (`Add` keeps the slice), then in every run
of `Add` and `Flush` calls that all return `nil`, and also after a `Finish`
that returns `nil` at its end, the keys of the index block are in non-decreasing
order. -/
theorem index_keys_sorted (env : Env) (w : Sink) (calls : List Call)
    (hkeep : keepsKeys [] calls = true)
    (hops : ∀ op ∈ opsOf calls, op ≠ Op.finish) (ho : env.o.comparer.IsOrder)
    (hsep : env.o.comparer.SeparatorContract) (hsuc : env.o.comparer.SuccessorContract)
    (hinc : List.Chain' env.o.comparer.lt ([] :: (addsOf (opsOf calls)).map Prod.fst)) :
    (∀ t, runCalls env (NewWriter env w) calls = some t →
      List.Pairwise env.o.comparer.le (t.indexBlock.entries.map Prod.fst)) ∧
    (∀ t, runCalls env (NewWriter env w) (calls ++ [Call.op Op.finish]) = some t →
      List.Pairwise env.o.comparer.le (t.indexBlock.entries.map Prod.fst)) := by
  have key := sorted_of_runOk env w (opsOf calls) hops ho hsep hsuc hinc
  constructor
  · intro t hrun
    rw [runCalls_keeps _ _ [] rfl hkeep] at hrun
    exact key.1 t hrun
  · intro t hrun
    rw [runCalls_keeps _ _ [] rfl (by rw [keepsKeys_snoc_finish]; exact hkeep),
      opsOf_snoc] at hrun
    exact key.2 t hrun

theorem index_keys_sorted_witness :
    keepsKeys [] keptCalls = true ∧
    runCalls demoEnv (NewWriter demoEnv emptySink) (keptCalls ++ [Call.op Op.finish])
      = some demoFinal ∧
    ((∀ t, runCalls demoEnv (NewWriter demoEnv emptySink) keptCalls = some t →
      List.Pairwise demoEnv.o.comparer.le (t.indexBlock.entries.map Prod.fst)) ∧
    (∀ t, runCalls demoEnv (NewWriter demoEnv emptySink) (keptCalls ++ [Call.op Op.finish])
        = some t →
      List.Pairwise demoEnv.o.comparer.le (t.indexBlock.entries.map Prod.fst))) :=
  ⟨by decide, keptCalls_run,
    index_keys_sorted demoEnv emptySink keptCalls (by decide) demoOps_no_finish
      demoComparer_isOrder demoComparer_separator demoComparer_successor
      keptCalls_increasing⟩

end Table
